import Mathlib

/-!
Verification of the `wordwrap` package (treilik/reflow, src/wordwrap/wordwrap.go).

The Go code is shallowly embedded: byte buffers become `List Nat` (one entry
per byte), rune buffers become `List Char`, Go `int` arithmetic that can go
negative is done in `Int`, and operations that can panic or diverge return
`Option` (with `none` marking an abnormal exit).  The two external
collaborators that the spec leaves at their interface (the printable-width
function from the `ansi` package and the per-rune display width from
go-runewidth) are modelled from the spec, as are the Go runtime primitives
(UTF-8 decoding of `range` over a string, `unicode.IsSpace`).
-/

namespace WordwrapModel

/-- UTF-8 encoded size in bytes of one code point (Go `utf8.RuneLen` on
valid runes; all Lean `Char`s are valid scalar values). -/
def utf8Size (c : Char) : Nat :=
  if c.val.toNat < 0x80 then 1
  else if c.val.toNat < 0x800 then 2
  else if c.val.toNat < 0x10000 then 3
  else 4

/-- UTF-8 encoding of one code point as a list of bytes. -/
def utf8Char (c : Char) : List Nat :=
  let v := c.val.toNat
  if v < 0x80 then [v]
  else if v < 0x800 then [0xC0 + v / 0x40, 0x80 + v % 0x40]
  else if v < 0x10000 then
    [0xE0 + v / 0x1000, 0x80 + v / 0x40 % 0x40, 0x80 + v % 0x40]
  else
    [0xF0 + v / 0x40000, 0x80 + v / 0x1000 % 0x40,
     0x80 + v / 0x40 % 0x40, 0x80 + v % 0x40]

/-- UTF-8 encoding of a rune sequence (Go `[]byte(string)`). -/
def utf8Str (s : List Char) : List Nat :=
  s.flatMap utf8Char

/-- Byte length of a rune buffer (Go `bytes.Buffer.Len`). -/
def byteLen (s : List Char) : Nat :=
  (s.map utf8Size).sum

/-- Decoding of one code point, Go style (`utf8.DecodeRuneInString`):
returns the rune and the unconsumed bytes.  Second bytes are restricted
per first byte so that overlong encodings, surrogates and values above
U+10FFFF are rejected; any invalid sequence yields U+FFFD and consumes
exactly one byte. -/
def decodeStep (b0 : Nat) (rest : List Nat) : Char × List Nat :=
  if b0 < 0x80 then
    (Char.ofNat b0, rest)
  else if 0xC2 ≤ b0 ∧ b0 ≤ 0xDF then
    match rest with
    | b1 :: rest1 =>
      if 0x80 ≤ b1 ∧ b1 ≤ 0xBF then
        (Char.ofNat ((b0 - 0xC0) * 0x40 + (b1 - 0x80)), rest1)
      else ('�', b1 :: rest1)
    | [] => ('�', [])
  else if 0xE0 ≤ b0 ∧ b0 ≤ 0xEF then
    match rest with
    | b1 :: b2 :: rest2 =>
      if (if b0 = 0xE0 then 0xA0 ≤ b1 ∧ b1 ≤ 0xBF
          else if b0 = 0xED then 0x80 ≤ b1 ∧ b1 ≤ 0x9F
          else 0x80 ≤ b1 ∧ b1 ≤ 0xBF) ∧ 0x80 ≤ b2 ∧ b2 ≤ 0xBF then
        (Char.ofNat ((b0 - 0xE0) * 0x1000 + (b1 - 0x80) * 0x40 + (b2 - 0x80)),
          rest2)
      else ('�', b1 :: b2 :: rest2)
    | [b1] => ('�', [b1])
    | [] => ('�', [])
  else if 0xF0 ≤ b0 ∧ b0 ≤ 0xF4 then
    match rest with
    | b1 :: b2 :: b3 :: rest3 =>
      if (if b0 = 0xF0 then 0x90 ≤ b1 ∧ b1 ≤ 0xBF
          else if b0 = 0xF4 then 0x80 ≤ b1 ∧ b1 ≤ 0x8F
          else 0x80 ≤ b1 ∧ b1 ≤ 0xBF) ∧
          0x80 ≤ b2 ∧ b2 ≤ 0xBF ∧ 0x80 ≤ b3 ∧ b3 ≤ 0xBF then
        (Char.ofNat ((b0 - 0xF0) * 0x40000 + (b1 - 0x80) * 0x1000 +
            (b2 - 0x80) * 0x40 + (b3 - 0x80)), rest3)
      else ('�', b1 :: b2 :: b3 :: rest3)
    | [b1, b2] => ('�', [b1, b2])
    | [b1] => ('�', [b1])
    | [] => ('�', [])
  else
    ('�', rest)

/-- The decoding loop, driven by fuel (structural recursion); each step
consumes at least the first byte, so fuel `bs.length` suffices. -/
def decodeGoF : Nat → List Nat → List Char
  | 0, _ => []
  | _ + 1, [] => []
  | fuel + 1, b0 :: rest =>
    let p := decodeStep b0 rest
    p.1 :: decodeGoF fuel p.2

/-- Go's `range` over a string: decode UTF-8, each byte of an invalid
sequence yielding U+FFFD. -/
def decodeGo (bs : List Nat) : List Char :=
  decodeGoF bs.length bs

/-- Modelled from the spec: wide East Asian code points that occupy two
terminal columns (go-runewidth is an external collaborator; the spec only
requires a per-character width of typically 1, sometimes 2, and 0 for
control bytes). -/
def isWideRune (c : Char) : Bool :=
  let v := c.val.toNat
  (0x1100 ≤ v ∧ v ≤ 0x115F) ∨ (0x2E80 ≤ v ∧ v ≤ 0x303E) ∨
  (0x3041 ≤ v ∧ v ≤ 0x33FF) ∨ (0x3400 ≤ v ∧ v ≤ 0x4DBF) ∨
  (0x4E00 ≤ v ∧ v ≤ 0x9FFF) ∨ (0xA000 ≤ v ∧ v ≤ 0xA4CF) ∨
  (0xAC00 ≤ v ∧ v ≤ 0xD7A3) ∨ (0xF900 ≤ v ∧ v ≤ 0xFAFF) ∨
  (0xFE30 ≤ v ∧ v ≤ 0xFE4F) ∨ (0xFF00 ≤ v ∧ v ≤ 0xFF60) ∨
  (0xFFE0 ≤ v ∧ v ≤ 0xFFE6) ∨ (0x20000 ≤ v ∧ v ≤ 0x2FFFD) ∨
  (0x30000 ≤ v ∧ v ≤ 0x3FFFD)

/-- Modelled from the spec: the per-character terminal display width
(`runewidth.RuneWidth`): 0 for control characters, 2 for wide East Asian
characters, 1 otherwise. -/
def runeWidth (c : Char) : Nat :=
  let v := c.val.toNat
  if v < 0x20 ∨ (0x7F ≤ v ∧ v < 0xA0) then 0
  else if isWideRune c then 2 else 1

/-- Go `unicode.IsSpace`: code points with the Unicode White_Space
property. -/
def isSpaceGo (c : Char) : Bool :=
  let v := c.val.toNat
  (0x9 ≤ v ∧ v ≤ 0xD) ∨ v = 0x20 ∨ v = 0x85 ∨ v = 0xA0 ∨ v = 0x1680 ∨
  (0x2000 ≤ v ∧ v ≤ 0x200A) ∨ v = 0x2028 ∨ v = 0x2029 ∨ v = 0x202F ∨
  v = 0x205F ∨ v = 0x3000

/-- ANSI sequence terminator letters (`wordwrap.go` line 197): ASCII
`0x40`–`0x5A` or `0x61`–`0x7A`. -/
def isTerm (c : Char) : Bool :=
  (0x40 ≤ c.val.toNat ∧ c.val.toNat ≤ 0x5A) ∨
  (0x61 ≤ c.val.toNat ∧ c.val.toNat ≤ 0x7A)

/-- One step of the ANSI-skipping scanner: inside a sequence after the
escape marker, until a terminator letter. -/
def ansiStep (a : Bool) (c : Char) : Bool :=
  if c = '\x1B' then true
  else if a then (if isTerm c then false else true)
  else false

/-- Scanner state after a rune sequence, starting from state `a`. -/
def ansiScan (a : Bool) (s : List Char) : Bool :=
  s.foldl ansiStep a

/-- Modelled from the spec: printable width of a rune sequence
(`ansi.Buffer.PrintableRuneWidth`, an external collaborator): escape
sequence bytes count 0, every other rune counts its display width. -/
def prwFrom : Bool → List Char → Nat
  | _, [] => 0
  | a, c :: cs =>
    if c = '\x1B' then prwFrom true cs
    else if a then (if isTerm c then prwFrom false cs else prwFrom true cs)
    else runeWidth c + prwFrom false cs

/-- Printable width of a rune sequence, scanning from the clean state. -/
def prw (s : List Char) : Nat := prwFrom false s

/-- Splitting a byte sequence at newline bytes (`0x0A`); the entries are
the output lines, the final entry being the (possibly empty) current
line. -/
def splitNL (bs : List Nat) : List (List Nat) :=
  bs.foldr (fun b acc =>
    match acc with
    | [] => if b = 0x0A then [[], []] else [[b]]
    | l :: ls => if b = 0x0A then [] :: (l :: ls) else (b :: l) :: ls) [[]]

/-- Splitting a rune sequence at `'\n'`. -/
def splitNLC (cs : List Char) : List (List Char) :=
  cs.foldr (fun c acc =>
    match acc with
    | [] => if c = '\n' then [[], []] else [[c]]
    | l :: ls => if c = '\n' then [] :: (l :: ls) else (c :: l) :: ls) [[]]

/-- The `WordWrap` record (`wordwrap.go` lines 20–43): configuration plus
mutable engine state.  `buf` holds finalized bytes; `space` and `word`
hold pending runes; `limit` is a Go `int`; `lineLen` never goes negative
in the code and is kept as `Nat`. -/
structure WordWrap where
  limit : Int
  breakpoints : List Char
  newline : List Char
  keepNewlines : Bool
  hardWrap : Bool
  tabReplace : List Char
  preserveSpaces : Bool
  buf : List Nat
  space : List Char
  word : List Char
  lineLen : Nat
  ansi : Bool
  wroteBegin : Bool
  lastAnsi : List Char
  newArgument : Bool
  leadingZero : Bool
  deriving Repr, DecidableEq

/-- `NewWriter` (lines 47–54): default breakpoints `{'-'}`, newline set
`{'\n'}`, `KeepNewlines = true`, everything else zero. -/
def NewWriter (limit : Int) : WordWrap where
  limit := limit
  breakpoints := ['-']
  newline := ['\n']
  keepNewlines := true
  hardWrap := false
  tabReplace := []
  preserveSpaces := false
  buf := []
  space := []
  word := []
  lineLen := 0
  ansi := false
  wroteBegin := false
  lastAnsi := []
  newArgument := false
  leadingZero := false

/-- `inGroup` (lines 130–137). -/
def inGroup (a : List Char) (c : Char) : Bool := a.contains c

/-- The `for length >= w.Limit` loop of `addSpace` (lines 95–98): emits
`"\n"` followed by `limit` spaces while `length` is at least `limit`;
returns the emitted runes and the remaining length.  The loop is driven
by a fuel argument (structural recursion); `addSpace` supplies fuel
`length`, which suffices because there `limit ≥ 1` and every iteration
removes `limit` from `length`. -/
def addSpaceLoopF : Nat → Nat → Nat → List Char × Nat
  | 0, _, length => ([], length)
  | fuel + 1, limit, length =>
    if limit ≤ length ∧ 0 < limit then
      let out := addSpaceLoopF fuel limit (length - limit)
      ('\n' :: List.replicate limit ' ' ++ out.1, out.2)
    else ([], length)

/-- The `addSpace` emission loop with its fuel instantiated. -/
def addSpaceLoop (limit length : Nat) : List Char × Nat :=
  addSpaceLoopF length limit length

/-- `addSpace` (lines 86–105): commits pending spaces.  If the run fits in
the remaining width it is committed whole; otherwise the current line is
filled, whole lines of spaces are emitted, and the leftover starts a new
partial line.  Returns `none` exactly when the Go code does not return
normally: `strings.Repeat` panics on a negative count (reached when
`lineLen` exceeds `limit`), and the emission loop never terminates when
`limit ≤ 0` with spaces left over. -/
def addSpace (w : WordWrap) : Option WordWrap :=
  if (byteLen w.space : Int) ≤ w.limit - (w.lineLen : Int) then
    some { w with lineLen := w.lineLen + byteLen w.space,
                  buf := w.buf ++ utf8Str w.space,
                  space := [] }
  else
    if w.limit - (w.lineLen : Int) < 0 then none
    else if w.limit ≤ 0 then none
    else
      let first : Nat := (w.limit - (w.lineLen : Int)).toNat
      let rest : Nat := byteLen w.space - first
      let out := addSpaceLoop w.limit.toNat rest
      let tail : List Char :=
        if 0 < out.2 then '\n' :: List.replicate out.2 ' ' else []
      some { w with
              buf := w.buf ++ utf8Str (List.replicate first ' ' ++ out.1 ++ tail),
              lineLen := out.2,
              space := [] }

/-- `addWord` (lines 107–114): if a word is pending, first commit pending
spaces, then commit the word's bytes and add its printable width to
`lineLen`. -/
def addWord (w : WordWrap) : Option WordWrap :=
  if w.word ≠ [] then do
    let w1 ← addSpace w
    some { w1 with lineLen := w1.lineLen + prw w1.word,
                   buf := w1.buf ++ utf8Str w1.word,
                   word := [] }
  else some w

/-- `addNewLine` (lines 116–128): optionally flush spaces, emit a style
reset if a style is active, append the line break, reset per-line state. -/
def addNewLine (w : WordWrap) : Option WordWrap := do
  let w1 ← if w.preserveSpaces then addSpace w else some w
  let w2 :=
    if w1.lastAnsi ≠ [] then
      { w1 with buf := w1.buf ++ utf8Str ['\x1B', '[', '0', 'm'] }
    else w1
  some { w2 with buf := w2.buf ++ utf8Char '\n',
                 lineLen := 0,
                 space := [],
                 wroteBegin := false }

/-- The body of `Write`'s per-rune loop (lines 154–250), for one rune. -/
def step (w0 : WordWrap) (c : Char) : Option WordWrap := do
  -- Restart ANSI after line break if there is more text (lines 155–159)
  let w1 ←
    if ¬w0.wroteBegin ∧ ¬w0.ansi ∧ w0.lastAnsi ≠ [] then
      addWord { w0 with buf := w0.buf ++ utf8Str w0.lastAnsi }
    else some w0
  let w := { w1 with wroteBegin := true }
  if c = '\x1B' then
    -- ANSI escape sequence (lines 161–166)
    some { w with word := w.word ++ [c], lastAnsi := w.lastAnsi ++ [c],
                  ansi := true, newArgument := true }
  else if w.ansi then
    -- lines 167–209
    if c = '0' ∧ w.newArgument then
      some { w with leadingZero := true }
    else
      let w := { w with newArgument := false }
      let w :=
        if inGroup ['1', '2', '3', '4', '5', '6', '7', '8', '9'] c then
          { w with leadingZero := false }
        else w
      if inGroup ['[', ';'] c ∧ w.leadingZero then
        -- split the sequence (lines 181–192); the semicolon is dropped
        some { w with newArgument := true,
                      lastAnsi := ['\x1B', '['],
                      leadingZero := false,
                      word := w.word ++ ['0', 'm', '\x1B', '['] }
      else
        let w :=
          if inGroup ['[', ';'] c then { w with newArgument := true } else w
        let w := { w with lastAnsi := w.lastAnsi ++ [c] }
        let w :=
          if isTerm c then
            let w :=
              if w.leadingZero then
                { w with word := w.word ++ ['0'], lastAnsi := [],
                         leadingZero := false }
              else w
            { w with ansi := false }
          else w
        some { w with word := w.word ++ [c] }
  else if inGroup w.newline c then
    -- end of current line (lines 211–225)
    let w ←
      if w.word = [] then
        if (w.lineLen : Int) + (byteLen w.space : Int) > w.limit then
          some { w with lineLen := 0, space := [] }
        else
          some { w with buf := w.buf ++ utf8Str w.space, space := [] }
      else some w
    let w ← addWord w
    addNewLine w
  else if isSpaceGo c then
    -- end of current word (lines 226–229)
    let w ← addWord w
    some { w with space := w.space ++ [c] }
  else if inGroup w.breakpoints c then
    -- valid breakpoint (lines 230–234)
    let w ← addSpace w
    let w ← addWord w
    some { w with buf := w.buf ++ utf8Char c }
  else if w.hardWrap ∧
      (w.lineLen : Int) + (prw w.word : Int) + (runeWidth c : Int) +
        (byteLen w.space : Int) = w.limit then
    -- word is at the limit -> begin new word (lines 235–238)
    addWord { w with word := w.word ++ [c] }
  else
    -- any other character (lines 239–248)
    let w := { w with word := w.word ++ [c] }
    if (w.lineLen : Int) + (byteLen w.space : Int) + (prw w.word : Int) >
          w.limit ∧ (prw w.word : Int) < w.limit then
      addNewLine w
    else
      some w

/-- The input preprocessing of `Write` (lines 145–152): decode the bytes
as Go's `range` does, then apply the `KeepNewlines` trimming/collapsing
and the `HardWrap` tab replacement. -/
def preprocess (w : WordWrap) (b : List Nat) : List Char :=
  let s := decodeGo b
  let s :=
    if ¬w.keepNewlines then
      ((s.dropWhile isSpaceGo).reverse.dropWhile isSpaceGo).reverse.map
        (fun c => if c = '\n' then ' ' else c)
    else s
  if w.hardWrap then
    s.flatMap (fun c => if c = '\t' then w.tabReplace else [c])
  else s

/-- `Write` (lines 140–253): with `limit == 0` the input bytes are copied
verbatim; otherwise the preprocessed runes run through the per-rune loop. -/
def write (w : WordWrap) (b : List Nat) : Option WordWrap :=
  if w.limit = 0 then
    some { w with buf := w.buf ++ b }
  else
    (preprocess w b).foldlM step w

/-- `Close` (lines 257–264): flush pending spaces when `PreserveSpaces`,
then flush the pending word. -/
def close (w : WordWrap) : Option WordWrap := do
  let w1 ← if w.preserveSpaces then addSpace w else some w
  addWord w1

/-- `Bytes` (lines 58–64): one write, then close, then read the buffer. -/
def BytesGo (b : List Nat) (limit : Int) : Option (List Nat) := do
  let w ← write (NewWriter limit) b
  let w ← close w
  some w.buf

/-- `String` (lines 68–70) at the rune level: the result bytes of
word-wrapping the UTF-8 encoding of `s`. -/
def StringGo (s : List Char) (limit : Int) : Option (List Nat) :=
  BytesGo (utf8Str s) limit

/-- `HardWrap` (lines 75–83). -/
def HardWrapGo (s : List Char) (limit : Int) (tabReplace : List Char) :
    Option (List Nat) := do
  let f := { NewWriter limit with hardWrap := true, tabReplace := tabReplace }
  let w ← write f (utf8Str s)
  let w ← close w
  some w.buf

/-- A sequence of `Write` calls, applied in order. -/
def writeAll (w : WordWrap) (bs : List (List Nat)) : Option WordWrap :=
  bs.foldlM write w

/-- A fresh writer with an arbitrary configuration and empty mutable
state (what Go produces by filling the exported fields of a zero-valued
`WordWrap`). -/
def mkWriter (limit : Int) (B N : List Char) (kn hw ps : Bool)
    (tr : List Char) : WordWrap :=
  ⟨limit, B, N, kn, hw, tr, ps, [], [], [], 0, false, false, [], false, false⟩

/-- One write followed by close, returning the finalized bytes. -/
def runWriter (w : WordWrap) (b : List Nat) : Option (List Nat) := do
  let w1 ← write w b
  let w2 ← close w1
  some w2.buf

/-- The current output line: the runes after the last `'\n'`. -/
def afterLastNL (cs : List Char) : List Char :=
  (cs.reverse.takeWhile (fun c => c ≠ '\n')).reverse

/-- Characters admissible in a word outside escape sequences: reachable
only through the default and hard-wrap branches of the write loop. -/
def wcharB (B N : List Char) (c : Char) : Bool :=
  ¬isSpaceGo c ∧ ¬inGroup N c ∧ ¬inGroup B c ∧ c ≠ '\n' ∧ c ≠ '\x1B'

/-- A rune sequence forming one word as the engine builds it: outside
escape sequences only word characters, inside them no newline bytes. -/
def cleanWordB (B N : List Char) : Bool → List Char → Bool
  | _, [] => true
  | a, c :: cs =>
    (if c = '\x1B' then true
     else if a then decide (c ≠ '\n')
     else wcharB B N c) && cleanWordB B N (ansiStep a c) cs

/-- The line contains a breakpoint character. -/
def hasBreakpoint (B : List Char) (l : List Char) : Bool :=
  l.any (fun c => inGroup B c)

/-- The line ends in an unbroken word (escape bytes aside) of printable
width at least `L`. -/
def endsInBigWord (B N : List Char) (L : Nat) (l : List Char) : Bool :=
  l.tails.any (fun t =>
    ¬t.isEmpty && cleanWordB B N false t && decide (L ≤ prw t))

/-- The stream never carries a newline rune inside an escape sequence
(threaded through the ANSI scanner from state `a`). -/
def ansiSafeB : Bool → List Char → Bool
  | _, [] => true
  | a, c :: cs => (¬a ∨ decide (c ≠ '\n')) && ansiSafeB (ansiStep a c) cs

/-- The stream contains no escape marker. -/
def noEsc (cs : List Char) : Bool :=
  cs.all (fun c => c ≠ '\x1B')

/-- The weight the engine's `lineLen` counter actually assigns to one
committed rune (for escape-free processing): committed whitespace counts
its UTF-8 byte length, breakpoint characters count 0, anything else its
display width. -/
def adjWeight (B : List Char) (c : Char) : Nat :=
  if isSpaceGo c then utf8Size c else if inGroup B c then 0 else runeWidth c

/-- The adjusted width of a committed line under `adjWeight`. -/
def adjWidth (B : List Char) (l : List Char) : Nat :=
  (l.map (adjWeight B)).sum

/-- Joining completed lines (each followed by a newline) with the
current line: the rune content of the output buffer. -/
def joinl (done : List (List Char)) (cur : List Char) : List Char :=
  (done.map (fun l => l ++ ['\n'])).flatten ++ cur

/-- A finished output line is within bounds, or excepted: it contains a
breakpoint character, or it ends in an unbroken word of printable width
at least `L`, or it begins with a full-width run of spaces produced by a
space-run split and the remainder is within bounds. -/
def okLine (B N : List Char) (L : Nat) (l : List Char) : Prop :=
  prw l ≤ L ∨ hasBreakpoint B l = true ∨ endsInBigWord B N L l = true ∨
  (∃ r, l = List.replicate L ' ' ++ r ∧ prw r ≤ L)

/-- Like `endsInBigWord` but also requiring the suffix to end outside an
escape sequence (true of every word committed during `Write`). -/
def bigSuffC (B N : List Char) (L : Nat) (l : List Char) : Prop :=
  ∃ u t, l = u ++ t ∧ t ≠ [] ∧ cleanWordB B N false t = true ∧
    ansiScan false t = false ∧ L ≤ prw t

/-- Accounting for the current (unfinished) line against `lineLen`. -/
def curOK (B N : List Char) (L lineLen : Nat) (cur : List Char) : Prop :=
  hasBreakpoint B cur = true ∨
  (bigSuffC B N L cur ∧ L ≤ lineLen) ∨
  (∃ pre r, cur = pre ++ r ∧ (pre = [] ∨ pre = List.replicate L ' ') ∧
    prw r ≤ lineLen ∧ lineLen ≤ L)

/-- The inductive invariant of the write loop for a configuration with
limit `L ≥ 1` and `'\n'` in the newline set. -/
def Inv (L : Nat) (B N : List Char) (w : WordWrap) : Prop :=
  w.limit = (L : Int) ∧ w.breakpoints = B ∧ w.newline = N ∧
  1 ≤ L ∧ '\n' ∈ N ∧
  ∃ done cur,
    w.buf = utf8Str (joinl done cur) ∧
    (∀ l ∈ done, okLine B N L l ∧ '\n' ∉ l) ∧
    '\n' ∉ cur ∧
    ansiScan false cur = false ∧
    curOK B N L w.lineLen cur ∧
    ansiScan false w.word = w.ansi ∧
    cleanWordB B N false w.word = true ∧
    (w.wroteBegin = false → prw w.word < L ∧ cur = [] ∧ w.lineLen = 0 ∧
      w.space = [] ∧ w.ansi = false) ∧
    (w.word ≠ [] → w.lineLen + byteLen w.space + prw w.word ≤ L ∨
      L ≤ prw w.word ∨ prw w.word = 0) ∧
    (∀ c ∈ w.space, isSpaceGo c = true ∧ c ≠ '\n') ∧
    ansiScan false w.lastAnsi = w.ansi ∧
    prw w.lastAnsi = 0 ∧
    '\n' ∉ w.lastAnsi

/-- The inductive invariant of the write loop for escape-free input:
the engine's `lineLen` counter tracks the adjusted width of the current
line exactly, except that the full-width space line left by a
zero-leftover space-run split is uncounted (difference exactly `L`). -/
def InvC3 (L : Nat) (B N : List Char) (w : WordWrap) : Prop :=
  w.limit = (L : Int) ∧ w.breakpoints = B ∧ w.newline = N ∧
  1 ≤ L ∧ '\n' ∈ N ∧
  w.ansi = false ∧ w.lastAnsi = [] ∧
  ∃ done cur,
    w.buf = utf8Str (joinl done cur) ∧
    (∀ l ∈ done, '\n' ∉ l) ∧
    '\n' ∉ cur ∧
    (adjWidth B cur = w.lineLen ∨ adjWidth B cur = w.lineLen + L) ∧
    (∀ c ∈ w.word, wcharB B N c = true) ∧
    (∀ c ∈ w.space, isSpaceGo c = true ∧ c ≠ '\n')

end WordwrapModel

namespace WordwrapModel

/-! ## Theorems -/

/-- C5: for the input escape sequence `ESC[31;0;32m` (three numeric
arguments, the middle one a bare zero), the finalized output is exactly
the two consecutive sequences `ESC[31;0m` followed by `ESC[32m` — the
triggering semicolon is dropped — and after the sequence completes the
retained `lastAnsi` (active style) holds only `ESC[32m`. -/
theorem c5_multi_attribute_split :
    BytesGo (utf8Str ['\x1B', '[', '3', '1', ';', '0', ';', '3', '2', 'm']) 10 =
      some (utf8Str (['\x1B', '[', '3', '1', ';', '0', 'm'] ++
        ['\x1B', '[', '3', '2', 'm'])) ∧
    (write (NewWriter 10)
        (utf8Str ['\x1B', '[', '3', '1', ';', '0', ';', '3', '2', 'm'])).map
      WordWrap.lastAnsi = some ['\x1B', '[', '3', '2', 'm'] := by
  constructor <;> decide

/-- C6: the input escape sequence bytes `ESC[0031m` normalize to
`ESC[31m` in the output: both zeros at the start of the numeric argument
are stripped as padding because the following nonzero digit `3` clears
the pending-leading-zero flag; the retained style also holds the
normalized `ESC[31m`. -/
theorem c6_leading_zero_normalization :
    BytesGo (utf8Str ['\x1B', '[', '0', '0', '3', '1', 'm']) 10 =
      some (utf8Str ['\x1B', '[', '3', '1', 'm']) ∧
    (write (NewWriter 10) (utf8Str ['\x1B', '[', '0', '0', '3', '1', 'm'])).map
      WordWrap.lastAnsi = some ['\x1B', '[', '3', '1', 'm'] := by
  constructor <;> decide

/-- Style restoration inside `Write`: when the rune that follows a line
break is processed by the write loop (`aaaa bbbb` at limit 4, styled by
`ESC[31m`), the restart branch re-emits `ESC[31m` at the start of the
continuation line, before the first visible character of that line,
immediately followed by the word content (`bbbb`) pending from before
the break. -/
theorem c4_style_restoration :
    StringGo ('\x1B' :: ['[', '3', '1', 'm', 'a', 'a', 'a', 'a', ' ',
        'b', 'b', 'b', 'b']) 4 =
      some (utf8Str (['\x1B', '[', '3', '1', 'm', 'a', 'a', 'a', 'a'] ++
        ['\x1B', '[', '0', 'm', '\n'] ++
        ['\x1B', '[', '3', '1', 'm', 'b', 'b', 'b', 'b'])) := by
  decide

/-- C4 (refuted by the code): when the line break is forced right at the
end of the input (`ESC[31m` + `aaaa b` at limit 4), `Close` flushes the
pending word `b` without the style replay — the restart branch runs only
inside `Write`'s loop — so the continuation line of the output is the
single byte `b`: it carries the visible character with no `ESC[31m` (no
escape byte at all) before it. -/
theorem c4_counterexample :
    StringGo ['\x1B', '[', '3', '1', 'm', 'a', 'a', 'a', 'a', ' ', 'b']
        4 =
      some (utf8Str ['\x1B', '[', '3', '1', 'm', 'a', 'a', 'a', 'a',
        '\x1B', '[', '0', 'm', '\n', 'b']) ∧
    splitNL (utf8Str ['\x1B', '[', '3', '1', 'm', 'a', 'a', 'a', 'a',
        '\x1B', '[', '0', 'm', '\n', 'b']) =
      [utf8Str ['\x1B', '[', '3', '1', 'm', 'a', 'a', 'a', 'a',
        '\x1B', '[', '0', 'm'], [98]] ∧
    decodeGo [98] = ['b'] ∧ runeWidth 'b' = 1 ∧
    (27 : Nat) ∉ [(98 : Nat)] := by
  refine ⟨by decide, by decide, by decide, by decide, by decide⟩

/-- C2 (refuted by the code): feeding `aaa--` to a writer with limit 2
makes `Write` abort: after the committed word `aaa` (width 3) and the
first breakpoint, `lineLen = 3` exceeds the limit, and the second
breakpoint's space flush computes `strings.Repeat(" ", -1)`, which
panics in Go (modelled as `none`). -/
theorem c2_write_aborts :
    write (NewWriter 2) (utf8Str ['a', 'a', 'a', '-', '-']) = none := by
  decide

/-- C3 (refuted by the code): after processing the single breakpoint
character `-` (limit 5), the byte `-` has been committed to the output
with no line break emitted, so the printable width committed since the
last break is 1, yet `lineLen` is 0: the breakpoint write does not count
toward `lineVisibleLength`. -/
theorem c3_counterexample :
    (write (NewWriter 5) (utf8Str ['-'])).map
        (fun w => (w.buf, w.lineLen)) = some ([45], 0) ∧
    prw (decodeGo [45]) = 1 := by
  constructor <;> decide

/-- C1 (refuted by the code): wrapping `␣aaaa` (a space and a four-`a`
word) at limit 4 emits it unchanged as a single line of printable width
5 > 4, and that line is not a single atomic word — it contains a
whitespace character — so the stated exception does not apply. -/
theorem c1_counterexample :
    BytesGo (utf8Str [' ', 'a', 'a', 'a', 'a']) 4 =
      some (utf8Str [' ', 'a', 'a', 'a', 'a']) ∧
    splitNL (utf8Str [' ', 'a', 'a', 'a', 'a']) =
      [utf8Str [' ', 'a', 'a', 'a', 'a']] ∧
    4 < prw (decodeGo (utf8Str [' ', 'a', 'a', 'a', 'a'])) ∧
    ' ' ∈ decodeGo (utf8Str [' ', 'a', 'a', 'a', 'a']) ∧
    isSpaceGo ' ' = true := by
  refine ⟨by decide, by decide, by decide, by decide, by decide⟩

/-- With `limit == 0`, `Write` copies its input verbatim and touches no
other state (lines 141–143). -/
theorem write_limit_zero (w : WordWrap) (h : w.limit = 0) (b : List Nat) :
    write w b = some { w with buf := w.buf ++ b } := by
  simp [write, h]

/-- With `limit == 0`, any sequence of `Write` calls just concatenates
the inputs into the buffer. -/
theorem writeAll_limit_zero (bs : List (List Nat)) :
    ∀ w : WordWrap, w.limit = 0 →
      writeAll w bs = some { w with buf := w.buf ++ bs.flatten } := by
  induction bs with
  | nil => intro w h; simp [writeAll]
  | cons b bs ih =>
    intro w h
    simp only [writeAll, List.foldlM_cons, write_limit_zero w h b]
    have := ih { w with buf := w.buf ++ b } h
    simp only [writeAll] at this
    simp [this, List.flatten_cons]

/-- C8: with `limit == 0` the session is a strict passthrough: for every
sequence of write calls followed by close, the finalized buffer is the
byte-for-byte concatenation of all the write inputs, with no
transformation applied. -/
theorem c8_limit_zero_passthrough (bs : List (List Nat)) :
    (do
      let w ← writeAll (NewWriter 0) bs
      let w ← close w
      some w.buf) = some bs.flatten := by
  rw [writeAll_limit_zero bs (NewWriter 0) rfl]
  simp [close, addWord, NewWriter]

/-- Closed instance of C8 at a concrete write sequence (including bytes
that are not valid UTF-8). -/
theorem c8_limit_zero_passthrough_witness :
    (do
      let w ← writeAll (NewWriter 0) [[0xFF, 0x41], [0x0A, 0x80]]
      let w ← close w
      some w.buf) = some [0xFF, 0x41, 0x0A, 0x80] := by
  have h := c8_limit_zero_passthrough [[0xFF, 0x41], [0x0A, 0x80]]
  simpa using h

/-- One decoding step never consumes a negative number of bytes. -/
theorem decodeStep_length (b0 : Nat) (rest : List Nat) :
    (decodeStep b0 rest).2.length ≤ rest.length := by
  unfold decodeStep
  repeat' split
  all_goals simp_arith

/-- The decoding loop is fuel-irrelevant once the fuel covers the input
length. -/
theorem decodeGoF_congr : ∀ (f1 f2 : Nat) (bs : List Nat),
    bs.length ≤ f1 → bs.length ≤ f2 → decodeGoF f1 bs = decodeGoF f2 bs := by
  intro f1
  induction f1 with
  | zero =>
    intro f2 bs h1 _
    have hbs : bs = [] := by cases bs <;> simp_all
    subst hbs
    cases f2 <;> rfl
  | succ n ih =>
    intro f2 bs h1 h2
    cases bs with
    | nil => cases f2 <;> rfl
    | cons b0 rest =>
      cases f2 with
      | zero => simp at h2
      | succ m =>
        simp only [decodeGoF]
        congr 1
        have hlen := decodeStep_length b0 rest
        exact ih m (decodeStep b0 rest).2 (by simp at h1; omega)
          (by simp at h2; omega)

/-- Unfolding lemma for `decodeGo` on a nonempty byte list. -/
theorem decodeGo_cons (b0 : Nat) (rest : List Nat) :
    decodeGo (b0 :: rest) =
      (decodeStep b0 rest).1 :: decodeGo (decodeStep b0 rest).2 := by
  unfold decodeGo
  simp only [List.length_cons, decodeGoF]
  congr 1
  exact decodeGoF_congr rest.length (decodeStep b0 rest).2.length
    (decodeStep b0 rest).2 (decodeStep_length b0 rest) (le_refl _)

/-- Any lone byte at or above `0x80` fails Go's UTF-8 decoding and is
replaced by U+FFFD. -/
theorem decodeGo_invalid_single (b : Nat) (hb : 0x80 ≤ b) :
    decodeGo [b] = ['�'] := by
  have hstep : decodeStep b [] = ('�', []) := by
    unfold decodeStep
    split_ifs <;> first | rfl | (exfalso; omega)
  rw [decodeGo_cons, hstep]
  rfl

/-- C10: a byte that does not form valid UTF-8 on its own is not
preserved when `limit > 0`: it is decoded as U+FFFD and the three-byte
UTF-8 encoding `EF BF BD` appears in the output in its place, while with
`limit == 0` the same byte is copied unchanged — so byte-level
passthrough only holds in the `limit == 0` mode. -/
theorem c10_invalid_utf8_replacement (b : Nat) (L : Int) (hb : 0x80 ≤ b)
    (hL : 1 ≤ L) :
    BytesGo [b] L = some [0xEF, 0xBF, 0xBD] ∧
    BytesGo [b] 0 = some [b] ∧
    [0xEF, 0xBF, 0xBD] ≠ [b] := by
  refine ⟨?_, ?_, by simp⟩
  · have hdec : decodeGo [b] = ['�'] := decodeGo_invalid_single b hb
    have hne : ¬((NewWriter L).limit = 0) := by
      show ¬(L = 0); omega
    have hpre : preprocess (NewWriter L) [b] = decodeGo [b] := rfl
    have hstep : step (NewWriter L) '�' =
        some ⟨L, ['-'], ['\n'], true, false, [], false, [], [], ['�'], 0,
          false, true, [], false, false⟩ := by
      simp only [step, NewWriter]
      simp +decide
      intro h1 h2
      exfalso
      have he : prw ['�'] = 1 := by decide
      have hz : byteLen ([] : List Char) = 0 := rfl
      omega
    have hclose : close ⟨L, ['-'], ['\n'], true, false, [], false, [], [],
        ['�'], 0, false, true, [], false, false⟩ =
        some ⟨L, ['-'], ['\n'], true, false, [], false, [0xEF, 0xBF, 0xBD],
          [], [], 1, false, true, [], false, false⟩ := by
      simp only [close, addWord, addSpace]
      simp +decide
      rw [show ((byteLen ([] : List Char) : Int)) = 0 from rfl]
      have hc : (0 : Int) ≤ L := by omega
      rw [if_pos hc]
      simp +decide
    unfold BytesGo
    rw [write, if_neg hne, hpre, hdec]
    simp [hstep, hclose]
  · rw [BytesGo]
    show (do
      let w ← write (NewWriter 0) [b]
      let w ← close w
      some w.buf) = _
    rw [write_limit_zero (NewWriter 0) rfl [b]]
    simp [close, addWord, NewWriter]

/-- Closed instance of C10 at byte `0xFF` and limit 5. -/
theorem c10_invalid_utf8_replacement_witness :
    (0x80 ≤ 0xFF ∧ (1 : Int) ≤ 5) ∧
    BytesGo [0xFF] 5 = some [0xEF, 0xBF, 0xBD] ∧
    BytesGo [0xFF] 0 = some [0xFF] := by
  have h := c10_invalid_utf8_replacement 0xFF 5 (by decide) (by decide)
  exact ⟨⟨by decide, by decide⟩, h.1, h.2.1⟩

/-- The `addSpace` emission loop, characterized: with positive `limit`
and enough fuel, it emits one full-width line of spaces per complete
multiple of `limit` and returns the leftover. -/
theorem addSpaceLoopF_spec (limit : Nat) (hl : 0 < limit) :
    ∀ fuel length, length ≤ fuel →
      addSpaceLoopF fuel limit length =
        ((List.replicate (length / limit)
            ('\n' :: List.replicate limit ' ')).flatten,
          length % limit) := by
  intro fuel
  induction fuel with
  | zero =>
    intro length h
    have : length = 0 := by omega
    subst this
    simp [addSpaceLoopF, Nat.zero_div, Nat.zero_mod]
  | succ n ih =>
    intro length h
    by_cases hc : limit ≤ length
    · rw [addSpaceLoopF, if_pos ⟨hc, hl⟩, ih (length - limit) (by omega)]
      have h1 : length / limit = (length - limit) / limit + 1 :=
        Nat.div_eq_sub_div hl hc
      have h2 : length % limit = (length - limit) % limit :=
        Nat.mod_eq_sub_mod hc
      rw [h1, h2]
      simp [List.replicate_succ]
    · rw [addSpaceLoopF, if_neg (by tauto)]
      have hlt : length < limit := by omega
      simp [Nat.div_eq_of_lt hlt, Nat.mod_eq_of_lt hlt]

/-- `addSpace` when the pending run fits on the current line
(lines 87–89). -/
theorem addSpace_fit (w : WordWrap)
    (h : (byteLen w.space : Int) ≤ w.limit - (w.lineLen : Int)) :
    addSpace w = some { w with
      lineLen := w.lineLen + byteLen w.space,
      buf := w.buf ++ utf8Str w.space,
      space := [] } := by
  rw [addSpace, if_pos h]

/-- `addSpace` when the pending run does not fit (lines 90–103): fill the
current line, emit full-width space lines, keep the leftover. -/
theorem addSpace_split (w : WordWrap) (L : Nat)
    (hL : w.limit = (L : Int)) (hpos : 0 < L) (hline : w.lineLen ≤ L)
    (hover : L < w.lineLen + byteLen w.space) :
    addSpace w = some { w with
      buf := w.buf ++ utf8Str (List.replicate (L - w.lineLen) ' ' ++
        (List.replicate ((byteLen w.space - (L - w.lineLen)) / L)
          ('
' :: List.replicate L ' ')).flatten ++
        (if 0 < (byteLen w.space - (L - w.lineLen)) % L then
          '
' :: List.replicate ((byteLen w.space - (L - w.lineLen)) % L) ' '
         else [])),
      lineLen := (byteLen w.space - (L - w.lineLen)) % L,
      space := [] } := by
  have hfit : ¬((byteLen w.space : Int) ≤ w.limit - (w.lineLen : Int)) := by
    rw [hL]; omega
  have hneg : ¬(w.limit - (w.lineLen : Int) < 0) := by
    rw [hL]; omega
  have hz : ¬(w.limit ≤ 0) := by rw [hL]; omega
  have hfirst : (w.limit - (w.lineLen : Int)).toNat = L - w.lineLen := by
    rw [hL]; omega
  have hLt : w.limit.toNat = L := by rw [hL]; omega
  rw [addSpace, if_neg hfit, if_neg hneg, if_neg hz]
  simp only [hfirst, hLt, addSpaceLoop]
  rw [addSpaceLoopF_spec L hpos _ _ (le_refl _)]

/-- C7: when a pending run of `n` spaces does not fit in the remaining
width of the current line, `addSpace` fills the remainder of the current
line with spaces, then emits one full-width line of spaces per complete
multiple of the limit remaining, then a final partial line with the
leftover spaces, leaving `lineLen` equal to that leftover. -/
theorem c7_whitespace_run_split (w : WordWrap) (L n : Nat)
    (hL : w.limit = (L : Int)) (hpos : 0 < L) (hline : w.lineLen ≤ L)
    (hsp : w.space = List.replicate n ' ') (hover : L < w.lineLen + n) :
    addSpace w = some { w with
      buf := w.buf ++ utf8Str (List.replicate (L - w.lineLen) ' ' ++
        (List.replicate ((n - (L - w.lineLen)) / L)
          ('\n' :: List.replicate L ' ')).flatten ++
        (if 0 < (n - (L - w.lineLen)) % L then
          '\n' :: List.replicate ((n - (L - w.lineLen)) % L) ' '
         else [])),
      lineLen := (n - (L - w.lineLen)) % L,
      space := [] } := by
  have hbl : byteLen w.space = n := by
    rw [hsp]
    simp [byteLen, List.map_replicate, List.sum_replicate,
      show utf8Size ' ' = 1 from by decide, smul_eq_mul]
  have h := addSpace_split w L hL hpos hline (by omega)
  rw [hbl] at h
  exact h

/-- Closed instance of C7: a run of 12 spaces with limit 5 and
`lineLen = 3`, with `PreserveSpaces` enabled, splits as a 2-space fill,
one full 5-space line and a final 5-space line (2+5+5), leaving
`lineLen = 0`. -/
theorem c7_whitespace_run_split_witness :
    addSpace ⟨5, ['-'], ['\n'], true, false, [], true, [],
        List.replicate 12 ' ', [], 3, false, false, [], false, false⟩ =
      some ⟨5, ['-'], ['\n'], true, false, [], true,
        utf8Str ([' ', ' '] ++ ['\n', ' ', ' ', ' ', ' ', ' '] ++
          ['\n', ' ', ' ', ' ', ' ', ' ']), [], [], 0, false, false, [],
        false, false⟩ := by
  have h := c7_whitespace_run_split
    ⟨5, ['-'], ['\n'], true, false, [], true, [],
      List.replicate 12 ' ', [], 3, false, false, [], false, false⟩
    5 12 rfl (by decide) (by decide) rfl (by decide)
  rw [h]
  decide

/-- C9 (refuted by the code): with default settings and limit 1, the
escape-free input `a - a` wraps to `a\n - a`, but wrapping that output
again at limit 1 yields `a\n -\n a`: the second pass does not reproduce
the first pass's line-break layout. -/
theorem c9_counterexample :
    StringGo ['a', ' ', '-', ' ', 'a'] 1 =
      some (utf8Str ['a', '\n', ' ', '-', ' ', 'a']) ∧
    BytesGo (utf8Str ['a', '\n', ' ', '-', ' ', 'a']) 1 =
      some (utf8Str ['a', '\n', ' ', '-', '\n', ' ', 'a']) ∧
    utf8Str ['a', '\n', ' ', '-', '\n', ' ', 'a'] ≠
      utf8Str ['a', '\n', ' ', '-', ' ', 'a'] := by
  refine ⟨by decide, by decide, by decide⟩

/-! ### Scanner and width infrastructure -/

theorem ansiScan_nil (a : Bool) : ansiScan a [] = a := rfl

theorem ansiScan_cons (a : Bool) (c : Char) (cs : List Char) :
    ansiScan a (c :: cs) = ansiScan (ansiStep a c) cs := rfl

theorem ansiScan_append (a : Bool) (x y : List Char) :
    ansiScan a (x ++ y) = ansiScan (ansiScan a x) y := by
  simp [ansiScan]

theorem prwFrom_cons (a : Bool) (c : Char) (cs : List Char) :
    prwFrom a (c :: cs) =
      (if c = '\x1B' then 0 else if a then 0 else runeWidth c) +
        prwFrom (ansiStep a c) cs := by
  by_cases h1 : c = '\x1B'
  · simp [prwFrom, ansiStep, h1]
  · by_cases h2 : a
    · by_cases h3 : isTerm c
      · simp [prwFrom, ansiStep, h1, h2, h3]
      · simp [prwFrom, ansiStep, h1, h2, h3]
    · simp [prwFrom, ansiStep, h1, h2]

theorem prwFrom_append (x : List Char) : ∀ (a : Bool) (y : List Char),
    prwFrom a (x ++ y) = prwFrom a x + prwFrom (ansiScan a x) y := by
  induction x with
  | nil => intro a y; simp [prwFrom, ansiScan_nil]
  | cons c cs ih =>
    intro a y
    rw [List.cons_append, prwFrom_cons, prwFrom_cons, ih, ansiScan_cons]
    omega

theorem cleanWordB_cons (B N : List Char) (a : Bool) (c : Char)
    (cs : List Char) :
    cleanWordB B N a (c :: cs) =
      ((if c = '\x1B' then true
        else if a then decide (c ≠ '\n')
        else wcharB B N c) && cleanWordB B N (ansiStep a c) cs) := rfl

theorem cleanWordB_append (B N : List Char) (x : List Char) :
    ∀ (a : Bool) (y : List Char),
    cleanWordB B N a (x ++ y) =
      (cleanWordB B N a x && cleanWordB B N (ansiScan a x) y) := by
  induction x with
  | nil => intro a y; simp [cleanWordB, ansiScan_nil]
  | cons c cs ih =>
    intro a y
    rw [List.cons_append, cleanWordB_cons, cleanWordB_cons, ih, ansiScan_cons,
      Bool.and_assoc]

theorem isWideRune_lower (c : Char) (h : isWideRune c = true) :
    0x1100 ≤ c.val.toNat := by
  rw [isWideRune] at h
  simp only [decide_eq_true_eq] at h
  rcases h with h | h | h | h | h | h | h | h | h | h | h | h | h <;> omega

theorem one_le_utf8Size (c : Char) : 1 ≤ utf8Size c := by
  rw [utf8Size]; split_ifs <;> omega

theorem runeWidth_le_utf8Size (c : Char) : runeWidth c ≤ utf8Size c := by
  by_cases hw : isWideRune c = true
  · have h := isWideRune_lower c hw
    have h1 : 3 ≤ utf8Size c := by rw [utf8Size]; split_ifs <;> omega
    have h2 : runeWidth c ≤ 2 := by rw [runeWidth]; split_ifs <;> omega
    omega
  · have hb : isWideRune c = false := by
      revert hw; cases isWideRune c <;> simp
    have h1 := one_le_utf8Size c
    have h2 : runeWidth c ≤ 1 := by
      simp only [runeWidth, hb, Bool.false_eq_true, if_false]
      split_ifs <;> omega
    omega

theorem isSpaceGo_ne_esc (c : Char) (h : isSpaceGo c = true) :
    c ≠ '\x1B' := by
  intro he
  subst he
  exact absurd h (by decide)

/-- For sequences without the escape marker, the printable width is the
plain sum of rune widths (the scanner never enters a sequence). -/
theorem prw_all_plain (l : List Char) :
    (∀ c ∈ l, c ≠ '\x1B') → prw l = (l.map runeWidth).sum := by
  simp only [prw]
  induction l with
  | nil => intro _; rfl
  | cons c cs ih =>
    intro h
    rw [prwFrom_cons]
    have hc : c ≠ '\x1B' := h c (by simp)
    have hstep : ansiStep false c = false := by simp [ansiStep, hc]
    rw [hstep]
    simp only [hc, Bool.false_eq_true, if_false, List.map_cons,
      List.sum_cons]
    have hx := ih (fun c hc => h c (by simp [hc]))
    omega

theorem byteLen_append (x y : List Char) :
    byteLen (x ++ y) = byteLen x + byteLen y := by
  simp [byteLen]

theorem byteLen_eq_zero (x : List Char) : byteLen x = 0 ↔ x = [] := by
  cases x with
  | nil => simp [byteLen]
  | cons c cs =>
    have h1 := one_le_utf8Size c
    simp [byteLen]
    omega

theorem sum_runeWidth_le_byteLen (l : List Char) :
    (l.map runeWidth).sum ≤ byteLen l := by
  rw [byteLen]
  induction l with
  | nil => simp
  | cons c cs ih =>
    simp only [List.map_cons, List.sum_cons]
    have h1 := runeWidth_le_utf8Size c
    omega

theorem prw_le_byteLen (l : List Char) (h : ∀ c ∈ l, isSpaceGo c = true) :
    prw l ≤ byteLen l := by
  rw [prw_all_plain l (fun c hc => isSpaceGo_ne_esc c (h c hc))]
  exact sum_runeWidth_le_byteLen l

theorem prw_replicate_space (n : Nat) :
    prw (List.replicate n ' ') = n := by
  rw [prw_all_plain]
  · simp [List.map_replicate, List.sum_replicate, smul_eq_mul,
      show runeWidth ' ' = 1 from by decide]
  · intro c hc
    rw [List.eq_of_mem_replicate hc]
    decide

theorem byteLen_replicate_space (n : Nat) :
    byteLen (List.replicate n ' ') = n := by
  simp [byteLen, List.map_replicate, List.sum_replicate, smul_eq_mul,
    show utf8Size ' ' = 1 from by decide]

theorem utf8Str_append (x y : List Char) :
    utf8Str (x ++ y) = utf8Str x ++ utf8Str y := by
  simp [utf8Str]

/-! ### Line splitting -/

theorem splitNLC_cons (c : Char) (cs : List Char) :
    splitNLC (c :: cs) =
      (match splitNLC cs with
       | [] => if c = '\n' then [[], []] else [[c]]
       | l :: ls => if c = '\n' then [] :: l :: ls else (c :: l) :: ls) := rfl

theorem splitNLC_ne_nil (cs : List Char) : splitNLC cs ≠ [] := by
  cases cs with
  | nil => simp [splitNLC]
  | cons c cs =>
    rw [splitNLC_cons]
    rcases h : splitNLC cs with _ | ⟨l, ls⟩
    · split_ifs <;> simp
    · split_ifs <;> simp

theorem splitNLC_cons_of_cons (c : Char) (cs : List Char) (l : List Char)
    (ls : List (List Char)) (h : splitNLC cs = l :: ls) (hc : c ≠ '\n') :
    splitNLC (c :: cs) = (c :: l) :: ls := by
  rw [splitNLC_cons, h]
  simp [hc]

theorem splitNLC_cons_nl (cs : List Char) :
    splitNLC ('\n' :: cs) = [] :: splitNLC cs := by
  rw [splitNLC_cons]
  rcases h : splitNLC cs with _ | ⟨l, ls⟩
  · exact absurd h (splitNLC_ne_nil cs)
  · simp

theorem splitNLC_no_nl (l : List Char) (hl : '\n' ∉ l) : splitNLC l = [l] := by
  induction l with
  | nil => rfl
  | cons c cs ih =>
    have hc : c ≠ '\n' := fun h => hl (by simp [h])
    have hcs : '\n' ∉ cs := fun h => hl (by simp [h])
    rw [splitNLC_cons, ih hcs]
    simp [hc]

theorem splitNLC_append_line (l : List Char) (hl : '\n' ∉ l)
    (cs : List Char) : splitNLC (l ++ '\n' :: cs) = l :: splitNLC cs := by
  induction l with
  | nil => simpa using splitNLC_cons_nl cs
  | cons c l' ih =>
    have hc : c ≠ '\n' := fun h => hl (by simp [h])
    have hl' : '\n' ∉ l' := fun h => hl (by simp [h])
    rw [List.cons_append, splitNLC_cons, ih hl']
    simp [hc]

theorem joinl_nil (cur : List Char) : joinl [] cur = cur := by
  simp [joinl]

theorem joinl_cons (d : List Char) (ds : List (List Char)) (cur : List Char) :
    joinl (d :: ds) cur = d ++ '\n' :: joinl ds cur := by
  simp [joinl]

theorem splitNLC_joinl (done : List (List Char)) (cur : List Char)
    (hdone : ∀ l ∈ done, '\n' ∉ l) (hcur : '\n' ∉ cur) :
    splitNLC (joinl done cur) = done ++ [cur] := by
  induction done with
  | nil => rw [joinl_nil]; exact splitNLC_no_nl cur hcur
  | cons d ds ih =>
    rw [joinl_cons, splitNLC_append_line d (hdone d (by simp)) _,
      ih (fun l hl => hdone l (by simp [hl]))]
    rfl

theorem splitNL_cons (b : Nat) (bs : List Nat) :
    splitNL (b :: bs) =
      (match splitNL bs with
       | [] => if b = 0x0A then [[], []] else [[b]]
       | l :: ls => if b = 0x0A then [] :: l :: ls else (b :: l) :: ls) := rfl

theorem splitNL_ne_nil (bs : List Nat) : splitNL bs ≠ [] := by
  cases bs with
  | nil => simp [splitNL]
  | cons b bs =>
    rw [splitNL_cons]
    rcases h : splitNL bs with _ | ⟨l, ls⟩
    · split_ifs <;> simp
    · split_ifs <;> simp

theorem splitNL_cons_of_cons (b : Nat) (bs : List Nat) (l : List Nat)
    (ls : List (List Nat)) (h : splitNL bs = l :: ls) (hb : b ≠ 0x0A) :
    splitNL (b :: bs) = (b :: l) :: ls := by
  rw [splitNL_cons, h]
  simp [hb]

theorem splitNL_cons_nl (bs : List Nat) :
    splitNL (0x0A :: bs) = [] :: splitNL bs := by
  rw [splitNL_cons]
  rcases h : splitNL bs with _ | ⟨l, ls⟩
  · exact absurd h (splitNL_ne_nil bs)
  · simp

theorem splitNL_prepend (bs : List Nat) (hb : ∀ b ∈ bs, b ≠ 0x0A) :
    ∀ (rest : List Nat) (l : List Nat) (ls : List (List Nat)),
      splitNL rest = l :: ls → splitNL (bs ++ rest) = (bs ++ l) :: ls := by
  induction bs with
  | nil => intro rest l ls h; simpa using h
  | cons b bs ih =>
    intro rest l ls h
    rw [List.cons_append]
    rw [splitNL_cons_of_cons b (bs ++ rest) (bs ++ l) ls
      (ih (fun x hx => hb x (by simp [hx])) rest l ls h) (hb b (by simp))]
    rfl

theorem char_eq_of_toNat_eq (c d : Char) (h : c.val.toNat = d.val.toNat) :
    c = d := by
  apply Char.ext
  exact UInt32.toNat.inj h

theorem utf8Char_no_nl (c : Char) (hc : c ≠ '\n') :
    ∀ b ∈ utf8Char c, b ≠ 0x0A := by
  intro b hb
  rw [utf8Char] at hb
  split_ifs at hb with h1 h2 h3
  · simp at hb
    subst hb
    intro h
    exact hc (char_eq_of_toNat_eq c '\n' (by simpa using h))
  · simp at hb
    rcases hb with hb | hb <;> omega
  · simp at hb
    rcases hb with hb | hb | hb <;> omega
  · simp at hb
    rcases hb with hb | hb | hb | hb <;> omega

theorem utf8Char_nl : utf8Char '\n' = [0x0A] := by decide

theorem splitNL_utf8Str (cs : List Char) :
    splitNL (utf8Str cs) = (splitNLC cs).map utf8Str := by
  induction cs with
  | nil => rfl
  | cons c cs ih =>
    by_cases hc : c = '\n'
    · subst hc
      show splitNL (utf8Char '\n' ++ utf8Str cs) = _
      rw [utf8Char_nl, List.cons_append, List.nil_append, splitNL_cons_nl,
        ih, splitNLC_cons_nl]
      rfl
    · show splitNL (utf8Char c ++ utf8Str cs) = _
      rcases h : splitNLC cs with _ | ⟨l, ls⟩
      · exact absurd h (splitNLC_ne_nil cs)
      · have hbytes : splitNL (utf8Str cs) = utf8Str l :: ls.map utf8Str := by
          rw [ih, h]; rfl
        rw [splitNL_prepend (utf8Char c) (utf8Char_no_nl c hc) _ _ _ hbytes,
          splitNLC_cons_of_cons c cs l ls h hc]
        simp [utf8Str]

/-! ### The current line after the last newline -/

theorem takeWhile_append_stop {α : Type} (p : α → Bool) (u : List α) (a : α)
    (w : List α) (ha : p a = false) :
    (u ++ a :: w).takeWhile p = u.takeWhile p := by
  induction u with
  | nil => simp [List.takeWhile_cons, ha]
  | cons x u' ih =>
    rw [List.cons_append, List.takeWhile_cons, List.takeWhile_cons]
    cases hx : p x
    · rfl
    · rw [ih]

theorem takeWhile_all {α : Type} (p : α → Bool) (u : List α)
    (h : ∀ x ∈ u, p x = true) : u.takeWhile p = u := by
  induction u with
  | nil => rfl
  | cons x u' ih =>
    rw [List.takeWhile_cons, h x (by simp)]
    simp [ih (fun x hx => h x (by simp [hx]))]

theorem afterLastNL_no_nl (l : List Char) (hl : '\n' ∉ l) :
    afterLastNL l = l := by
  rw [afterLastNL, takeWhile_all, List.reverse_reverse]
  intro x hx
  simp only [List.mem_reverse] at hx
  simp only [decide_eq_true_eq]
  intro h
  exact hl (h ▸ hx)

theorem afterLastNL_append_nl (x y : List Char) :
    afterLastNL (x ++ '\n' :: y) = afterLastNL y := by
  rw [afterLastNL, afterLastNL]
  have : (x ++ '\n' :: y).reverse = y.reverse ++ '\n' :: x.reverse := by
    simp
  rw [this, takeWhile_append_stop _ _ '\n' _ (by simp)]

theorem afterLastNL_joinl (done : List (List Char)) (cur : List Char)
    (hcur : '\n' ∉ cur) : afterLastNL (joinl done cur) = cur := by
  induction done with
  | nil => rw [joinl_nil]; exact afterLastNL_no_nl cur hcur
  | cons d ds ih => rw [joinl_cons, afterLastNL_append_nl, ih]

/-! ### Decoding inverts encoding -/

theorem char_valid (c : Char) :
    c.val.toNat < 0xD800 ∨ (0xDFFF < c.val.toNat ∧ c.val.toNat < 0x110000) :=
  c.valid

theorem char_ofNat_toNat (c : Char) : Char.ofNat c.val.toNat = c :=
  Char.ofNat_toNat c

set_option maxRecDepth 4000 in
theorem decodeGo_utf8Char (c : Char) (rest : List Nat) :
    decodeGo (utf8Char c ++ rest) = c :: decodeGo rest := by
  have hval := char_valid c
  by_cases h1 : c.val.toNat < 0x80
  · have he : utf8Char c = [c.val.toNat] := by
      rw [utf8Char]; simp [h1]
    rw [he, List.cons_append, List.nil_append, decodeGo_cons]
    have hs : decodeStep c.val.toNat rest = (Char.ofNat c.val.toNat, rest) := by
      simp only [decodeStep]
      rw [if_pos h1]
    rw [hs, char_ofNat_toNat]
  · by_cases h2 : c.val.toNat < 0x800
    · have he : utf8Char c =
          [0xC0 + c.val.toNat / 0x40, 0x80 + c.val.toNat % 0x40] := by
        rw [utf8Char]; simp [h1, h2]
      rw [he, List.cons_append, List.cons_append, List.nil_append,
        decodeGo_cons]
      have hs : decodeStep (0xC0 + c.val.toNat / 0x40)
          ((0x80 + c.val.toNat % 0x40) :: rest) =
          (Char.ofNat c.val.toNat, rest) := by
        simp only [decodeStep]
        rw [if_neg (by omega), if_pos (by constructor <;> omega)]
        rw [if_pos (by constructor <;> omega)]
        congr 1
        have e1 : 0xC0 + c.val.toNat / 0x40 - 0xC0 = c.val.toNat / 0x40 := by
          omega
        have e2 : 0x80 + c.val.toNat % 0x40 - 0x80 = c.val.toNat % 0x40 := by
          omega
        rw [e1, e2]
        congr 1
        omega
      rw [hs, char_ofNat_toNat]
    · by_cases h3 : c.val.toNat < 0x10000
      · have he : utf8Char c =
            [0xE0 + c.val.toNat / 0x1000, 0x80 + c.val.toNat / 0x40 % 0x40,
             0x80 + c.val.toNat % 0x40] := by
          rw [utf8Char]; simp [h1, h2, h3]
        rw [he, List.cons_append, List.cons_append, List.cons_append,
          List.nil_append, decodeGo_cons]
        have hcond : (if 0xE0 + c.val.toNat / 0x1000 = 0xE0 then
            0xA0 ≤ 0x80 + c.val.toNat / 0x40 % 0x40 ∧
              0x80 + c.val.toNat / 0x40 % 0x40 ≤ 0xBF
            else if 0xE0 + c.val.toNat / 0x1000 = 0xED then
              0x80 ≤ 0x80 + c.val.toNat / 0x40 % 0x40 ∧
                0x80 + c.val.toNat / 0x40 % 0x40 ≤ 0x9F
            else 0x80 ≤ 0x80 + c.val.toNat / 0x40 % 0x40 ∧
              0x80 + c.val.toNat / 0x40 % 0x40 ≤ 0xBF) := by
          by_cases hE0 : 0xE0 + c.val.toNat / 0x1000 = 0xE0
          · rw [if_pos hE0]
            constructor <;> omega
          · rw [if_neg hE0]
            by_cases hED : 0xE0 + c.val.toNat / 0x1000 = 0xED
            · rw [if_pos hED]
              constructor <;> omega
            · rw [if_neg hED]
              constructor <;> omega
        have hs : decodeStep (0xE0 + c.val.toNat / 0x1000)
            ((0x80 + c.val.toNat / 0x40 % 0x40) ::
              (0x80 + c.val.toNat % 0x40) :: rest) =
            (Char.ofNat c.val.toNat, rest) := by
          simp only [decodeStep]
          rw [if_neg (by omega), if_neg (by omega),
            if_pos (by constructor <;> omega)]
          rw [if_pos ⟨hcond, by omega, by omega⟩]
          congr 1
          have e1 : 0xE0 + c.val.toNat / 0x1000 - 0xE0 =
              c.val.toNat / 0x1000 := by omega
          have e2 : 0x80 + c.val.toNat / 0x40 % 0x40 - 0x80 =
              c.val.toNat / 0x40 % 0x40 := by omega
          have e3 : 0x80 + c.val.toNat % 0x40 - 0x80 =
              c.val.toNat % 0x40 := by omega
          rw [e1, e2, e3]
          congr 1
          omega
        rw [hs, char_ofNat_toNat]
      · have he : utf8Char c =
            [0xF0 + c.val.toNat / 0x40000, 0x80 + c.val.toNat / 0x1000 % 0x40,
             0x80 + c.val.toNat / 0x40 % 0x40, 0x80 + c.val.toNat % 0x40] := by
          rw [utf8Char]; simp [h1, h2, h3]
        have hub : c.val.toNat < 0x110000 := by omega
        rw [he, List.cons_append, List.cons_append, List.cons_append,
          List.cons_append, List.nil_append, decodeGo_cons]
        have hcond : (if 0xF0 + c.val.toNat / 0x40000 = 0xF0 then
            0x90 ≤ 0x80 + c.val.toNat / 0x1000 % 0x40 ∧
              0x80 + c.val.toNat / 0x1000 % 0x40 ≤ 0xBF
            else if 0xF0 + c.val.toNat / 0x40000 = 0xF4 then
              0x80 ≤ 0x80 + c.val.toNat / 0x1000 % 0x40 ∧
                0x80 + c.val.toNat / 0x1000 % 0x40 ≤ 0x8F
            else 0x80 ≤ 0x80 + c.val.toNat / 0x1000 % 0x40 ∧
              0x80 + c.val.toNat / 0x1000 % 0x40 ≤ 0xBF) := by
          by_cases hF0 : 0xF0 + c.val.toNat / 0x40000 = 0xF0
          · rw [if_pos hF0]
            constructor <;> omega
          · rw [if_neg hF0]
            by_cases hF4 : 0xF0 + c.val.toNat / 0x40000 = 0xF4
            · rw [if_pos hF4]
              constructor <;> omega
            · rw [if_neg hF4]
              constructor <;> omega
        have hs : decodeStep (0xF0 + c.val.toNat / 0x40000)
            ((0x80 + c.val.toNat / 0x1000 % 0x40) ::
              (0x80 + c.val.toNat / 0x40 % 0x40) ::
              (0x80 + c.val.toNat % 0x40) :: rest) =
            (Char.ofNat c.val.toNat, rest) := by
          simp only [decodeStep]
          rw [if_neg (by omega), if_neg (by omega), if_neg (by omega),
            if_pos (by constructor <;> omega)]
          rw [if_pos ⟨hcond, by omega, by omega, by omega, by omega⟩]
          congr 1
          have e1 : 0xF0 + c.val.toNat / 0x40000 - 0xF0 =
              c.val.toNat / 0x40000 := by omega
          have e2 : 0x80 + c.val.toNat / 0x1000 % 0x40 - 0x80 =
              c.val.toNat / 0x1000 % 0x40 := by omega
          have e3 : 0x80 + c.val.toNat / 0x40 % 0x40 - 0x80 =
              c.val.toNat / 0x40 % 0x40 := by omega
          have e4 : 0x80 + c.val.toNat % 0x40 - 0x80 =
              c.val.toNat % 0x40 := by omega
          rw [e1, e2, e3, e4]
          congr 1
          omega
        rw [hs, char_ofNat_toNat]

theorem decodeGo_utf8Str (cs : List Char) : decodeGo (utf8Str cs) = cs := by
  induction cs with
  | nil => rfl
  | cons c cs ih =>
    show decodeGo (utf8Char c ++ utf8Str cs) = c :: cs
    rw [decodeGo_utf8Char, ih]

/-! ### Buffer decomposition helpers -/

theorem joinl_append (done : List (List Char)) (cur x : List Char) :
    joinl done cur ++ x = joinl done (cur ++ x) := by
  simp [joinl]

theorem joinl_newline (done : List (List Char)) (cur y : List Char) :
    joinl done cur ++ '\n' :: y = joinl (done ++ [cur]) y := by
  simp [joinl]

theorem joinl_spaceLines (L : Nat) (k : Nat) :
    ∀ (done : List (List Char)) (cur : List Char),
    joinl done cur ++
        (List.replicate k ('\n' :: List.replicate L ' ')).flatten =
      if k = 0 then joinl done cur
      else joinl (done ++ [cur] ++
          List.replicate (k - 1) (List.replicate L ' '))
        (List.replicate L ' ') := by
  induction k with
  | zero => intro done cur; simp
  | succ n ih =>
    intro done cur
    rw [List.replicate_succ, List.flatten_cons, if_neg (Nat.succ_ne_zero n)]
    have h1 : joinl done cur ++
        ('\n' :: List.replicate L ' ' ++
          (List.replicate n ('\n' :: List.replicate L ' ')).flatten) =
        joinl (done ++ [cur]) (List.replicate L ' ') ++
          (List.replicate n ('\n' :: List.replicate L ' ')).flatten := by
      rw [← List.append_assoc, ← joinl_newline]
    rw [h1, ih]
    by_cases hn : n = 0
    · subst hn; simp
    · rw [if_neg hn]
      congr 1
      have hrep : List.replicate n (List.replicate L ' ') =
          List.replicate L ' ' ::
            List.replicate (n - 1) (List.replicate L ' ') := by
        cases n with
        | zero => exact absurd rfl hn
        | succ m => simp [List.replicate_succ]
      simp only [Nat.add_sub_cancel]
      rw [hrep]
      simp

theorem hasBreakpoint_append (B : List Char) (l x : List Char) :
    hasBreakpoint B (l ++ x) =
      (hasBreakpoint B l || hasBreakpoint B x) := by
  simp [hasBreakpoint]

theorem hasBreakpoint_mono (B : List Char) (l x : List Char)
    (h : hasBreakpoint B l = true) : hasBreakpoint B (l ++ x) = true := by
  rw [hasBreakpoint_append, h, Bool.true_or]

theorem hasBreakpoint_of_mem (B : List Char) (l : List Char) (c : Char)
    (hc : c ∈ l) (hB : inGroup B c = true) : hasBreakpoint B l = true := by
  rw [hasBreakpoint, List.any_eq_true]
  exact ⟨c, hc, hB⟩

theorem endsInBigWord_of_decomp (B N : List Char) (L : Nat) (l u t : List Char)
    (hl : l = u ++ t) (ht : t ≠ []) (hclean : cleanWordB B N false t = true)
    (hw : L ≤ prw t) : endsInBigWord B N L l = true := by
  rw [endsInBigWord, List.any_eq_true]
  refine ⟨t, ?_, ?_⟩
  · rw [List.mem_tails]
    exact ⟨u, hl.symm⟩
  · simp only [Bool.and_eq_true, decide_eq_true_eq]
    refine ⟨⟨?_, hclean⟩, hw⟩
    simp [List.isEmpty_iff, ht]

theorem bigSuffC_append (B N : List Char) (L : Nat) (l x : List Char)
    (h : bigSuffC B N L l) (hclean : cleanWordB B N false x = true)
    (hclosed : ansiScan false x = false) : bigSuffC B N L (l ++ x) := by
  obtain ⟨u, t, hl, ht, htc, hts, htw⟩ := h
  refine ⟨u, t ++ x, by rw [hl, List.append_assoc], by simp [ht], ?_, ?_, ?_⟩
  · rw [cleanWordB_append, htc, hts, hclean]; rfl
  · rw [ansiScan_append, hts, hclosed]
  · rw [prw] at htw ⊢
    rw [prwFrom_append, hts]
    omega

theorem bigSuffC_endsInBigWord (B N : List Char) (L : Nat) (l : List Char)
    (h : bigSuffC B N L l) : endsInBigWord B N L l = true := by
  obtain ⟨u, t, hl, ht, htc, _, htw⟩ := h
  exact endsInBigWord_of_decomp B N L l u t hl ht htc htw

theorem okLine_of_bigSuffC (B N : List Char) (L : Nat) (l : List Char)
    (h : bigSuffC B N L l) : okLine B N L l :=
  Or.inr (Or.inr (Or.inl (bigSuffC_endsInBigWord B N L l h)))

theorem ansiScan_false_of_no_esc (l : List Char)
    (h : ∀ c ∈ l, c ≠ '\x1B') : ansiScan false l = false := by
  induction l with
  | nil => rfl
  | cons c cs ih =>
    rw [ansiScan_cons]
    have hc : ansiStep false c = false := by
      simp [ansiStep, h c (by simp)]
    rw [hc]
    exact ih (fun c hc => h c (by simp [hc]))

theorem ansiScan_replicate_space_false (n : Nat) :
    ansiScan false (List.replicate n ' ') = false := by
  apply ansiScan_false_of_no_esc
  intro c hc
  rw [List.eq_of_mem_replicate hc]
  decide

theorem prw_append_of_closed (x y : List Char)
    (hx : ansiScan false x = false) : prw (x ++ y) = prw x + prw y := by
  rw [prw, prw, prw, prwFrom_append, hx]

/-- Splitting the current line as a space block plus a rest: the scan
stays clean over the block, so the rest scans from the clean state. -/
theorem scan_of_pre_split (pre r : List Char) (L : Nat)
    (hpre : pre = [] ∨ pre = List.replicate L ' ')
    (h : ansiScan false (pre ++ r) = false) : ansiScan false r = false := by
  have hp : ansiScan false pre = false := by
    rcases hpre with h1 | h1 <;> subst h1
    · rfl
    · exact ansiScan_replicate_space_false L
  rw [ansiScan_append, hp] at h
  exact h

theorem curOK_append_word (B N : List Char) (L ll : Nat) (cur x : List Char)
    (h : curOK B N L ll cur) (hcc : ansiScan false cur = false)
    (hxc : cleanWordB B N false x = true) (hxs : ansiScan false x = false)
    (hcase : prw x = 0 ∨ ll + prw x ≤ L ∨ (L ≤ prw x ∧ x ≠ [])) :
    curOK B N L (ll + prw x) (cur ++ x) := by
  rcases h with h | ⟨hbig, hll⟩ | ⟨pre, r, hsplit, hpre, hr, hllL⟩
  · exact Or.inl (hasBreakpoint_mono B cur x h)
  · exact Or.inr (Or.inl ⟨bigSuffC_append B N L cur x hbig hxc hxs, by omega⟩)
  · rcases hcase with hc | hc | ⟨hc1, hc2⟩
    · refine Or.inr (Or.inr ⟨pre, r ++ x, ?_, hpre, ?_, by omega⟩)
      · rw [hsplit, List.append_assoc]
      · have hrs : ansiScan false r = false :=
          scan_of_pre_split pre r L hpre (hsplit ▸ hcc)
        rw [prw_append_of_closed r x hrs, hc]
        omega
    · refine Or.inr (Or.inr ⟨pre, r ++ x, ?_, hpre, ?_, by omega⟩)
      · rw [hsplit, List.append_assoc]
      · have hrs : ansiScan false r = false :=
          scan_of_pre_split pre r L hpre (hsplit ▸ hcc)
        rw [prw_append_of_closed r x hrs]
        omega
    · refine Or.inr (Or.inl ⟨⟨cur, x, rfl, hc2, hxc, hxs, hc1⟩, by omega⟩)

theorem curOK_append_space (B N : List Char) (L ll : Nat) (cur sp : List Char)
    (h : curOK B N L ll cur) (hcc : ansiScan false cur = false)
    (hsp : ∀ c ∈ sp, isSpaceGo c = true)
    (hfit : ll + byteLen sp ≤ L) :
    curOK B N L (ll + byteLen sp) (cur ++ sp) := by
  rcases h with h | ⟨hbig, hll⟩ | ⟨pre, r, hsplit, hpre, hr, hllL⟩
  · exact Or.inl (hasBreakpoint_mono B cur sp h)
  · have hspchar : sp = [] := by
      rw [← byteLen_eq_zero]
      omega
    subst hspchar
    simp only [List.append_nil, byteLen, List.map_nil, List.sum_nil,
      Nat.add_zero]
    exact Or.inr (Or.inl ⟨hbig, hll⟩)
  · refine Or.inr (Or.inr ⟨pre, r ++ sp, ?_, hpre, ?_, by omega⟩)
    · rw [hsplit, List.append_assoc]
    · have hrs : ansiScan false r = false :=
        scan_of_pre_split pre r L hpre (hsplit ▸ hcc)
      have h1 := prw_le_byteLen sp hsp
      rw [prw_append_of_closed r sp hrs]
      omega

theorem okLine_of_curOK (B N : List Char) (L ll : Nat) (cur : List Char)
    (h : curOK B N L ll cur) : okLine B N L cur := by
  rcases h with h | ⟨hbig, _⟩ | ⟨pre, r, hsplit, hpre, hr, hllL⟩
  · exact Or.inr (Or.inl h)
  · exact okLine_of_bigSuffC B N L cur hbig
  · rcases hpre with h1 | h1
    · subst h1
      rw [List.nil_append] at hsplit
      subst hsplit
      exact Or.inl (le_trans hr hllL)
    · subst h1
      exact Or.inr (Or.inr (Or.inr ⟨r, hsplit, le_trans hr hllL⟩))

theorem okLine_fill (B N : List Char) (L ll : Nat) (cur : List Char)
    (h : curOK B N L ll cur) (hcc : ansiScan false cur = false)
    (hll : ll ≤ L) :
    okLine B N L (cur ++ List.replicate (L - ll) ' ') := by
  rcases h with h | ⟨hbig, hLll⟩ | ⟨pre, r, hsplit, hpre, hr, hllL⟩
  · exact Or.inr (Or.inl (hasBreakpoint_mono B cur _ h))
  · have hz : L - ll = 0 := by omega
    rw [hz, List.replicate_zero, List.append_nil]
    exact okLine_of_bigSuffC B N L cur hbig
  · have hrs : ansiScan false r = false :=
      scan_of_pre_split pre r L hpre (hsplit ▸ hcc)
    have hfill : prw (r ++ List.replicate (L - ll) ' ') ≤ L := by
      rw [prw_append_of_closed r _ hrs, prw_replicate_space]
      omega
    rcases hpre with h1 | h1
    · subst h1
      rw [List.nil_append] at hsplit
      subst hsplit
      exact Or.inl hfill
    · subst h1
      exact Or.inr (Or.inr (Or.inr ⟨r ++ List.replicate (L - ll) ' ',
        by rw [hsplit, List.append_assoc], hfill⟩))

theorem addSpace_inv (L : Nat) (B N : List Char) (w w' : WordWrap)
    (hinv : Inv L B N w) (h : addSpace w = some w') :
    Inv L B N w' ∧ w'.word = w.word ∧ w'.ansi = w.ansi ∧
    w'.wroteBegin = w.wroteBegin ∧ w'.lastAnsi = w.lastAnsi ∧
    w'.space = [] ∧ w'.hardWrap = w.hardWrap ∧
    w'.preserveSpaces = w.preserveSpaces ∧
    w'.newArgument = w.newArgument ∧ w'.leadingZero = w.leadingZero ∧
    (w.lineLen + byteLen w.space ≤ L →
      w'.lineLen = w.lineLen + byteLen w.space) := by
  obtain ⟨hlim, hB, hN, hL1, hNL, done, cur, hbuf, hdone, hcurnl, hcurscan,
    hcurok, hwscan, hwclean, hwb, he, hsp, hlscan, hlprw, hlnl⟩ := hinv
  have hspne : ∀ c ∈ w.space, c ≠ '\x1B' :=
    fun c hc => isSpaceGo_ne_esc c (hsp c hc).1
  by_cases hfit : (byteLen w.space : Int) ≤ w.limit - (w.lineLen : Int)
  · rw [addSpace_fit w hfit] at h
    injection h with h'
    subst h'
    have hfitN : w.lineLen + byteLen w.space ≤ L := by
      rw [hlim] at hfit
      omega
    refine ⟨⟨hlim, hB, hN, hL1, hNL, done, cur ++ w.space, ?_, hdone, ?_, ?_,
      ?_, hwscan, hwclean, ?_, ?_, ?_, hlscan, hlprw, hlnl⟩,
      rfl, rfl, rfl, rfl, rfl, rfl, rfl, rfl, rfl, fun _ => rfl⟩
    · show w.buf ++ utf8Str w.space = utf8Str (joinl done (cur ++ w.space))
      rw [hbuf, ← utf8Str_append, joinl_append]
    · intro hmem
      rcases List.mem_append.mp hmem with h1 | h1
      · exact hcurnl h1
      · exact (hsp _ h1).2 rfl
    · rw [ansiScan_append, hcurscan]
      exact ansiScan_false_of_no_esc _ hspne
    · exact curOK_append_space B N L w.lineLen cur w.space hcurok hcurscan
        (fun c hc => (hsp c hc).1) hfitN
    · intro hwb0
      obtain ⟨hd1, hd2, hd3, hd4, hd5⟩ := hwb hwb0
      exact ⟨hd1, by simp [hd2, hd4], by simp [hd3, hd4, byteLen], rfl, hd5⟩
    · intro hne
      rcases he hne with h1 | h1 | h1
      · left
        show w.lineLen + byteLen w.space + byteLen [] + prw w.word ≤ L
        have hz : byteLen ([] : List Char) = 0 := rfl
        omega
      · right; left; exact h1
      · right; right; exact h1
    · intro c hc
      exact absurd hc (List.not_mem_nil c)
  · -- the run does not fit: the line is filled and split
    have hllL : w.lineLen ≤ L := by
      by_contra hgt
      have hnone : addSpace w = none := by
        rw [addSpace, if_neg hfit, if_pos (by rw [hlim]; omega)]
      rw [hnone] at h
      exact Option.noConfusion h
    have hover : L < w.lineLen + byteLen w.space := by
      rw [hlim] at hfit
      omega
    rw [addSpace_split w L hlim (by omega) hllL hover] at h
    injection h with h'
    subst h'
    have hrest1 : 1 ≤ byteLen w.space - (L - w.lineLen) := by omega
    have hleftlt : (byteLen w.space - (L - w.lineLen)) % L < L :=
      Nat.mod_lt _ (by omega)
    -- name the pieces
    set first := L - w.lineLen with hfirst
    set rest := byteLen w.space - first with hrestd
    set k := rest / L with hk
    set leftover := rest % L with hleft
    have hfillok : okLine B N L (cur ++ List.replicate first ' ') :=
      okLine_fill B N L w.lineLen cur hcurok hcurscan hllL
    have hfillnl : '\n' ∉ cur ++ List.replicate first ' ' := by
      intro hmem
      rcases List.mem_append.mp hmem with h1 | h1
      · exact hcurnl h1
      · have := List.eq_of_mem_replicate h1
        simp at this
    have hspLok : okLine B N L (List.replicate L ' ') :=
      Or.inl (by rw [prw_replicate_space])
    have hspLnl : ('\n' : Char) ∉ List.replicate L ' ' := by
      intro hmem
      have := List.eq_of_mem_replicate hmem
      simp at this
    have hleftnl : ('\n' : Char) ∉ List.replicate leftover ' ' := by
      intro hmem
      have := List.eq_of_mem_replicate hmem
      simp at this
    -- decompose the appended bytes
    have hjoin : joinl done cur ++
        (List.replicate first ' ' ++
          (List.replicate k ('\n' :: List.replicate L ' ')).flatten ++
          (if 0 < leftover then '\n' :: List.replicate leftover ' '
           else [])) =
        joinl (if k = 0 then done ++ [cur ++ List.replicate first ' ']
          else if 0 < leftover then
            done ++ [cur ++ List.replicate first ' '] ++
              List.replicate (k - 1) (List.replicate L ' ') ++
              [List.replicate L ' ']
          else done ++ [cur ++ List.replicate first ' '] ++
              List.replicate (k - 1) (List.replicate L ' '))
          (if 0 < leftover then List.replicate leftover ' '
           else List.replicate L ' ') := by
      rw [← List.append_assoc, ← List.append_assoc, joinl_append,
        joinl_spaceLines]
      by_cases hk0 : k = 0
      · rw [if_pos hk0, if_pos hk0]
        have hl0 : 0 < leftover := by
          have : rest < L := by
            by_contra hge
            have : 1 ≤ k := by
              rw [hk]
              exact Nat.one_le_div_iff (by omega) |>.mpr (by omega)
            omega
          rw [hleft]
          rw [Nat.mod_eq_of_lt this]
          omega
        rw [if_pos hl0, if_pos hl0, joinl_newline]
      · rw [if_neg hk0, if_neg hk0]
        by_cases hl0 : 0 < leftover
        · rw [if_pos hl0, if_pos hl0, if_pos hl0, joinl_newline]
        · rw [if_neg hl0, if_neg hl0, if_neg hl0, List.append_nil]
    have hmem1 : ∀ l ∈ done ++ [cur ++ List.replicate first ' '],
        okLine B N L l ∧ '\n' ∉ l := by
      intro l hl
      rcases List.mem_append.mp hl with h3 | h3
      · exact hdone l h3
      · rw [List.mem_singleton] at h3
        subst h3
        exact ⟨hfillok, hfillnl⟩
    have hmem2 : ∀ l ∈ List.replicate (k - 1) (List.replicate L ' '),
        okLine B N L l ∧ '\n' ∉ l := by
      intro l hl
      rw [List.eq_of_mem_replicate hl]
      exact ⟨hspLok, hspLnl⟩
    refine ⟨⟨hlim, hB, hN, hL1, hNL,
      (if k = 0 then done ++ [cur ++ List.replicate first ' ']
       else if 0 < leftover then
         done ++ [cur ++ List.replicate first ' '] ++
           List.replicate (k - 1) (List.replicate L ' ') ++
           [List.replicate L ' ']
       else done ++ [cur ++ List.replicate first ' '] ++
           List.replicate (k - 1) (List.replicate L ' ')),
      (if 0 < leftover then List.replicate leftover ' '
       else List.replicate L ' '), ?_, ?_, ?_, ?_, ?_, hwscan, hwclean,
      ?_, ?_, ?_, hlscan, hlprw, hlnl⟩,
      rfl, rfl, rfl, rfl, rfl, rfl, rfl, rfl, rfl,
      fun hc => absurd hc (by omega)⟩
    · show w.buf ++ utf8Str _ = _
      rw [hbuf, ← utf8Str_append, joinl_append, ← joinl_append, hjoin]
    · intro l hl
      split_ifs at hl with h1 h2
      · exact hmem1 l hl
      · rcases List.mem_append.mp hl with h3 | h3
        · rcases List.mem_append.mp h3 with h4 | h4
          · exact hmem1 l h4
          · exact hmem2 l h4
        · rw [List.mem_singleton] at h3
          subst h3
          exact ⟨hspLok, hspLnl⟩
      · rcases List.mem_append.mp hl with h3 | h3
        · exact hmem1 l h3
        · exact hmem2 l h3
    · split_ifs with h1
      · exact hleftnl
      · exact hspLnl
    · split_ifs with h1
      · exact ansiScan_replicate_space_false leftover
      · exact ansiScan_replicate_space_false L
    · show curOK B N L leftover _
      split_ifs with h1
      · refine Or.inr (Or.inr ⟨[], List.replicate leftover ' ', by simp,
          Or.inl rfl, ?_, by omega⟩)
        rw [prw_replicate_space]
      · refine Or.inr (Or.inr ⟨List.replicate L ' ', [], by simp,
          Or.inr rfl, ?_, by omega⟩)
        rw [show prw ([] : List Char) = 0 from rfl]
        omega
    · intro hwb0
      exfalso
      obtain ⟨_, _, hd3, hd4, _⟩ := hwb hwb0
      rw [hd3, hd4] at hover
      rw [show byteLen ([] : List Char) = 0 from rfl] at hover
      omega
    · intro hne
      rcases he hne with h1 | h1 | h1
      · exfalso
        omega
      · right; left; exact h1
      · left
        show leftover + byteLen [] + prw w.word ≤ L
        rw [h1, show byteLen ([] : List Char) = 0 from rfl]
        omega
    · intro c hc
      exact absurd hc (List.not_mem_nil c)

theorem cleanWord_no_nl (B N : List Char) (x : List Char) :
    ∀ a : Bool, cleanWordB B N a x = true → '\n' ∉ x := by
  induction x with
  | nil => intro a _ h; exact absurd h (List.not_mem_nil _)
  | cons c cs ih =>
    intro a hc hmem
    rw [cleanWordB_cons, Bool.and_eq_true] at hc
    rcases List.mem_cons.mp hmem with h1 | h1
    · subst h1
      rcases hc with ⟨hc1, _⟩
      by_cases ha : a = true
      · subst ha
        simp at hc1
      · have ha' : a = false := by revert ha; cases a <;> simp
        subst ha'
        simp [wcharB] at hc1
    · exact ih (ansiStep a c) hc.2 h1

theorem addWord_inv (L : Nat) (B N : List Char) (w w' : WordWrap)
    (hinv : Inv L B N w) (hansi : w.ansi = false)
    (hwb1 : w.wroteBegin = true) (h : addWord w = some w') :
    Inv L B N w' ∧ w'.word = [] ∧ w'.ansi = false ∧
    w'.wroteBegin = true ∧ w'.lastAnsi = w.lastAnsi ∧
    w'.hardWrap = w.hardWrap ∧ w'.preserveSpaces = w.preserveSpaces ∧
    w'.newArgument = w.newArgument ∧ w'.leadingZero = w.leadingZero ∧
    w'.limit = w.limit ∧ w'.breakpoints = w.breakpoints ∧
    w'.newline = w.newline := by
  by_cases hw0 : w.word = []
  · rw [addWord, if_neg (by simp [hw0])] at h
    injection h with h'
    subst h'
    obtain ⟨hlim, hB, hN, hL1, hNL, rest⟩ := hinv
    exact ⟨⟨hlim, hB, hN, hL1, hNL, rest⟩, hw0, hansi, hwb1, rfl, rfl, rfl,
      rfl, rfl, rfl, rfl, rfl⟩
  · rw [addWord, if_pos (by simp [hw0])] at h
    cases haddsp : addSpace w with
    | none =>
      rw [haddsp] at h
      exact Option.noConfusion (show (none : Option WordWrap) = some w' from h)
    | some w1 =>
      rw [haddsp] at h
      have h2 : some { w1 with
                         lineLen := w1.lineLen + prw w1.word,
                         buf := w1.buf ++ utf8Str w1.word,
                         word := [] } = some w' := h
      injection h2 with h'
      subst h'
      obtain ⟨hinv1, hw1word, hw1ansi, hw1wb, hw1la, hw1sp0, hw1hw, hw1ps,
        hw1na, hw1lz, hfitimp⟩ := addSpace_inv L B N w w1 hinv haddsp
      obtain ⟨hlim0, hB0, hN0, _, _, _, _, _, _, _, _, _, _, _, _, he0, _, _,
        _, _⟩ := hinv
      obtain ⟨hlim1, hB1, hN1, hL11, hNL1, done1, cur1, hbuf1, hdone1, hcnl1,
        hcs1, hcok1, hws1, hwc1, hwbd1, he1, hsp1, hls1, hlp1, hlnl1⟩ := hinv1
      have hwscan0 : ansiScan false w1.word = false := by
        rw [hws1, hw1ansi, hansi]
      have hwd : w1.word = w.word := hw1word
      have hcase : prw w1.word = 0 ∨ w1.lineLen + prw w1.word ≤ L ∨
          (L ≤ prw w1.word ∧ w1.word ≠ []) := by
        rcases he0 hw0 with h1 | h1 | h1
        · right; left
          have := hfitimp (by omega)
          rw [hwd]
          omega
        · right; right
          rw [hwd]
          exact ⟨h1, hw0⟩
        · left
          rw [hwd, h1]
      refine ⟨⟨hlim1, hB1, hN1, hL11, hNL1, done1, cur1 ++ w1.word, ?_,
        hdone1, ?_, ?_, ?_, ?_, ?_, ?_, ?_, ?_, ?_, ?_, ?_⟩,
        rfl, ?_, ?_, ?_, ?_, ?_, ?_, ?_, ?_, ?_, ?_⟩
      · show w1.buf ++ utf8Str w1.word = _
        rw [hbuf1, ← utf8Str_append, joinl_append]
      · intro hmem
        rcases List.mem_append.mp hmem with h1 | h1
        · exact hcnl1 h1
        · exact cleanWord_no_nl B N w1.word false hwc1 h1
      · rw [ansiScan_append, hcs1, hwscan0]
      · exact curOK_append_word B N L w1.lineLen cur1 w1.word hcok1 hcs1
          hwc1 hwscan0 hcase
      · show ansiScan false [] = w1.ansi
        rw [hw1ansi, hansi]
        rfl
      · show cleanWordB B N false [] = true
        rfl
      · intro hwb0
        exfalso
        have h1 : w1.wroteBegin = false := hwb0
        rw [hw1wb, hwb1] at h1
        exact Bool.noConfusion h1
      · intro hne
        exact absurd rfl hne
      · intro c hc
        have hc' : c ∈ w1.space := hc
        rw [hw1sp0] at hc'
        exact absurd hc' (List.not_mem_nil c)
      · show ansiScan false w1.lastAnsi = w1.ansi
        exact hls1
      · exact hlp1
      · exact hlnl1
      · show w1.ansi = false
        rw [hw1ansi, hansi]
      · show w1.wroteBegin = true
        rw [hw1wb, hwb1]
      · exact hw1la
      · exact hw1hw
      · exact hw1ps
      · exact hw1na
      · exact hw1lz
      · show w1.limit = w.limit
        rw [hlim1, hlim0]
      · show w1.breakpoints = w.breakpoints
        rw [hB1, hB0]
      · show w1.newline = w.newline
        rw [hN1, hN0]

theorem inv_append_reset (L : Nat) (B N : List Char) (w : WordWrap)
    (hinv : Inv L B N w) (hwb : w.wroteBegin = true) :
    Inv L B N { w with buf := w.buf ++ utf8Str ['\x1B', '[', '0', 'm'] } := by
  obtain ⟨hlim, hB, hN, hL1, hNL, done, cur, hbuf, hdone, hcnl, hcs, hcok,
    hws, hwc, hwbd, he, hsp, hls, hlp, hlnl⟩ := hinv
  have hseqc : cleanWordB B N false ['\x1B', '[', '0', 'm'] = true := rfl
  have hseqs : ansiScan false ['\x1B', '[', '0', 'm'] = false := rfl
  have hseqp : prw ['\x1B', '[', '0', 'm'] = 0 := rfl
  have hcok' : curOK B N L w.lineLen (cur ++ ['\x1B', '[', '0', 'm']) := by
    have h1 := curOK_append_word B N L w.lineLen cur ['\x1B', '[', '0', 'm']
      hcok hcs hseqc hseqs (Or.inl hseqp)
    rwa [hseqp, Nat.add_zero] at h1
  refine ⟨hlim, hB, hN, hL1, hNL, done, cur ++ ['\x1B', '[', '0', 'm'], ?_,
    hdone, ?_, ?_, hcok', hws, hwc, ?_, he, hsp, hls, hlp, hlnl⟩
  · show w.buf ++ _ = _
    rw [hbuf, ← utf8Str_append, joinl_append]
  · intro hmem
    rcases List.mem_append.mp hmem with h1 | h1
    · exact hcnl h1
    · revert h1
      decide
  · rw [ansiScan_append, hcs, hseqs]
  · intro hwb0
    exfalso
    have h1 : w.wroteBegin = false := hwb0
    rw [hwb] at h1
    exact Bool.noConfusion h1

theorem inv_commit_newline (L : Nat) (B N : List Char) (w : WordWrap)
    (hinv : Inv L B N w) (hansi : w.ansi = false) (hpw : prw w.word < L) :
    Inv L B N { w with
                  buf := w.buf ++ utf8Char '\n', lineLen := 0,
                  space := [], wroteBegin := false } := by
  obtain ⟨hlim, hB, hN, hL1, hNL, done, cur, hbuf, hdone, hcnl, hcs, hcok,
    hws, hwc, hwbd, he, hsp, hls, hlp, hlnl⟩ := hinv
  refine ⟨hlim, hB, hN, hL1, hNL, done ++ [cur], [], ?_, ?_, ?_, rfl, ?_,
    hws, hwc, ?_, ?_, ?_, hls, hlp, hlnl⟩
  · show w.buf ++ utf8Char '\n' = utf8Str (joinl (done ++ [cur]) [])
    rw [hbuf, ← joinl_newline]
    simp [utf8Str]
  · intro l hl
    rcases List.mem_append.mp hl with h1 | h1
    · exact hdone l h1
    · have h2 : l = cur := List.mem_singleton.mp h1
      rw [h2]
      exact ⟨okLine_of_curOK B N L w.lineLen cur hcok, hcnl⟩
  · exact List.not_mem_nil '\n'
  · exact Or.inr (Or.inr ⟨[], [], rfl, Or.inl rfl, Nat.le_refl 0,
      Nat.zero_le L⟩)
  · intro _
    exact ⟨hpw, rfl, rfl, rfl, hansi⟩
  · intro hne
    left
    have h0 : byteLen ([] : List Char) = 0 := rfl
    show (0 : Nat) + byteLen ([] : List Char) + prw w.word ≤ L
    omega
  · intro c hc
    exact absurd hc (List.not_mem_nil c)

theorem addNewLine_core (L : Nat) (B N : List Char) (w1 w' : WordWrap)
    (hinv1 : Inv L B N w1) (hansi1 : w1.ansi = false)
    (hwb1 : w1.wroteBegin = true) (hpw1 : prw w1.word < L)
    (h : (do
        let w2 : WordWrap :=
          if w1.lastAnsi ≠ [] then
            { w1 with buf := w1.buf ++ utf8Str ['\x1B', '[', '0', 'm'] }
          else w1
        some { w2 with
                 buf := w2.buf ++ utf8Char '\n', lineLen := 0,
                 space := [], wroteBegin := false }) = some w') :
    Inv L B N w' ∧ w'.word = w1.word ∧ w'.ansi = w1.ansi ∧
    w'.wroteBegin = false ∧ w'.lastAnsi = w1.lastAnsi ∧
    w'.hardWrap = w1.hardWrap ∧ w'.preserveSpaces = w1.preserveSpaces ∧
    w'.newArgument = w1.newArgument ∧ w'.leadingZero = w1.leadingZero ∧
    w'.lineLen = 0 ∧ w'.space = [] := by
  by_cases hla : w1.lastAnsi ≠ []
  · rw [if_pos hla] at h
    injection h with h'
    subst h'
    have hinv2 := inv_append_reset L B N w1 hinv1 hwb1
    have hinv3 := inv_commit_newline L B N
      { w1 with buf := w1.buf ++ utf8Str ['\x1B', '[', '0', 'm'] }
      hinv2 hansi1 hpw1
    exact ⟨hinv3, rfl, rfl, rfl, rfl, rfl, rfl, rfl, rfl, rfl, rfl⟩
  · rw [if_neg hla] at h
    injection h with h'
    subst h'
    have hinv3 := inv_commit_newline L B N w1 hinv1 hansi1 hpw1
    exact ⟨hinv3, rfl, rfl, rfl, rfl, rfl, rfl, rfl, rfl, rfl, rfl⟩

theorem addNewLine_inv (L : Nat) (B N : List Char) (w w' : WordWrap)
    (hinv : Inv L B N w) (hansi : w.ansi = false) (hwb : w.wroteBegin = true)
    (hpw : prw w.word < L) (h : addNewLine w = some w') :
    Inv L B N w' ∧ w'.word = w.word ∧ w'.ansi = w.ansi ∧
    w'.wroteBegin = false ∧ w'.lastAnsi = w.lastAnsi ∧
    w'.hardWrap = w.hardWrap ∧ w'.preserveSpaces = w.preserveSpaces ∧
    w'.newArgument = w.newArgument ∧ w'.leadingZero = w.leadingZero ∧
    w'.lineLen = 0 ∧ w'.space = [] := by
  by_cases hps : w.preserveSpaces = true
  · rw [addNewLine, if_pos hps] at h
    cases hsp : addSpace w with
    | none =>
      rw [hsp] at h
      exact absurd (show (none : Option WordWrap) = some w' from h) (by simp)
    | some w1 =>
      rw [hsp] at h
      obtain ⟨hinv1, hword1, hansi1, hwb1, hla1, _, hhw1, hps1, hna1, hlz1,
        _⟩ := addSpace_inv L B N w w1 hinv hsp
      have hansi1' : w1.ansi = false := by rw [hansi1, hansi]
      have hwb1' : w1.wroteBegin = true := by rw [hwb1, hwb]
      have hpw1 : prw w1.word < L := by rw [hword1]; exact hpw
      obtain ⟨g1, g2, g3, g4, g5, g6, g7, g8, g9, g10, g11⟩ :=
        addNewLine_core L B N w1 w' hinv1 hansi1' hwb1' hpw1 h
      exact ⟨g1, by rw [g2, hword1], by rw [g3, hansi1], g4,
        by rw [g5, hla1], by rw [g6, hhw1], by rw [g7, hps1],
        by rw [g8, hna1], by rw [g9, hlz1], g10, g11⟩
  · rw [addNewLine, if_neg hps] at h
    exact addNewLine_core L B N w w' hinv hansi hwb hpw h

theorem addWord_id (w : WordWrap) (h : w.word = []) : addWord w = some w := by
  rw [addWord, if_neg (by simp [h])]

theorem okLine_append_space (B N : List Char) (L ll : Nat) (cur sp : List Char)
    (h : curOK B N L ll cur) (hcc : ansiScan false cur = false)
    (hsp : ∀ c ∈ sp, isSpaceGo c = true) (hfit : ll + byteLen sp ≤ L) :
    okLine B N L (cur ++ sp) := by
  have hspw : prw sp ≤ byteLen sp := prw_le_byteLen sp hsp
  rcases h with h | ⟨hbig, hLll⟩ | ⟨pre, r, hsplit, hpre, hr, hllL⟩
  · exact Or.inr (Or.inl (hasBreakpoint_mono B cur sp h))
  · have h0 : sp = [] := (byteLen_eq_zero sp).mp (by omega)
    subst h0
    rw [List.append_nil]
    exact okLine_of_bigSuffC B N L cur hbig
  · have hrclosed : ansiScan false r = false := by
      rw [hsplit] at hcc
      exact scan_of_pre_split pre r L hpre hcc
    have hrs : prw (r ++ sp) = prw r + prw sp :=
      prw_append_of_closed r sp hrclosed
    rcases hpre with h1 | h1
    · subst h1
      rw [List.nil_append] at hsplit
      subst hsplit
      left
      omega
    · subst h1
      right; right; right
      refine ⟨r ++ sp, ?_, ?_⟩
      · rw [hsplit, List.append_assoc]
      · omega

theorem okLine_append_reset (B N : List Char) (L : Nat) (l : List Char)
    (h : okLine B N L l) : okLine B N L (l ++ ['\x1B', '[', '0', 'm']) := by
  have hprw : prw (l ++ ['\x1B', '[', '0', 'm']) = prw l := by
    rw [prw, prwFrom_append]
    have h0 : prwFrom (ansiScan false l) ['\x1B', '[', '0', 'm'] = 0 := rfl
    rw [h0]
    have h1 : prw l = prwFrom false l := rfl
    omega
  rcases h with h | h | h | ⟨r, hr1, hr2⟩
  · left
    rw [hprw]
    exact h
  · exact Or.inr (Or.inl (hasBreakpoint_mono B l _ h))
  · rw [endsInBigWord, List.any_eq_true] at h
    obtain ⟨t, ht1, ht2⟩ := h
    rw [List.mem_tails] at ht1
    obtain ⟨u, hu⟩ := ht1
    simp only [Bool.and_eq_true, decide_eq_true_eq] at ht2
    obtain ⟨⟨_, htc⟩, htw⟩ := ht2
    refine Or.inr (Or.inr (Or.inl (endsInBigWord_of_decomp B N L _ u
      (t ++ ['\x1B', '[', '0', 'm']) ?_ (by simp) ?_ ?_)))
    · rw [← List.append_assoc, hu]
    · rw [cleanWordB_append, htc]
      have h2 : cleanWordB B N (ansiScan false t) ['\x1B', '[', '0', 'm'] =
          true := rfl
      rw [h2]
      rfl
    · rw [prw, prwFrom_append]
      have h0 : prwFrom (ansiScan false t) ['\x1B', '[', '0', 'm'] = 0 := rfl
      rw [h0]
      have h1 : prw t = prwFrom false t := rfl
      omega
  · refine Or.inr (Or.inr (Or.inr ⟨r ++ ['\x1B', '[', '0', 'm'], ?_, ?_⟩))
    · rw [hr1, List.append_assoc]
    · rw [prw, prwFrom_append]
      have h0 : prwFrom (ansiScan false r) ['\x1B', '[', '0', 'm'] = 0 := rfl
      rw [h0]
      have h1 : prw r = prwFrom false r := rfl
      omega

theorem commit_tail (L : Nat) (B N : List Char) (w1 w' : WordWrap)
    (hlim : w1.limit = (L : Int)) (hB : w1.breakpoints = B)
    (hN : w1.newline = N) (hL1 : 1 ≤ L) (hNL : '\n' ∈ N)
    (done : List (List Char)) (cur : List Char)
    (hbuf : w1.buf = utf8Str (joinl done cur))
    (hdone : ∀ l ∈ done, okLine B N L l ∧ '\n' ∉ l)
    (hcnl : '\n' ∉ cur) (hcs : ansiScan false cur = false)
    (hok : okLine B N L cur)
    (hws : ansiScan false w1.word = w1.ansi)
    (hwc : cleanWordB B N false w1.word = true)
    (hansi : w1.ansi = false) (hpw : prw w1.word < L)
    (hls : ansiScan false w1.lastAnsi = w1.ansi)
    (hlp : prw w1.lastAnsi = 0) (hlnl : '\n' ∉ w1.lastAnsi)
    (h : (do
        let w2 : WordWrap :=
          if w1.lastAnsi ≠ [] then
            { w1 with buf := w1.buf ++ utf8Str ['\x1B', '[', '0', 'm'] }
          else w1
        some { w2 with
                 buf := w2.buf ++ utf8Char '\n', lineLen := 0,
                 space := [], wroteBegin := false }) = some w') :
    Inv L B N w' ∧ w'.word = w1.word ∧ w'.ansi = w1.ansi ∧
    w'.wroteBegin = false ∧ w'.lastAnsi = w1.lastAnsi ∧
    w'.lineLen = 0 ∧ w'.space = [] := by
  by_cases hla : w1.lastAnsi ≠ []
  · rw [if_pos hla] at h
    injection h with h'
    subst h'
    refine ⟨⟨hlim, hB, hN, hL1, hNL,
      done ++ [cur ++ ['\x1B', '[', '0', 'm']], [], ?_, ?_, ?_, rfl, ?_,
      hws, hwc, ?_, ?_, ?_, hls, hlp, hlnl⟩, rfl, rfl, rfl, rfl, rfl, rfl⟩
    · show (w1.buf ++ utf8Str ['\x1B', '[', '0', 'm']) ++ utf8Char '\n' = _
      rw [hbuf, ← joinl_newline, ← joinl_append, utf8Str_append,
        utf8Str_append]
      simp [utf8Str, List.append_assoc]
    · intro l hl
      rcases List.mem_append.mp hl with h1 | h1
      · exact hdone l h1
      · have h2 : l = cur ++ ['\x1B', '[', '0', 'm'] :=
          List.mem_singleton.mp h1
        rw [h2]
        refine ⟨okLine_append_reset B N L cur hok, ?_⟩
        intro hmem
        rcases List.mem_append.mp hmem with h3 | h3
        · exact hcnl h3
        · revert h3
          decide
    · exact List.not_mem_nil '\n'
    · exact Or.inr (Or.inr ⟨[], [], rfl, Or.inl rfl, Nat.le_refl 0,
        Nat.zero_le L⟩)
    · intro _
      exact ⟨hpw, rfl, rfl, rfl, hansi⟩
    · intro hne
      left
      have h0 : byteLen ([] : List Char) = 0 := rfl
      show (0 : Nat) + byteLen ([] : List Char) + prw w1.word ≤ L
      omega
    · intro c hc
      exact absurd hc (List.not_mem_nil c)
  · rw [if_neg hla] at h
    injection h with h'
    subst h'
    refine ⟨⟨hlim, hB, hN, hL1, hNL, done ++ [cur], [], ?_, ?_, ?_, rfl, ?_,
      hws, hwc, ?_, ?_, ?_, hls, hlp, hlnl⟩, rfl, rfl, rfl, rfl, rfl, rfl⟩
    · show w1.buf ++ utf8Char '\n' = _
      rw [hbuf, ← joinl_newline]
      simp [utf8Str]
    · intro l hl
      rcases List.mem_append.mp hl with h1 | h1
      · exact hdone l h1
      · have h2 : l = cur := List.mem_singleton.mp h1
        rw [h2]
        exact ⟨hok, hcnl⟩
    · exact List.not_mem_nil '\n'
    · exact Or.inr (Or.inr ⟨[], [], rfl, Or.inl rfl, Nat.le_refl 0,
        Nat.zero_le L⟩)
    · intro _
      exact ⟨hpw, rfl, rfl, rfl, hansi⟩
    · intro hne
      left
      have h0 : byteLen ([] : List Char) = 0 := rfl
      show (0 : Nat) + byteLen ([] : List Char) + prw w1.word ≤ L
      omega
    · intro c hc
      exact absurd hc (List.not_mem_nil c)

theorem addNewLine_commit (L : Nat) (B N : List Char) (w w' : WordWrap)
    (hlim : w.limit = (L : Int)) (hB : w.breakpoints = B)
    (hN : w.newline = N) (hL1 : 1 ≤ L) (hNL : '\n' ∈ N)
    (done : List (List Char)) (cur : List Char)
    (hbuf : w.buf = utf8Str (joinl done cur))
    (hdone : ∀ l ∈ done, okLine B N L l ∧ '\n' ∉ l)
    (hcnl : '\n' ∉ cur) (hcs : ansiScan false cur = false)
    (hok : okLine B N L cur) (hll : w.lineLen ≤ L)
    (hws : ansiScan false w.word = w.ansi)
    (hwc : cleanWordB B N false w.word = true)
    (hansi : w.ansi = false) (hpw : prw w.word < L)
    (hsp0 : w.space = [])
    (hls : ansiScan false w.lastAnsi = w.ansi)
    (hlp : prw w.lastAnsi = 0) (hlnl : '\n' ∉ w.lastAnsi)
    (h : addNewLine w = some w') :
    Inv L B N w' ∧ w'.word = w.word ∧ w'.ansi = w.ansi ∧
    w'.wroteBegin = false ∧ w'.lastAnsi = w.lastAnsi ∧
    w'.lineLen = 0 ∧ w'.space = [] := by
  by_cases hps : w.preserveSpaces = true
  · rw [addNewLine, if_pos hps,
      addSpace_fit w (by rw [hsp0, hlim]; show (0 : Int) ≤ _; omega)] at h
    exact commit_tail L B N
      { w with lineLen := w.lineLen + byteLen w.space,
               buf := w.buf ++ utf8Str w.space, space := [] } w'
      hlim hB hN hL1 hNL done cur
      (by show w.buf ++ utf8Str w.space = _
          rw [hsp0]
          simpa [utf8Str] using hbuf)
      hdone hcnl hcs hok hws hwc hansi hpw hls hlp hlnl h
  · rw [addNewLine, if_neg hps] at h
    exact commit_tail L B N w w' hlim hB hN hL1 hNL done cur hbuf hdone hcnl
      hcs hok hws hwc hansi hpw hls hlp hlnl h

theorem restart_inv (L : Nat) (B N : List Char) (w0 w1 : WordWrap)
    (hinv : Inv L B N w0) (hwb : w0.wroteBegin = false)
    (h : addWord { w0 with buf := w0.buf ++ utf8Str w0.lastAnsi } =
      some w1) :
    Inv L B N { w1 with wroteBegin := true } ∧ w1.ansi = false := by
  obtain ⟨hlim, hB, hN, hL1, hNL, done, cur, hbuf, hdone, hcnl, hcs, hcok,
    hws, hwc, hwbd, he, hsp, hls, hlp, hlnl⟩ := hinv
  obtain ⟨hdpw, hdcur, hdll, hdsp, hdan⟩ := hwbd hwb
  subst hdcur
  by_cases hw0 : w0.word = []
  · rw [addWord_id _ (show ({ w0 with
        buf := w0.buf ++ utf8Str w0.lastAnsi } : WordWrap).word = []
      from hw0)] at h
    injection h with h'
    subst h'
    refine ⟨⟨hlim, hB, hN, hL1, hNL, done, w0.lastAnsi, ?_, hdone, hlnl, ?_,
      ?_, hws, hwc, ?_, he, hsp, hls, hlp, hlnl⟩, hdan⟩
    · show w0.buf ++ utf8Str w0.lastAnsi = _
      rw [hbuf, ← utf8Str_append, joinl_append, List.nil_append]
    · rw [hls]
      exact hdan
    · refine Or.inr (Or.inr ⟨[], w0.lastAnsi, (List.nil_append _).symm,
        Or.inl rfl, ?_, ?_⟩)
      · show prw w0.lastAnsi ≤ w0.lineLen
        omega
      · show w0.lineLen ≤ L
        omega
    · intro hx
      exact Bool.noConfusion (show true = false from hx)
  · rw [addWord, if_pos (show ({ w0 with
        buf := w0.buf ++ utf8Str w0.lastAnsi } : WordWrap).word ≠ []
      from hw0)] at h
    rw [addSpace_fit { w0 with buf := w0.buf ++ utf8Str w0.lastAnsi }
      (by show (byteLen w0.space : Int) ≤ w0.limit - (w0.lineLen : Int)
          rw [hdsp, hlim, hdll]
          show (0 : Int) ≤ _
          omega)] at h
    have h2 : some { w0 with
        buf := ((w0.buf ++ utf8Str w0.lastAnsi) ++ utf8Str w0.space) ++
          utf8Str w0.word,
        lineLen := (w0.lineLen + byteLen w0.space) + prw w0.word,
        word := [], space := [] } = some w1 := h
    injection h2 with h'
    subst h'
    have hbl0 : byteLen w0.space = 0 := by rw [hdsp]; rfl
    have hlascan : ansiScan false w0.lastAnsi = false := by
      rw [hls]
      exact hdan
    have hwscan : ansiScan false w0.word = false := by
      rw [hws]
      exact hdan
    refine ⟨⟨hlim, hB, hN, hL1, hNL, done, w0.lastAnsi ++ w0.word, ?_,
      hdone, ?_, ?_, ?_, ?_, ?_, ?_, ?_, ?_, hls, hlp, hlnl⟩, hdan⟩
    · show ((w0.buf ++ utf8Str w0.lastAnsi) ++ utf8Str w0.space) ++
        utf8Str w0.word = _
      have e1 : utf8Str w0.space = [] := by rw [hdsp]; rfl
      rw [e1, List.append_nil, hbuf, ← utf8Str_append, ← utf8Str_append,
        joinl_append, joinl_append, List.nil_append]
    · intro hmem
      rcases List.mem_append.mp hmem with h1 | h1
      · exact hlnl h1
      · exact cleanWord_no_nl B N w0.word false hwc h1
    · rw [ansiScan_append, hlascan, hwscan]
    · refine Or.inr (Or.inr ⟨[], w0.lastAnsi ++ w0.word,
        (List.nil_append _).symm, Or.inl rfl, ?_, ?_⟩)
      · have e2 : prw (w0.lastAnsi ++ w0.word) =
            prw w0.lastAnsi + prw w0.word :=
          prw_append_of_closed _ _ hlascan
        show prw (w0.lastAnsi ++ w0.word) ≤
          (w0.lineLen + byteLen w0.space) + prw w0.word
        omega
      · show (w0.lineLen + byteLen w0.space) + prw w0.word ≤ L
        omega
    · show ansiScan false [] = w0.ansi
      rw [hdan]
      rfl
    · show cleanWordB B N false [] = true
      rfl
    · intro hx
      exact Bool.noConfusion (show true = false from hx)
    · intro hne
      exact absurd rfl hne
    · intro c hc
      exact absurd hc (List.not_mem_nil c)

theorem inGroup_iff (a : List Char) (c : Char) :
    inGroup a c = true ↔ c ∈ a := by
  simp [inGroup]

theorem ansiStep_plain (c : Char) (h1 : ¬c = '\x1B') :
    ansiStep false c = false := by
  simp [ansiStep, h1]

theorem ansiStep_nonterm (c : Char) (h1 : ¬c = '\x1B')
    (h2 : ¬isTerm c = true) : ansiStep true c = true := by
  simp [ansiStep, h1, h2]

theorem ansiStep_term (c : Char) (h1 : ¬c = '\x1B') (h2 : isTerm c = true) :
    ansiStep true c = false := by
  simp [ansiStep, h1, h2]

theorem ansiScan_single (a : Bool) (c : Char) :
    ansiScan a [c] = ansiStep a c := rfl

theorem prwFrom_single_true (c : Char) : prwFrom true [c] = 0 := by
  rw [prwFrom_cons]
  have h0 : ∀ b, prwFrom b [] = 0 := fun b => rfl
  rw [h0]
  split_ifs with hA hB
  · rfl
  · rfl
  · exact absurd rfl hB

theorem prw_single (c : Char) (h1 : ¬c = '\x1B') :
    prw [c] = runeWidth c := by
  rw [prw, prwFrom_cons]
  have h0 : ∀ b, prwFrom b [] = 0 := fun b => rfl
  rw [h0, if_neg h1, if_neg (by exact Bool.false_ne_true)]
  omega

theorem cleanWordB_single (B N : List Char) (a : Bool) (c : Char)
    (h : (if c = '\x1B' then true
          else if a then decide (c ≠ '\n') else wcharB B N c) = true) :
    cleanWordB B N a [c] = true := by
  rw [cleanWordB_cons, h]
  have h0 : cleanWordB B N (ansiStep a c) [] = true := rfl
  rw [h0]
  rfl

theorem inv_flags (L : Nat) (B N : List Char) (w : WordWrap)
    (hinv : Inv L B N w) (na lz : Bool) :
    Inv L B N { w with newArgument := na, leadingZero := lz } := by
  obtain ⟨hlim, hB, hN, hL1, hNL, done, cur, hbuf, hdone, hcnl, hcs, hcok,
    hws, hwc, hwbd, he, hsp, hls, hlp, hlnl⟩ := hinv
  exact ⟨hlim, hB, hN, hL1, hNL, done, cur, hbuf, hdone, hcnl, hcs, hcok,
    hws, hwc, hwbd, he, hsp, hls, hlp, hlnl⟩

theorem inv_ansi_update (L : Nat) (B N : List Char) (w : WordWrap)
    (hinv : Inv L B N w) (hwb : w.wroteBegin = true)
    (ext la2 : List Char) (a2 na2 lz2 : Bool)
    (hscan : ansiScan w.ansi ext = a2)
    (hclean : cleanWordB B N w.ansi ext = true)
    (hprw : prwFrom w.ansi ext = 0)
    (hla : ansiScan false la2 = a2) (hlp2 : prw la2 = 0)
    (hlnl2 : '\n' ∉ la2) :
    Inv L B N { w with
                  word := w.word ++ ext, lastAnsi := la2, ansi := a2,
                  newArgument := na2, leadingZero := lz2 } := by
  obtain ⟨hlim, hB, hN, hL1, hNL, done, cur, hbuf, hdone, hcnl, hcs, hcok,
    hws, hwc, hwbd, he, hsp, hls, hlp, hlnl⟩ := hinv
  have hprw2 : prw (w.word ++ ext) = prw w.word := by
    rw [prw, prwFrom_append]
    have h1 : ansiScan false w.word = w.ansi := hws
    rw [h1, hprw]
    have h2 : prw w.word = prwFrom false w.word := rfl
    omega
  refine ⟨hlim, hB, hN, hL1, hNL, done, cur, hbuf, hdone, hcnl, hcs, hcok,
    ?_, ?_, ?_, ?_, hsp, ?_, ?_, ?_⟩
  · show ansiScan false (w.word ++ ext) = a2
    rw [ansiScan_append, hws, hscan]
  · show cleanWordB B N false (w.word ++ ext) = true
    rw [cleanWordB_append, hwc, hws, hclean]
    rfl
  · intro hx
    exfalso
    have h1 : w.wroteBegin = false := hx
    rw [hwb] at h1
    exact Bool.noConfusion h1
  · intro hne
    by_cases hwz : w.word = []
    · right; right
      show prw (w.word ++ ext) = 0
      rw [hprw2, hwz]
      rfl
    · rcases he hwz with h1 | h1 | h1
      · left
        show w.lineLen + byteLen w.space + prw (w.word ++ ext) ≤ L
        rw [hprw2]
        exact h1
      · right; left
        show L ≤ prw (w.word ++ ext)
        rw [hprw2]
        exact h1
      · right; right
        show prw (w.word ++ ext) = 0
        rw [hprw2]
        exact h1
  · show ansiScan false la2 = a2
    exact hla
  · exact hlp2
  · exact hlnl2

theorem addSpace_word_comm (w : WordWrap) (x : List Char) :
    addSpace { w with word := x } =
      (addSpace w).map (fun v => { v with word := x }) := by
  rw [addSpace, addSpace]
  show (if (byteLen w.space : Int) ≤ w.limit - (w.lineLen : Int) then _
    else _) = _
  split_ifs with h1 h2 h3 <;> rfl

theorem ansi_tail2 (L : Nat) (B N : List Char) (w w' : WordWrap) (c : Char)
    (nv lzv : Bool) (hinv : Inv L B N w) (hwb : w.wroteBegin = true)
    (hesc : ¬c = '\x1B') (ha : w.ansi = true) (hcne : c ≠ '\n')
    (h : (do
        let w5 : WordWrap :=
          if isTerm c = true then
            { (if lzv = true then
                ({ w with newArgument := nv, leadingZero := false,
                          lastAnsi := [], word := w.word ++ ['0'] } :
                  WordWrap)
               else
                { w with newArgument := nv, leadingZero := lzv,
                         lastAnsi := w.lastAnsi ++ [c] }) with
              ansi := false }
          else
            { w with newArgument := nv, leadingZero := lzv,
                     lastAnsi := w.lastAnsi ++ [c] }
        some { w5 with word := w5.word ++ [c] }) = some w') :
    Inv L B N w' ∧ w'.ansi = ansiStep w.ansi c := by
  have hinvc := hinv
  obtain ⟨hlim, hB, hN, hL1, hNL, done, cur, hbuf, hdone, hcnl, hcs, hcok,
    hws, hwc, hwbd, he, hsp, hls, hlp, hlnl⟩ := hinvc
  by_cases hterm : isTerm c = true
  · rw [if_pos hterm] at h
    by_cases hlz : lzv = true
    · rw [if_pos hlz] at h
      injection h with h'
      subst h'
      constructor
      · rw [List.append_assoc]
        exact inv_ansi_update L B N w hinv hwb ['0', c] [] false nv false
          (by rw [ha]
              have h9 : ansiScan true ['0', c] = ansiStep true c := rfl
              rw [h9]
              exact ansiStep_term c hesc hterm)
          (by rw [ha]
              have h9 : cleanWordB B N true ['0', c] =
                  (true && cleanWordB B N true [c]) := rfl
              rw [h9, Bool.true_and]
              exact cleanWordB_single B N true c
                (by rw [if_neg hesc]; simp [hcne]))
          (by rw [ha]
              have h9 : prwFrom true ['0', c] = prwFrom true [c] := rfl
              rw [h9]
              exact prwFrom_single_true c)
          rfl rfl (List.not_mem_nil '\n')
      · show (false : Bool) = ansiStep w.ansi c
        rw [ha]
        exact (ansiStep_term c hesc hterm).symm
    · rw [if_neg hlz] at h
      injection h with h'
      subst h'
      constructor
      · exact inv_ansi_update L B N w hinv hwb [c] (w.lastAnsi ++ [c]) false
          nv lzv
          (by rw [ha, ansiScan_single]
              exact ansiStep_term c hesc hterm)
          (by rw [ha]
              exact cleanWordB_single B N true c
                (by rw [if_neg hesc]; simp [hcne]))
          (by rw [ha]
              exact prwFrom_single_true c)
          (by rw [ansiScan_append, hls, ha, ansiScan_single]
              exact ansiStep_term c hesc hterm)
          (by rw [prw, prwFrom_append, hls, ha, prwFrom_single_true]
              have h9 : prw w.lastAnsi = prwFrom false w.lastAnsi := rfl
              omega)
          (by intro hm
              rcases List.mem_append.mp hm with h1 | h1
              · exact hlnl h1
              · rw [List.mem_singleton] at h1
                exact hcne h1.symm)
      · show (false : Bool) = ansiStep w.ansi c
        rw [ha]
        exact (ansiStep_term c hesc hterm).symm
  · rw [if_neg hterm] at h
    injection h with h'
    subst h'
    constructor
    · exact inv_ansi_update L B N w hinv hwb [c] (w.lastAnsi ++ [c]) w.ansi
        nv lzv
        (by rw [ha, ansiScan_single]
            exact ansiStep_nonterm c hesc hterm)
        (by rw [ha]
            exact cleanWordB_single B N true c
              (by rw [if_neg hesc]; simp [hcne]))
        (by rw [ha]
            exact prwFrom_single_true c)
        (by rw [ansiScan_append, hls, ha, ansiScan_single]
            exact ansiStep_nonterm c hesc hterm)
        (by rw [prw, prwFrom_append, hls, ha, prwFrom_single_true]
            have h9 : prw w.lastAnsi = prwFrom false w.lastAnsi := rfl
            omega)
        (by intro hm
            rcases List.mem_append.mp hm with h1 | h1
            · exact hlnl h1
            · rw [List.mem_singleton] at h1
              exact hcne h1.symm)
    · show w.ansi = ansiStep w.ansi c
      rw [ha]
      exact (ansiStep_nonterm c hesc hterm).symm

theorem ansi_tail (L : Nat) (B N : List Char) (w w' : WordWrap) (c : Char)
    (lzv : Bool) (hinv : Inv L B N w) (hwb : w.wroteBegin = true)
    (hesc : ¬c = '\x1B') (ha : w.ansi = true) (hcne : c ≠ '\n')
    (h : (if inGroup ['[', ';'] c = true ∧ lzv = true then
        some { w with
                 newArgument := true, lastAnsi := ['\x1B', '['],
                 leadingZero := false,
                 word := w.word ++ ['0', 'm', '\x1B', '['] }
      else (do
        let w3 : WordWrap :=
          if inGroup ['[', ';'] c = true then
            { w with newArgument := true, leadingZero := lzv }
          else { w with newArgument := false, leadingZero := lzv }
        let w4 : WordWrap := { w3 with lastAnsi := w3.lastAnsi ++ [c] }
        let w5 : WordWrap :=
          if isTerm c = true then
            { (if w4.leadingZero = true then
                ({ w4 with
                     word := w4.word ++ ['0'], lastAnsi := [],
                     leadingZero := false } : WordWrap)
               else w4) with
              ansi := false }
          else w4
        some { w5 with word := w5.word ++ [c] })) = some w') :
    Inv L B N w' ∧ w'.ansi = ansiStep w.ansi c := by
  by_cases hsplit : inGroup ['[', ';'] c = true ∧ lzv = true
  · rw [if_pos hsplit] at h
    injection h with h'
    subst h'
    have hcv : c = '[' ∨ c = ';' := by
      have h1 := (inGroup_iff ['[', ';'] c).mp hsplit.1
      simpa using h1
    constructor
    · exact inv_ansi_update L B N w hinv hwb ['0', 'm', '\x1B', '[']
        ['\x1B', '['] w.ansi true false
        (by rw [ha]; rfl)
        (by rw [ha]; rfl)
        (by rw [ha]; rfl)
        (by rw [ha]; rfl)
        rfl
        (by decide)
    · show w.ansi = ansiStep w.ansi c
      rw [ha]
      rcases hcv with h1 | h1 <;> subst h1 <;> rfl
  · rw [if_neg hsplit] at h
    by_cases hbrk : inGroup ['[', ';'] c = true
    · rw [if_pos hbrk] at h
      exact ansi_tail2 L B N w w' c true lzv hinv hwb hesc ha hcne h
    · rw [if_neg hbrk] at h
      exact ansi_tail2 L B N w w' c false lzv hinv hwb hesc ha hcne h

theorem step_branches (L : Nat) (B N : List Char) (w w' : WordWrap)
    (c : Char) (hinv : Inv L B N w) (hwb : w.wroteBegin = true)
    (hsafe : w.ansi = true → c ≠ '\n')
    (h : (do
      if c = '\x1B' then
        some { w with word := w.word ++ [c], lastAnsi := w.lastAnsi ++ [c],
                      ansi := true, newArgument := true }
      else if w.ansi then
        if c = '0' ∧ w.newArgument then
          some { w with leadingZero := true }
        else
          let w := { w with newArgument := false }
          let w :=
            if inGroup ['1', '2', '3', '4', '5', '6', '7', '8', '9'] c then
              { w with leadingZero := false }
            else w
          if inGroup ['[', ';'] c ∧ w.leadingZero then
            some { w with newArgument := true,
                          lastAnsi := ['\x1B', '['],
                          leadingZero := false,
                          word := w.word ++ ['0', 'm', '\x1B', '['] }
          else
            let w :=
              if inGroup ['[', ';'] c then { w with newArgument := true }
              else w
            let w := { w with lastAnsi := w.lastAnsi ++ [c] }
            let w :=
              if isTerm c then
                let w :=
                  if w.leadingZero then
                    { w with word := w.word ++ ['0'], lastAnsi := [],
                             leadingZero := false }
                  else w
                { w with ansi := false }
              else w
            some { w with word := w.word ++ [c] }
      else if inGroup w.newline c then
        let w ←
          if w.word = [] then
            if (w.lineLen : Int) + (byteLen w.space : Int) > w.limit then
              some { w with lineLen := 0, space := [] }
            else
              some { w with buf := w.buf ++ utf8Str w.space, space := [] }
          else some w
        let w ← addWord w
        addNewLine w
      else if isSpaceGo c then
        let w ← addWord w
        some { w with space := w.space ++ [c] }
      else if inGroup w.breakpoints c then
        let w ← addSpace w
        let w ← addWord w
        some { w with buf := w.buf ++ utf8Char c }
      else if w.hardWrap ∧
          (w.lineLen : Int) + (prw w.word : Int) + (runeWidth c : Int) +
            (byteLen w.space : Int) = w.limit then
        addWord { w with word := w.word ++ [c] }
      else
        let w := { w with word := w.word ++ [c] }
        if (w.lineLen : Int) + (byteLen w.space : Int) + (prw w.word : Int) >
              w.limit ∧ (prw w.word : Int) < w.limit then
          addNewLine w
        else
          some w) = some w') :
    Inv L B N w' ∧ w'.ansi = ansiStep w.ansi c := by
  have hinvc := hinv
  obtain ⟨hlim, hB, hN, hL1, hNL, done, cur, hbuf, hdone, hcnl, hcs, hcok,
    hws, hwc, hwbd, he, hsp, hls, hlp, hlnl⟩ := hinvc
  by_cases hesc : c = '\x1B'
  · rw [if_pos hesc] at h
    injection h with h'
    subst h'
    subst hesc
    constructor
    · exact inv_ansi_update L B N w hinv hwb ['\x1B']
        (w.lastAnsi ++ ['\x1B']) true true w.leadingZero rfl rfl rfl
        (by rw [ansiScan_append]; rfl)
        (by rw [prw, prwFrom_append]
            have h9 : ∀ b, prwFrom b ['\x1B'] = 0 := fun b => rfl
            rw [h9]
            have h8 : prw w.lastAnsi = prwFrom false w.lastAnsi := rfl
            omega)
        (by intro hm
            rcases List.mem_append.mp hm with h1 | h1
            · exact hlnl h1
            · revert h1
              decide)
    · rfl
  · rw [if_neg hesc] at h
    by_cases ha : w.ansi = true
    · rw [if_pos ha] at h
      have hcne : c ≠ '\n' := hsafe ha
      by_cases h2a : c = '0' ∧ w.newArgument = true
      · rw [if_pos h2a] at h
        injection h with h'
        subst h'
        refine ⟨inv_flags L B N w hinv w.newArgument true, ?_⟩
        show w.ansi = ansiStep w.ansi c
        obtain ⟨hc0, -⟩ := h2a
        subst hc0
        rw [ha]
        rfl
      · rw [if_neg h2a] at h
        by_cases hdig : inGroup ['1', '2', '3', '4', '5', '6', '7', '8',
            '9'] c = true
        · simp only [hdig, if_true] at h
          exact ansi_tail L B N w w' c false hinv hwb hesc ha hcne h
        · have hdig' : inGroup ['1', '2', '3', '4', '5', '6', '7', '8',
              '9'] c = false := by
            revert hdig
            cases inGroup ['1', '2', '3', '4', '5', '6', '7', '8', '9'] c <;>
              simp
          simp only [hdig', if_false] at h
          exact ansi_tail L B N w w' c w.leadingZero hinv hwb hesc ha hcne h
    · rw [if_neg ha] at h
      have hansi0 : w.ansi = false := by
        revert ha
        cases w.ansi <;> simp
      have hstep0 : ansiStep w.ansi c = false := by
        rw [hansi0]
        exact ansiStep_plain c hesc
      by_cases hnl : inGroup w.newline c = true
      · -- newline branch
        rw [if_pos hnl] at h
        by_cases hword : w.word = []
        · rw [if_pos hword] at h
          have hpwz : prw w.word < L := by
            rw [hword]
            have h9 : prw ([] : List Char) = 0 := rfl
            omega
          by_cases hover : (w.lineLen : Int) + (byteLen w.space : Int) >
              w.limit
          · rw [if_pos hover] at h
            have h4 : (addWord { w with lineLen := 0, space := [] } >>=
                fun w3 => addNewLine w3) = some w' := h
            rw [addWord_id { w with lineLen := 0, space := [] }
              (show w.word = [] from hword)] at h4
            have h5 : addNewLine { w with lineLen := 0, space := [] } =
                some w' := h4
            obtain ⟨g1, g2, g3, g4, g5, g6, g7⟩ := addNewLine_commit L B N
              { w with lineLen := 0, space := [] } w' hlim hB hN hL1 hNL
              done cur hbuf hdone hcnl hcs
              (okLine_of_curOK B N L w.lineLen cur hcok) (Nat.zero_le L)
              hws hwc hansi0 hpwz rfl hls hlp hlnl h5
            refine ⟨g1, ?_⟩
            rw [hstep0, g3]
            exact hansi0
          · rw [if_neg hover] at h
            have hfitN : w.lineLen + byteLen w.space ≤ L := by
              rw [hlim] at hover
              omega
            have h4 : (addWord { w with
                buf := w.buf ++ utf8Str w.space,
                space := [] } >>= fun w3 => addNewLine w3) = some w' := h
            rw [addWord_id { w with
              buf := w.buf ++ utf8Str w.space,
              space := [] } (show w.word = [] from hword)] at h4
            have h5 : addNewLine { w with
                buf := w.buf ++ utf8Str w.space,
                space := [] } = some w' := h4
            obtain ⟨g1, g2, g3, g4, g5, g6, g7⟩ := addNewLine_commit L B N
              { w with buf := w.buf ++ utf8Str w.space, space := [] } w'
              hlim hB hN hL1 hNL done (cur ++ w.space)
              (by show w.buf ++ utf8Str w.space = _
                  rw [hbuf, ← utf8Str_append, joinl_append])
              hdone
              (by intro hm
                  rcases List.mem_append.mp hm with h1 | h1
                  · exact hcnl h1
                  · exact (hsp _ h1).2 rfl)
              (by rw [ansiScan_append, hcs]
                  exact ansiScan_false_of_no_esc _
                    (fun x hx => isSpaceGo_ne_esc x (hsp x hx).1))
              (okLine_append_space B N L w.lineLen cur w.space hcok hcs
                (fun x hx => (hsp x hx).1) hfitN)
              (show w.lineLen ≤ L by omega)
              hws hwc hansi0 hpwz rfl hls hlp hlnl h5
            refine ⟨g1, ?_⟩
            rw [hstep0, g3]
            exact hansi0
        · rw [if_neg hword] at h
          have h4 : (addWord w >>= fun w3 => addNewLine w3) = some w' := h
          cases haw : addWord w with
          | none =>
            rw [haw] at h4
            simp at h4
          | some w3 =>
            rw [haw] at h4
            have h5 : addNewLine w3 = some w' := h4
            obtain ⟨hinv3, hw3word, hw3ansi, hw3wb, _, _, _, _, _, _, _,
              _⟩ := addWord_inv L B N w w3 hinv hansi0 hwb haw
            obtain ⟨g1, g2, g3, g4, g5, g6, g7, g8, g9, g10, g11⟩ :=
              addNewLine_inv L B N w3 w' hinv3 hw3ansi hw3wb
                (by rw [hw3word]
                    have h9 : prw ([] : List Char) = 0 := rfl
                    omega) h5
            refine ⟨g1, ?_⟩
            rw [hstep0, g3]
            exact hw3ansi
      · rw [if_neg hnl] at h
        have hcnl2 : c ≠ '\n' := by
          intro hEq
          subst hEq
          exact hnl (by rw [hN]; exact (inGroup_iff N '\n').mpr hNL)
        by_cases hspc : isSpaceGo c = true
        · -- whitespace branch
          rw [if_pos hspc] at h
          cases haw : addWord w with
          | none =>
            rw [haw] at h
            simp at h
          | some w4 =>
            rw [haw] at h
            have h5 : some { w4 with space := w4.space ++ [c] } =
                some w' := h
            injection h5 with h'
            subst h'
            obtain ⟨hinv4, hw4word, hw4ansi, hw4wb, _, _, _, _, _, _, _,
              _⟩ := addWord_inv L B N w w4 hinv hansi0 hwb haw
            obtain ⟨hlim4, hB4, hN4, hL14, hNL4, done4, cur4, hbuf4,
              hdone4, hcnl4, hcs4, hcok4, hws4, hwc4, hwbd4, he4, hsp4,
              hls4, hlp4, hlnl4⟩ := hinv4
            refine ⟨⟨hlim4, hB4, hN4, hL14, hNL4, done4, cur4, hbuf4,
              hdone4, hcnl4, hcs4, hcok4, hws4, hwc4, ?_, ?_, ?_, hls4,
              hlp4, hlnl4⟩, ?_⟩
            · intro hx
              exfalso
              have h1 : w4.wroteBegin = false := hx
              rw [hw4wb] at h1
              exact Bool.noConfusion h1
            · intro hne
              exact absurd hw4word hne
            · intro x hx
              rcases List.mem_append.mp hx with h1 | h1
              · exact hsp4 x h1
              · rw [List.mem_singleton] at h1
                subst h1
                exact ⟨hspc, hcnl2⟩
            · rw [hstep0]
              show w4.ansi = false
              exact hw4ansi
        · rw [if_neg hspc] at h
          by_cases hbp : inGroup w.breakpoints c = true
          · -- breakpoint branch
            rw [if_pos hbp] at h
            cases hasp : addSpace w with
            | none =>
              rw [hasp] at h
              simp at h
            | some w4 =>
              rw [hasp] at h
              have h4 : (addWord w4 >>= fun w5 =>
                  some { w5 with buf := w5.buf ++ utf8Char c }) =
                  some w' := h
              obtain ⟨hinv4, hw4word, hw4ansi, hw4wb, _, _, _, _, _, _,
                _⟩ := addSpace_inv L B N w w4 hinv hasp
              have hansi4 : w4.ansi = false := by
                rw [hw4ansi]
                exact hansi0
              have hwb4 : w4.wroteBegin = true := by
                rw [hw4wb]
                exact hwb
              cases haw : addWord w4 with
              | none =>
                rw [haw] at h4
                simp at h4
              | some w5 =>
                rw [haw] at h4
                have h5 : some { w5 with buf := w5.buf ++ utf8Char c } =
                    some w' := h4
                injection h5 with h'
                subst h'
                obtain ⟨hinv5, hw5word, hw5ansi, hw5wb, _, _, _, _, _, _,
                  _, _⟩ := addWord_inv L B N w4 w5 hinv4 hansi4 hwb4 haw
                obtain ⟨hlim5, hB5, hN5, hL15, hNL5, done5, cur5, hbuf5,
                  hdone5, hcnl5, hcs5, hcok5, hws5, hwc5, hwbd5, he5,
                  hsp5, hls5, hlp5, hlnl5⟩ := hinv5
                have hbpB : inGroup B c = true := by
                  rw [← hB]
                  exact hbp
                refine ⟨⟨hlim5, hB5, hN5, hL15, hNL5, done5, cur5 ++ [c],
                  ?_, hdone5, ?_, ?_, ?_, hws5, hwc5, ?_, ?_, hsp5, hls5,
                  hlp5, hlnl5⟩, ?_⟩
                · show w5.buf ++ utf8Char c = _
                  rw [hbuf5, show utf8Char c = utf8Str [c] from
                    by simp [utf8Str], ← utf8Str_append, joinl_append]
                · intro hm
                  rcases List.mem_append.mp hm with h1 | h1
                  · exact hcnl5 h1
                  · rw [List.mem_singleton] at h1
                    exact hcnl2 h1.symm
                · rw [ansiScan_append, hcs5, ansiScan_single]
                  exact ansiStep_plain c hesc
                · exact Or.inl (hasBreakpoint_of_mem B (cur5 ++ [c]) c
                    (by simp) hbpB)
                · intro hx
                  exfalso
                  have h1 : w5.wroteBegin = false := hx
                  rw [hw5wb] at h1
                  exact Bool.noConfusion h1
                · intro hne
                  exact absurd hw5word hne
                · rw [hstep0]
                  show w5.ansi = false
                  exact hw5ansi
          · rw [if_neg hbp] at h
            have hwch : wcharB B N c = true := by
              have hnlN : ¬inGroup N c = true := by
                rw [← hN]
                exact hnl
              have hbpN : ¬inGroup B c = true := by
                rw [← hB]
                exact hbp
              simp only [wcharB, decide_eq_true_eq]
              exact ⟨hspc, hnlN, hbpN, hcnl2, hesc⟩
            have hwordscan : ansiScan false (w.word ++ [c]) = false := by
              rw [ansiScan_append, hws, hansi0, ansiScan_single]
              exact ansiStep_plain c hesc
            have hwordscanW : ansiScan false (w.word ++ [c]) = w.ansi := by
              rw [hwordscan, hansi0]
            have hwordclean : cleanWordB B N false (w.word ++ [c]) =
                true := by
              rw [cleanWordB_append, hwc, hws, hansi0,
                cleanWordB_single B N false c
                  (by rw [if_neg hesc, if_neg Bool.false_ne_true]
                      exact hwch)]
              rfl
            have hpA : prw (w.word ++ [c]) = prw w.word + runeWidth c := by
              rw [prw_append_of_closed _ _ (by rw [hws]; exact hansi0),
                prw_single c hesc]
            by_cases hhwc : w.hardWrap = true ∧
                (w.lineLen : Int) + (prw w.word : Int) +
                  (runeWidth c : Int) + (byteLen w.space : Int) = w.limit
            · -- hard-wrap exact-fit branch
              rw [if_pos hhwc] at h
              have hhw2 := hhwc.2
              rw [hlim] at hhw2
              have hinvM : Inv L B N { w with word := w.word ++ [c] } := by
                refine ⟨hlim, hB, hN, hL1, hNL, done, cur, hbuf, hdone,
                  hcnl, hcs, hcok, hwordscanW, hwordclean, ?_, ?_, hsp,
                  hls, hlp, hlnl⟩
                · intro hx
                  exfalso
                  have h1 : w.wroteBegin = false := hx
                  rw [hwb] at h1
                  exact Bool.noConfusion h1
                · intro hne
                  left
                  show w.lineLen + byteLen w.space + prw (w.word ++ [c]) ≤ L
                  rw [hpA]
                  omega
              obtain ⟨g1, g2, g3, g4, g5, g6, g7, g8, g9, g10, g11, g12⟩ :=
                addWord_inv L B N { w with word := w.word ++ [c] } w' hinvM
                  (show w.ansi = false from hansi0)
                  (show w.wroteBegin = true from hwb) h
              refine ⟨g1, ?_⟩
              rw [hstep0]
              exact g3
            · rw [if_neg hhwc] at h
              have h4 : (if (w.lineLen : Int) + (byteLen w.space : Int) +
                    (prw (w.word ++ [c]) : Int) > w.limit ∧
                    (prw (w.word ++ [c]) : Int) < w.limit then
                  addNewLine { w with word := w.word ++ [c] }
                else some { w with word := w.word ++ [c] }) = some w' := h
              by_cases hov : (w.lineLen : Int) + (byteLen w.space : Int) +
                  (prw (w.word ++ [c]) : Int) > w.limit ∧
                  (prw (w.word ++ [c]) : Int) < w.limit
              · rw [if_pos hov] at h4
                have hpwlt : prw (w.word ++ [c]) < L := by
                  have hov2 := hov.2
                  rw [hlim] at hov2
                  omega
                rw [addNewLine] at h4
                by_cases hps : w.preserveSpaces = true
                · rw [if_pos (show ({ w with word := w.word ++ [c] } :
                    WordWrap).preserveSpaces = true from hps),
                    addSpace_word_comm w (w.word ++ [c])] at h4
                  cases hasp : addSpace w with
                  | none =>
                    rw [hasp] at h4
                    simp at h4
                  | some v =>
                    rw [hasp] at h4
                    obtain ⟨hinvV, hwordV, hansiV, hwbV, hlaV, _, _, _, _,
                      _, _⟩ := addSpace_inv L B N w v hinv hasp
                    obtain ⟨hlimV, hBV, hNV, hL1V, hNLV, doneV, curV,
                      hbufV, hdoneV, hcnlV, hcsV, hcokV, hwsV, hwcV, _, _,
                      hspV, hlsV, hlpV, hlnlV⟩ := hinvV
                    obtain ⟨g1, g2, g3, g4, g5, g6, g7⟩ := commit_tail
                      L B N { v with word := w.word ++ [c] } w' hlimV hBV
                      hNV hL1V hNLV doneV curV hbufV hdoneV hcnlV hcsV
                      (okLine_of_curOK B N L v.lineLen curV hcokV)
                      (by show ansiScan false (w.word ++ [c]) = v.ansi
                          rw [hwordscan, hansiV]
                          exact hansi0.symm)
                      hwordclean
                      (show v.ansi = false from by
                        rw [hansiV]
                        exact hansi0)
                      hpwlt hlsV hlpV hlnlV h4
                    refine ⟨g1, ?_⟩
                    rw [hstep0, g3]
                    show v.ansi = false
                    rw [hansiV]
                    exact hansi0
                · rw [if_neg (show ¬({ w with word := w.word ++ [c] } :
                    WordWrap).preserveSpaces = true from hps)] at h4
                  obtain ⟨g1, g2, g3, g4, g5, g6, g7⟩ := commit_tail
                    L B N { w with word := w.word ++ [c] } w' hlim hB hN
                    hL1 hNL done cur hbuf hdone hcnl hcs
                    (okLine_of_curOK B N L w.lineLen cur hcok)
                    (by show ansiScan false (w.word ++ [c]) = w.ansi
                        rw [hwordscan]
                        exact hansi0.symm)
                    hwordclean (show w.ansi = false from hansi0)
                    hpwlt hls hlp hlnl h4
                  refine ⟨g1, ?_⟩
                  rw [hstep0, g3]
                  exact hansi0
              · rw [if_neg hov] at h4
                injection h4 with h'
                subst h'
                refine ⟨⟨hlim, hB, hN, hL1, hNL, done, cur, hbuf, hdone,
                  hcnl, hcs, hcok, hwordscanW, hwordclean, ?_, ?_, hsp,
                  hls, hlp, hlnl⟩, ?_⟩
                · intro hx
                  exfalso
                  have h1 : w.wroteBegin = false := hx
                  rw [hwb] at h1
                  exact Bool.noConfusion h1
                · intro hne
                  rcases not_and_or.mp hov with h1 | h1
                  · left
                    show w.lineLen + byteLen w.space +
                      prw (w.word ++ [c]) ≤ L
                    rw [hlim] at h1
                    omega
                  · right; left
                    show L ≤ prw (w.word ++ [c])
                    rw [hlim] at h1
                    omega
                · rw [hstep0]
                  exact hansi0

theorem step_preserves (L : Nat) (B N : List Char) (w0 w' : WordWrap)
    (c : Char) (hinv : Inv L B N w0)
    (hsafe : w0.ansi = true → c ≠ '\n')
    (h : step w0 c = some w') :
    Inv L B N w' ∧ w'.ansi = ansiStep w0.ansi c := by
  rw [step] at h
  by_cases hres : ¬w0.wroteBegin = true ∧ ¬w0.ansi = true ∧
      w0.lastAnsi ≠ []
  · rw [if_pos hres] at h
    cases haw : addWord { w0 with buf := w0.buf ++ utf8Str w0.lastAnsi } with
    | none =>
      rw [haw] at h
      simp at h
    | some w1 =>
      rw [haw] at h
      have hwb0 : w0.wroteBegin = false := by
        have h1 := hres.1
        revert h1
        cases w0.wroteBegin <;> simp
      have hansi00 : w0.ansi = false := by
        have h1 := hres.2.1
        revert h1
        cases w0.ansi <;> simp
      obtain ⟨hinvR, hansiR⟩ := restart_inv L B N w0 w1 hinv hwb0 haw
      have hsafe' : ({ w1 with wroteBegin := true } : WordWrap).ansi =
          true → c ≠ '\n' := by
        intro hx
        exfalso
        have h1 : w1.ansi = true := hx
        rw [hansiR] at h1
        exact Bool.noConfusion h1
      obtain ⟨g1, g2⟩ := step_branches L B N { w1 with wroteBegin := true }
        w' c hinvR rfl hsafe' h
      refine ⟨g1, ?_⟩
      rw [g2]
      show ansiStep w1.ansi c = ansiStep w0.ansi c
      rw [hansiR, hansi00]
  · rw [if_neg hres] at h
    have hinvT : Inv L B N { w0 with wroteBegin := true } := by
      obtain ⟨hlim, hB, hN, hL1, hNL, done, cur, hbuf, hdone, hcnl, hcs2,
        hcok, hws, hwc, hwbd, he, hsp, hls, hlp, hlnl⟩ := hinv
      refine ⟨hlim, hB, hN, hL1, hNL, done, cur, hbuf, hdone, hcnl, hcs2,
        hcok, hws, hwc, ?_, he, hsp, hls, hlp, hlnl⟩
      intro hx
      exfalso
      have h1 : true = false := hx
      exact Bool.noConfusion h1
    have hsafe' : ({ w0 with wroteBegin := true } : WordWrap).ansi =
        true → c ≠ '\n' := hsafe
    obtain ⟨g1, g2⟩ := step_branches L B N { w0 with wroteBegin := true }
      w' c hinvT rfl hsafe' h
    exact ⟨g1, g2⟩

theorem fold_preserves (L : Nat) (B N : List Char) :
    ∀ (cs : List Char) (w0 w' : WordWrap), Inv L B N w0 →
    ansiSafeB w0.ansi cs = true → cs.foldlM step w0 = some w' →
    Inv L B N w' := by
  intro cs
  induction cs with
  | nil =>
    intro w0 w' hinv _ h
    have h2 : some w0 = some w' := h
    injection h2 with h'
    subst h'
    exact hinv
  | cons c cs ih =>
    intro w0 w' hinv hsafe h
    rw [List.foldlM_cons] at h
    cases hstep : step w0 c with
    | none =>
      rw [hstep] at h
      simp at h
    | some w1 =>
      rw [hstep] at h
      have h2 : cs.foldlM step w1 = some w' := h
      simp only [ansiSafeB, Bool.and_eq_true, decide_eq_true_eq] at hsafe
      obtain ⟨hs1, hs2⟩ := hsafe
      obtain ⟨hinv1, hansi1⟩ := step_preserves L B N w0 w1 c hinv
        (by intro ha
            rcases hs1 with h3 | h3
            · exact absurd ha h3
            · exact h3) hstep
      rw [← hansi1] at hs2
      exact ih w1 w' hinv1 hs2 h2

theorem okLine_append_word_final (B N : List Char) (L ll : Nat)
    (cur x : List Char) (h : curOK B N L ll cur)
    (hcc : ansiScan false cur = false)
    (hxc : cleanWordB B N false x = true) (hne : x ≠ [])
    (hcase : ll + prw x ≤ L ∨ L ≤ prw x ∨ prw x = 0) :
    okLine B N L (cur ++ x) := by
  rcases hcase with hc | hc | hc
  · -- the word fits after the current content
    rcases h with h | ⟨⟨u, t, hl, ht, htc, hts, htw⟩, hll⟩ |
        ⟨pre, r, hsplit, hpre, hr, hllL⟩
    · exact Or.inr (Or.inl (hasBreakpoint_mono B cur x h))
    · have hw0 : prw x = 0 := by omega
      refine Or.inr (Or.inr (Or.inl (endsInBigWord_of_decomp B N L _ u
        (t ++ x) ?_ (by simp [ht]) ?_ ?_)))
      · rw [hl, List.append_assoc]
      · rw [cleanWordB_append, htc, hts, hxc]
        rfl
      · rw [prw_append_of_closed t x hts]
        omega
    · have hrc : ansiScan false r = false := by
        rw [hsplit] at hcc
        exact scan_of_pre_split pre r L hpre hcc
      have hra : prw (r ++ x) = prw r + prw x :=
        prw_append_of_closed r x hrc
      rcases hpre with h1 | h1
      · subst h1
        rw [List.nil_append] at hsplit
        subst hsplit
        left
        omega
      · subst h1
        refine Or.inr (Or.inr (Or.inr ⟨r ++ x, ?_, ?_⟩))
        · rw [hsplit, List.append_assoc]
        · omega
  · exact Or.inr (Or.inr (Or.inl
      (endsInBigWord_of_decomp B N L _ cur x rfl hne hxc hc)))
  · rcases h with h | ⟨⟨u, t, hl, ht, htc, hts, htw⟩, hll⟩ |
        ⟨pre, r, hsplit, hpre, hr, hllL⟩
    · exact Or.inr (Or.inl (hasBreakpoint_mono B cur x h))
    · refine Or.inr (Or.inr (Or.inl (endsInBigWord_of_decomp B N L _ u
        (t ++ x) ?_ (by simp [ht]) ?_ ?_)))
      · rw [hl, List.append_assoc]
      · rw [cleanWordB_append, htc, hts, hxc]
        rfl
      · rw [prw_append_of_closed t x hts]
        omega
    · have hrc : ansiScan false r = false := by
        rw [hsplit] at hcc
        exact scan_of_pre_split pre r L hpre hcc
      have hra : prw (r ++ x) = prw r + prw x :=
        prw_append_of_closed r x hrc
      rcases hpre with h1 | h1
      · subst h1
        rw [List.nil_append] at hsplit
        subst hsplit
        left
        omega
      · subst h1
        refine Or.inr (Or.inr (Or.inr ⟨r ++ x, ?_, ?_⟩))
        · rw [hsplit, List.append_assoc]
        · omega

theorem close_lines (L : Nat) (B N : List Char) (w w2 : WordWrap)
    (hinv : Inv L B N w) (h : close w = some w2) :
    ∃ done cur, w2.buf = utf8Str (joinl done cur) ∧
      (∀ l ∈ done ++ [cur], okLine B N L l ∧ '\n' ∉ l) := by
  have key : ∀ w1 : WordWrap, Inv L B N w1 → addWord w1 = some w2 →
      ∃ done cur, w2.buf = utf8Str (joinl done cur) ∧
        (∀ l ∈ done ++ [cur], okLine B N L l ∧ '\n' ∉ l) := by
    intro w1 hinv1 h2
    by_cases hword : w1.word = []
    · rw [addWord_id w1 hword] at h2
      injection h2 with h'
      subst h'
      obtain ⟨hlim, hB, hN, hL1, hNL, done, cur, hbuf, hdone, hcnl, hcs,
        hcok, hws, hwc, hwbd, he, hsp, hls, hlp, hlnl⟩ := hinv1
      refine ⟨done, cur, hbuf, ?_⟩
      intro l hl
      rcases List.mem_append.mp hl with h1 | h1
      · exact hdone l h1
      · rw [List.mem_singleton] at h1
        subst h1
        exact ⟨okLine_of_curOK B N L w1.lineLen l hcok, hcnl⟩
    · rw [addWord, if_pos (by simp [hword])] at h2
      cases haddsp : addSpace w1 with
      | none =>
        rw [haddsp] at h2
        simp at h2
      | some w1s =>
        rw [haddsp] at h2
        have h3 : some { w1s with
                           lineLen := w1s.lineLen + prw w1s.word,
                           buf := w1s.buf ++ utf8Str w1s.word,
                           word := [] } = some w2 := h2
        injection h3 with h'
        subst h'
        obtain ⟨hinvs, hwords, hansis, _, _, _, _, _, _, _, hfitimp⟩ :=
          addSpace_inv L B N w1 w1s hinv1 haddsp
        obtain ⟨hlim1, _, _, _, _, _, _, _, _, _, _, _, _, _, _, he1, _,
          _, _, _⟩ := hinv1
        obtain ⟨hlim, hB, hN, hL1, hNL, done, cur, hbuf, hdone, hcnl, hcs,
          hcok, hws, hwc, hwbd, he, hsp, hls, hlp, hlnl⟩ := hinvs
        have hcase : w1s.lineLen + prw w1s.word ≤ L ∨ L ≤ prw w1s.word ∨
            prw w1s.word = 0 := by
          rcases he1 hword with h1 | h1 | h1
          · left
            have h4 := hfitimp (by omega)
            rw [hwords]
            omega
          · right; left
            rw [hwords]
            exact h1
          · right; right
            rw [hwords]
            exact h1
        have hwne : w1s.word ≠ [] := by
          rw [hwords]
          exact hword
        refine ⟨done, cur ++ w1s.word, ?_, ?_⟩
        · show w1s.buf ++ utf8Str w1s.word = _
          rw [hbuf, ← utf8Str_append, joinl_append]
        · intro l hl
          rcases List.mem_append.mp hl with h1 | h1
          · exact hdone l h1
          · rw [List.mem_singleton] at h1
            subst h1
            refine ⟨okLine_append_word_final B N L w1s.lineLen cur
              w1s.word hcok hcs hwc hwne hcase, ?_⟩
            intro hm
            rcases List.mem_append.mp hm with h4 | h4
            · exact hcnl h4
            · exact cleanWord_no_nl B N w1s.word false hwc h4
  by_cases hps : w.preserveSpaces = true
  · rw [close, if_pos hps] at h
    cases hsp : addSpace w with
    | none =>
      rw [hsp] at h
      simp at h
    | some w1 =>
      rw [hsp] at h
      have h2 : addWord w1 = some w2 := h
      obtain ⟨hinv1, _⟩ := addSpace_inv L B N w w1 hinv hsp
      exact key w1 hinv1 h2
  · rw [close, if_neg hps] at h
    have h2 : addWord w = some w2 := h
    exact key w hinv h2

theorem mkWriter_inv (L : Nat) (B N : List Char) (kn hw ps : Bool)
    (tr : List Char) (hL1 : 1 ≤ L) (hNL : '\n' ∈ N) :
    Inv L B N (mkWriter (L : Int) B N kn hw ps tr) := by
  refine ⟨rfl, rfl, rfl, hL1, hNL, [], [], rfl, ?_, ?_, rfl, ?_, rfl, rfl,
    ?_, ?_, ?_, rfl, rfl, ?_⟩
  · intro l hl
    exact absurd hl (List.not_mem_nil l)
  · exact List.not_mem_nil '\n'
  · exact Or.inr (Or.inr ⟨[], [], rfl, Or.inl rfl, Nat.le_refl 0,
      Nat.zero_le L⟩)
  · intro _
    refine ⟨?_, rfl, rfl, rfl, rfl⟩
    show prw ([] : List Char) < L
    have h9 : prw ([] : List Char) = 0 := rfl
    omega
  · intro hne
    exact absurd rfl hne
  · intro c hc
    exact absurd hc (List.not_mem_nil c)
  · exact List.not_mem_nil '\n'

theorem write_preserves (L : Nat) (B N : List Char) (w0 w1 : WordWrap)
    (b : List Nat) (hinv : Inv L B N w0)
    (hsafe : ansiSafeB w0.ansi (preprocess w0 b) = true)
    (h : write w0 b = some w1) : Inv L B N w1 := by
  have hinvc := hinv
  obtain ⟨hlim, _, _, hL1, _, _⟩ := hinvc
  rw [write, if_neg (by rw [hlim]; omega)] at h
  exact fold_preserves L B N (preprocess w0 b) w0 w1 hinv hsafe h

/-- C1 (amended): for every input and every configuration with
`limit = L ≥ 1` whose newline set contains `'\n'` and whose preprocessed
rune stream never carries a newline inside an escape sequence, every
line of the finalized output satisfies `okLine`: its printable width is
at most `L`, or it contains a breakpoint character, or it ends in an
unbroken clean word of printable width at least `L`, or it is a
full-width space run left by a space split followed by a remainder of
width at most `L`.  (The unamended claim — width ≤ limit except for a
line that is a single atomic word — is refuted by
`c1_counterexample`.) -/
theorem c1_amended (L : Nat) (B N : List Char) (kn hw ps : Bool)
    (tr : List Char) (b out : List Nat)
    (hL1 : 1 ≤ L) (hNL : '\n' ∈ N)
    (hsafe : ansiSafeB false
      (preprocess (mkWriter (L : Int) B N kn hw ps tr) b) = true)
    (h : runWriter (mkWriter (L : Int) B N kn hw ps tr) b = some out) :
    ∀ bl ∈ splitNL out, okLine B N L (decodeGo bl) := by
  rw [runWriter] at h
  cases hw1 : write (mkWriter (L : Int) B N kn hw ps tr) b with
  | none =>
    rw [hw1] at h
    simp at h
  | some w1 =>
    rw [hw1] at h
    have h3 : (close w1 >>= fun w2 => some w2.buf) = some out := h
    cases hcl : close w1 with
    | none =>
      rw [hcl] at h3
      simp at h3
    | some w2 =>
      rw [hcl] at h3
      have h2 : some w2.buf = some out := h3
      injection h2 with h'
      subst h'
      have hinv1 := write_preserves L B N
        (mkWriter (L : Int) B N kn hw ps tr) w1 b
        (mkWriter_inv L B N kn hw ps tr hL1 hNL) hsafe hw1
      obtain ⟨done, cur, hbuf, hlines⟩ := close_lines L B N w1 w2 hinv1 hcl
      intro bl hbl
      rw [hbuf, splitNL_utf8Str, splitNLC_joinl done cur
        (fun l hl => (hlines l (List.mem_append.mpr (Or.inl hl))).2)
        ((hlines cur (List.mem_append.mpr
          (Or.inr (List.mem_singleton.mpr rfl)))).2)] at hbl
      rw [List.mem_map] at hbl
      obtain ⟨l, hl1, hl2⟩ := hbl
      subst hl2
      rw [decodeGo_utf8Str]
      exact (hlines l hl1).1

theorem c1_amended_witness :
    okLine ['-'] ['\n'] 4 (decodeGo (utf8Str [' ', 'a', 'a', 'a', 'a'])) :=
  c1_amended 4 ['-'] ['\n'] true false false []
    (utf8Str [' ', 'a', 'a', 'a', 'a']) (utf8Str [' ', 'a', 'a', 'a', 'a'])
    (by decide) (by decide) (by decide) (by decide)
    (utf8Str [' ', 'a', 'a', 'a', 'a']) (by decide)

theorem adjWidth_nil (B : List Char) : adjWidth B [] = 0 := rfl

theorem adjWidth_append (B : List Char) (x y : List Char) :
    adjWidth B (x ++ y) = adjWidth B x + adjWidth B y := by
  simp [adjWidth]

theorem adjWidth_cons (B : List Char) (c : Char) (l : List Char) :
    adjWidth B (c :: l) = adjWeight B c + adjWidth B l := by
  simp [adjWidth]

theorem adjWidth_replicate_space (B : List Char) (n : Nat) :
    adjWidth B (List.replicate n ' ') = n := by
  have h1 : adjWeight B ' ' = 1 := rfl
  simp [adjWidth, List.map_replicate, List.sum_replicate, smul_eq_mul, h1]

theorem adjWidth_spaces (B : List Char) (sp : List Char)
    (h : ∀ c ∈ sp, isSpaceGo c = true) : adjWidth B sp = byteLen sp := by
  induction sp with
  | nil => rfl
  | cons c cs ih =>
    have hc : adjWeight B c = utf8Size c := by
      rw [adjWeight, if_pos (h c (by simp))]
    have ih2 := ih (fun x hx => h x (by simp [hx]))
    rw [adjWidth_cons, hc, ih2]
    show utf8Size c + byteLen cs = byteLen (c :: cs)
    simp [byteLen]

theorem adjWidth_word (B N : List Char) (l : List Char)
    (h : ∀ c ∈ l, wcharB B N c = true) : adjWidth B l = prw l := by
  have hne : ∀ c ∈ l, c ≠ '\x1B' := by
    intro c hc
    have h1 := h c hc
    simp only [wcharB, decide_eq_true_eq] at h1
    exact h1.2.2.2.2
  rw [prw_all_plain l hne]
  induction l with
  | nil => rfl
  | cons c cs ih =>
    have h1 := h c (by simp)
    simp only [wcharB, decide_eq_true_eq] at h1
    have hc : adjWeight B c = runeWidth c := by
      rw [adjWeight, if_neg (by simp [h1.1]), if_neg (by simp [h1.2.2.1])]
    rw [adjWidth_cons, hc, List.map_cons, List.sum_cons,
      ih (fun x hx => h x (by simp [hx])) (fun x hx => hne x (by simp [hx]))]

theorem addSpace_invC3 (L : Nat) (B N : List Char) (w w' : WordWrap)
    (hinv : InvC3 L B N w) (h : addSpace w = some w') :
    InvC3 L B N w' ∧ w'.word = w.word ∧ w'.ansi = w.ansi ∧
    w'.lastAnsi = w.lastAnsi ∧ w'.space = [] ∧
    w'.preserveSpaces = w.preserveSpaces ∧ w'.hardWrap = w.hardWrap ∧
    w'.wroteBegin = w.wroteBegin ∧
    (w.lineLen + byteLen w.space ≤ L →
      w'.lineLen = w.lineLen + byteLen w.space) := by
  obtain ⟨hlim, hB, hN, hL1, hNL, hansi, hla, done, cur, hbuf, hdone, hcnl,
    hadj, hword, hsp⟩ := hinv
  by_cases hfit : (byteLen w.space : Int) ≤ w.limit - (w.lineLen : Int)
  · rw [addSpace_fit w hfit] at h
    injection h with h'
    subst h'
    refine ⟨⟨hlim, hB, hN, hL1, hNL, hansi, hla, done, cur ++ w.space, ?_,
      hdone, ?_, ?_, hword, ?_⟩, rfl, rfl, rfl, rfl, rfl, rfl, rfl,
      fun _ => rfl⟩
    · show w.buf ++ utf8Str w.space = _
      rw [hbuf, ← utf8Str_append, joinl_append]
    · intro hm
      rcases List.mem_append.mp hm with h1 | h1
      · exact hcnl h1
      · exact (hsp _ h1).2 rfl
    · rw [adjWidth_append, adjWidth_spaces B w.space
        (fun x hx => (hsp x hx).1)]
      show _ = w.lineLen + byteLen w.space ∨
        _ = w.lineLen + byteLen w.space + L
      omega
    · intro c hc
      exact absurd hc (List.not_mem_nil c)
  · have hllL : w.lineLen ≤ L := by
      by_contra hgt
      have hnone : addSpace w = none := by
        rw [addSpace, if_neg hfit, if_pos (by rw [hlim]; omega)]
      rw [hnone] at h
      exact Option.noConfusion h
    have hover : L < w.lineLen + byteLen w.space := by
      rw [hlim] at hfit
      omega
    rw [addSpace_split w L hlim (by omega) hllL hover] at h
    injection h with h'
    subst h'
    set first := L - w.lineLen with hfirst
    set rest := byteLen w.space - first with hrestd
    set k := rest / L with hk
    set leftover := rest % L with hleft
    have hleftlt : leftover < L := Nat.mod_lt _ (by omega)
    have hfillnl : '\n' ∉ cur ++ List.replicate first ' ' := by
      intro hmem
      rcases List.mem_append.mp hmem with h1 | h1
      · exact hcnl h1
      · have h2 := List.eq_of_mem_replicate h1
        simp at h2
    have hspLnl : ('\n' : Char) ∉ List.replicate L ' ' := by
      intro hmem
      have h2 := List.eq_of_mem_replicate hmem
      simp at h2
    have hleftnl : ('\n' : Char) ∉ List.replicate leftover ' ' := by
      intro hmem
      have h2 := List.eq_of_mem_replicate hmem
      simp at h2
    have hjoin : joinl done cur ++
        (List.replicate first ' ' ++
          (List.replicate k ('\n' :: List.replicate L ' ')).flatten ++
          (if 0 < leftover then '\n' :: List.replicate leftover ' '
           else [])) =
        joinl (if k = 0 then done ++ [cur ++ List.replicate first ' ']
          else if 0 < leftover then
            done ++ [cur ++ List.replicate first ' '] ++
              List.replicate (k - 1) (List.replicate L ' ') ++
              [List.replicate L ' ']
          else done ++ [cur ++ List.replicate first ' '] ++
              List.replicate (k - 1) (List.replicate L ' '))
          (if 0 < leftover then List.replicate leftover ' '
           else List.replicate L ' ') := by
      rw [← List.append_assoc, ← List.append_assoc, joinl_append,
        joinl_spaceLines]
      by_cases hk0 : k = 0
      · rw [if_pos hk0, if_pos hk0]
        have hl0 : 0 < leftover := by
          have h2 : rest < L := by
            by_contra hge
            have h3 : 1 ≤ k := by
              rw [hk]
              exact Nat.one_le_div_iff (by omega) |>.mpr (by omega)
            omega
          rw [hleft, Nat.mod_eq_of_lt h2]
          omega
        rw [if_pos hl0, if_pos hl0, joinl_newline]
      · rw [if_neg hk0, if_neg hk0]
        by_cases hl0 : 0 < leftover
        · rw [if_pos hl0, if_pos hl0, if_pos hl0, joinl_newline]
        · rw [if_neg hl0, if_neg hl0, if_neg hl0, List.append_nil]
    have hmem1 : ∀ l ∈ done ++ [cur ++ List.replicate first ' '],
        '\n' ∉ l := by
      intro l hl
      rcases List.mem_append.mp hl with h3 | h3
      · exact hdone l h3
      · rw [List.mem_singleton] at h3
        subst h3
        exact hfillnl
    have hmem2 : ∀ l ∈ List.replicate (k - 1) (List.replicate L ' '),
        ('\n' : Char) ∉ l := by
      intro l hl
      rw [List.eq_of_mem_replicate hl]
      exact hspLnl
    refine ⟨⟨hlim, hB, hN, hL1, hNL, hansi, hla,
      (if k = 0 then done ++ [cur ++ List.replicate first ' ']
       else if 0 < leftover then
         done ++ [cur ++ List.replicate first ' '] ++
           List.replicate (k - 1) (List.replicate L ' ') ++
           [List.replicate L ' ']
       else done ++ [cur ++ List.replicate first ' '] ++
           List.replicate (k - 1) (List.replicate L ' ')),
      (if 0 < leftover then List.replicate leftover ' '
       else List.replicate L ' '), ?_, ?_, ?_, ?_, hword, ?_⟩,
      rfl, rfl, rfl, rfl, rfl, rfl, rfl,
      fun hc => absurd hc (by omega)⟩
    · show w.buf ++ utf8Str _ = _
      rw [hbuf, ← utf8Str_append, joinl_append, ← joinl_append, hjoin]
    · intro l hl
      split_ifs at hl with h1 h2
      · exact hmem1 l hl
      · rcases List.mem_append.mp hl with h3 | h3
        · rcases List.mem_append.mp h3 with h4 | h4
          · exact hmem1 l h4
          · exact hmem2 l h4
        · rw [List.mem_singleton] at h3
          subst h3
          exact hspLnl
      · rcases List.mem_append.mp hl with h3 | h3
        · exact hmem1 l h3
        · exact hmem2 l h3
    · split_ifs with h1
      · exact hleftnl
      · exact hspLnl
    · show adjWidth B _ = leftover ∨ adjWidth B _ = leftover + L
      split_ifs with h1
      · left
        exact adjWidth_replicate_space B leftover
      · right
        have h2 : leftover = 0 := by omega
        rw [adjWidth_replicate_space B L, h2]
        omega
    · intro c hc
      exact absurd hc (List.not_mem_nil c)

theorem wcharB_no_nl (B N : List Char) (l : List Char)
    (h : ∀ c ∈ l, wcharB B N c = true) : '\n' ∉ l := by
  intro hm
  have h1 := h '\n' hm
  simp only [wcharB, decide_eq_true_eq] at h1
  exact h1.2.2.2.1 rfl

theorem addWord_invC3 (L : Nat) (B N : List Char) (w w' : WordWrap)
    (hinv : InvC3 L B N w) (h : addWord w = some w') :
    InvC3 L B N w' ∧ w'.word = [] ∧ w'.ansi = w.ansi ∧
    w'.lastAnsi = w.lastAnsi ∧ w'.preserveSpaces = w.preserveSpaces ∧
    w'.hardWrap = w.hardWrap ∧ w'.wroteBegin = w.wroteBegin := by
  by_cases hw0 : w.word = []
  · rw [addWord_id w hw0] at h
    injection h with h'
    subst h'
    exact ⟨hinv, hw0, rfl, rfl, rfl, rfl, rfl⟩
  · rw [addWord, if_pos (by simp [hw0])] at h
    cases haddsp : addSpace w with
    | none =>
      rw [haddsp] at h
      simp at h
    | some w1 =>
      rw [haddsp] at h
      have h2 : some { w1 with
                         lineLen := w1.lineLen + prw w1.word,
                         buf := w1.buf ++ utf8Str w1.word,
                         word := [] } = some w' := h
      injection h2 with h'
      subst h'
      obtain ⟨hinv1, hw1word, hw1ansi, hw1la, hw1sp, hw1ps, hw1hw, hw1wb,
        _⟩ := addSpace_invC3 L B N w w1 hinv haddsp
      obtain ⟨hlim1, hB1, hN1, hL11, hNL1, hansi1, hla1, done1, cur1,
        hbuf1, hdone1, hcnl1, hadj1, hword1, hsp1⟩ := hinv1
      refine ⟨⟨hlim1, hB1, hN1, hL11, hNL1, hansi1, hla1, done1,
        cur1 ++ w1.word, ?_, hdone1, ?_, ?_, ?_, ?_⟩, rfl,
        (show w1.ansi = w.ansi from hw1ansi),
        (show w1.lastAnsi = w.lastAnsi from hw1la), hw1ps, hw1hw, hw1wb⟩
      · show w1.buf ++ utf8Str w1.word = _
        rw [hbuf1, ← utf8Str_append, joinl_append]
      · intro hm
        rcases List.mem_append.mp hm with h1 | h1
        · exact hcnl1 h1
        · exact wcharB_no_nl B N w1.word hword1 h1
      · rw [adjWidth_append, adjWidth_word B N w1.word hword1]
        show _ = w1.lineLen + prw w1.word ∨
          _ = w1.lineLen + prw w1.word + L
        omega
      · intro c hc
        exact absurd hc (List.not_mem_nil c)
      · exact hsp1

theorem addNewLine_commitC3 (L : Nat) (B N : List Char) (w w' : WordWrap)
    (hlim : w.limit = (L : Int)) (hB : w.breakpoints = B)
    (hN : w.newline = N) (hL1 : 1 ≤ L) (hNL : '\n' ∈ N)
    (hansi : w.ansi = false) (hla : w.lastAnsi = [])
    (done : List (List Char)) (cur : List Char)
    (hbuf : w.buf = utf8Str (joinl done cur))
    (hdone : ∀ l ∈ done, '\n' ∉ l) (hcnl : '\n' ∉ cur)
    (hword : ∀ c ∈ w.word, wcharB B N c = true)
    (hll : w.lineLen ≤ L) (hsp0 : w.space = [])
    (h : addNewLine w = some w') :
    InvC3 L B N w' ∧ w'.word = w.word ∧ w'.lineLen = 0 ∧
    w'.space = [] := by
  have key : ∀ w1 : WordWrap, w1.limit = (L : Int) → w1.breakpoints = B →
      w1.newline = N → w1.ansi = false → w1.lastAnsi = [] →
      w1.buf = utf8Str (joinl done cur) →
      (∀ c ∈ w1.word, wcharB B N c = true) →
      (do
        let w2 : WordWrap :=
          if w1.lastAnsi ≠ [] then
            { w1 with buf := w1.buf ++ utf8Str ['\x1B', '[', '0', 'm'] }
          else w1
        some { w2 with
                 buf := w2.buf ++ utf8Char '\n', lineLen := 0,
                 space := [], wroteBegin := false }) = some w' →
      InvC3 L B N w' ∧ w'.word = w1.word ∧ w'.lineLen = 0 ∧
        w'.space = [] := by
    intro w1 hlim1 hB1 hN1 hansi1 hla1 hbuf1 hword1 h1
    rw [if_neg (by rw [hla1]; simp)] at h1
    injection h1 with h'
    subst h'
    refine ⟨⟨hlim1, hB1, hN1, hL1, hNL, hansi1, hla1, done ++ [cur], [],
      ?_, ?_, List.not_mem_nil '\n', ?_, hword1, ?_⟩, rfl, rfl, rfl⟩
    · show w1.buf ++ utf8Char '\n' = _
      rw [hbuf1, ← joinl_newline]
      simp [utf8Str]
    · intro l hl
      rcases List.mem_append.mp hl with h2 | h2
      · exact hdone l h2
      · rw [List.mem_singleton] at h2
        subst h2
        exact hcnl
    · left
      rfl
    · intro c hc
      exact absurd hc (List.not_mem_nil c)
  by_cases hps : w.preserveSpaces = true
  · rw [addNewLine, if_pos hps,
      addSpace_fit w (by rw [hsp0, hlim]; show (0 : Int) ≤ _; omega)] at h
    obtain ⟨g1, g2, g3, g4⟩ := key
      { w with lineLen := w.lineLen + byteLen w.space,
               buf := w.buf ++ utf8Str w.space, space := [] }
      hlim hB hN hansi hla
      (by show w.buf ++ utf8Str w.space = _
          rw [hsp0]
          simpa [utf8Str] using hbuf)
      hword h
    exact ⟨g1, g2, g3, g4⟩
  · rw [addNewLine, if_neg hps] at h
    exact key w hlim hB hN hansi hla hbuf hword h

theorem addNewLine_invC3 (L : Nat) (B N : List Char) (w w' : WordWrap)
    (hinv : InvC3 L B N w) (h : addNewLine w = some w') :
    InvC3 L B N w' ∧ w'.word = w.word ∧ w'.lineLen = 0 ∧
    w'.space = [] := by
  obtain ⟨hlim, hB, hN, hL1, hNL, hansi, hla, done, cur, hbuf, hdone, hcnl,
    hadj, hword, hsp⟩ := hinv
  by_cases hps : w.preserveSpaces = true
  · rw [addNewLine, if_pos hps] at h
    cases hspl : addSpace w with
    | none =>
      rw [hspl] at h
      exact absurd (show (none : Option WordWrap) = some w' from h)
        (by simp)
    | some w1 =>
      rw [hspl] at h
      obtain ⟨hinv1, hw1word, hw1ansi, hw1la, hw1sp, _, _, _, _⟩ :=
        addSpace_invC3 L B N w w1
          ⟨hlim, hB, hN, hL1, hNL, hansi, hla, done, cur, hbuf, hdone,
            hcnl, hadj, hword, hsp⟩ hspl
      obtain ⟨hlim1, hB1, hN1, hL11, hNL1, hansi1, hla1, done1, cur1,
        hbuf1, hdone1, hcnl1, hadj1, hword1, hsp1⟩ := hinv1
      -- the reset branch is skipped: lastAnsi is empty
      have h2 : (do
          let w2 : WordWrap :=
            if w1.lastAnsi ≠ [] then
              { w1 with buf := w1.buf ++ utf8Str ['\x1B', '[', '0', 'm'] }
            else w1
          some { w2 with
                   buf := w2.buf ++ utf8Char '\n', lineLen := 0,
                   space := [], wroteBegin := false }) = some w' := h
      rw [if_neg (by rw [hw1la, hla]; simp)] at h2
      injection h2 with h'
      subst h'
      refine ⟨⟨hlim1, hB1, hN1, hL11, hNL1, hansi1, hla1, done1 ++ [cur1],
        [], ?_, ?_, List.not_mem_nil '\n', ?_, hword1, ?_⟩,
        (show w1.word = w.word from hw1word), rfl, rfl⟩
      · show w1.buf ++ utf8Char '\n' = _
        rw [hbuf1, ← joinl_newline]
        simp [utf8Str]
      · intro l hl
        rcases List.mem_append.mp hl with h2 | h2
        · exact hdone1 l h2
        · rw [List.mem_singleton] at h2
          subst h2
          exact hcnl1
      · left
        rfl
      · intro c hc
        exact absurd hc (List.not_mem_nil c)
  · rw [addNewLine, if_neg hps] at h
    have h2 : (do
        let w2 : WordWrap :=
          if w.lastAnsi ≠ [] then
            { w with buf := w.buf ++ utf8Str ['\x1B', '[', '0', 'm'] }
          else w
        some { w2 with
                 buf := w2.buf ++ utf8Char '\n', lineLen := 0,
                 space := [], wroteBegin := false }) = some w' := h
    rw [if_neg (by rw [hla]; simp)] at h2
    injection h2 with h'
    subst h'
    refine ⟨⟨hlim, hB, hN, hL1, hNL, hansi, hla, done ++ [cur], [], ?_, ?_,
      List.not_mem_nil '\n', ?_, hword, ?_⟩, rfl, rfl, rfl⟩
    · show w.buf ++ utf8Char '\n' = _
      rw [hbuf, ← joinl_newline]
      simp [utf8Str]
    · intro l hl
      rcases List.mem_append.mp hl with h2 | h2
      · exact hdone l h2
      · rw [List.mem_singleton] at h2
        subst h2
        exact hcnl
    · left
      rfl
    · intro c hc
      exact absurd hc (List.not_mem_nil c)

theorem step_branchesC3 (L : Nat) (B N : List Char) (w w' : WordWrap)
    (c : Char) (hinv : InvC3 L B N w) (hesc : ¬c = '\x1B')
    (h : (do
      if c = '\x1B' then
        some { w with word := w.word ++ [c], lastAnsi := w.lastAnsi ++ [c],
                      ansi := true, newArgument := true }
      else if w.ansi then
        if c = '0' ∧ w.newArgument then
          some { w with leadingZero := true }
        else
          let w := { w with newArgument := false }
          let w :=
            if inGroup ['1', '2', '3', '4', '5', '6', '7', '8', '9'] c then
              { w with leadingZero := false }
            else w
          if inGroup ['[', ';'] c ∧ w.leadingZero then
            some { w with newArgument := true,
                          lastAnsi := ['\x1B', '['],
                          leadingZero := false,
                          word := w.word ++ ['0', 'm', '\x1B', '['] }
          else
            let w :=
              if inGroup ['[', ';'] c then { w with newArgument := true }
              else w
            let w := { w with lastAnsi := w.lastAnsi ++ [c] }
            let w :=
              if isTerm c then
                let w :=
                  if w.leadingZero then
                    { w with word := w.word ++ ['0'], lastAnsi := [],
                             leadingZero := false }
                  else w
                { w with ansi := false }
              else w
            some { w with word := w.word ++ [c] }
      else if inGroup w.newline c then
        let w ←
          if w.word = [] then
            if (w.lineLen : Int) + (byteLen w.space : Int) > w.limit then
              some { w with lineLen := 0, space := [] }
            else
              some { w with buf := w.buf ++ utf8Str w.space, space := [] }
          else some w
        let w ← addWord w
        addNewLine w
      else if isSpaceGo c then
        let w ← addWord w
        some { w with space := w.space ++ [c] }
      else if inGroup w.breakpoints c then
        let w ← addSpace w
        let w ← addWord w
        some { w with buf := w.buf ++ utf8Char c }
      else if w.hardWrap ∧
          (w.lineLen : Int) + (prw w.word : Int) + (runeWidth c : Int) +
            (byteLen w.space : Int) = w.limit then
        addWord { w with word := w.word ++ [c] }
      else
        let w := { w with word := w.word ++ [c] }
        if (w.lineLen : Int) + (byteLen w.space : Int) + (prw w.word : Int) >
              w.limit ∧ (prw w.word : Int) < w.limit then
          addNewLine w
        else
          some w) = some w') :
    InvC3 L B N w' := by
  have hinvc := hinv
  obtain ⟨hlim, hB, hN, hL1, hNL, hansi, hla, done, cur, hbuf, hdone, hcnl,
    hadj, hword, hsp⟩ := hinvc
  rw [if_neg hesc, if_neg (show ¬w.ansi = true from by rw [hansi]; simp)]
    at h
  by_cases hnl : inGroup w.newline c = true
  · rw [if_pos hnl] at h
    by_cases hword0 : w.word = []
    · rw [if_pos hword0] at h
      by_cases hover : (w.lineLen : Int) + (byteLen w.space : Int) > w.limit
      · rw [if_pos hover] at h
        have h4 : (addWord { w with lineLen := 0, space := [] } >>=
            fun w3 => addNewLine w3) = some w' := h
        rw [addWord_id { w with lineLen := 0, space := [] }
          (show w.word = [] from hword0)] at h4
        have h5 : addNewLine { w with lineLen := 0, space := [] } =
            some w' := h4
        obtain ⟨g1, _, _, _⟩ := addNewLine_commitC3 L B N
          { w with lineLen := 0, space := [] } w' hlim hB hN hL1 hNL hansi
          hla done cur hbuf hdone hcnl hword (Nat.zero_le L) rfl h5
        exact g1
      · rw [if_neg hover] at h
        have h4 : (addWord { w with
            buf := w.buf ++ utf8Str w.space,
            space := [] } >>= fun w3 => addNewLine w3) = some w' := h
        rw [addWord_id { w with
          buf := w.buf ++ utf8Str w.space,
          space := [] } (show w.word = [] from hword0)] at h4
        have h5 : addNewLine { w with
            buf := w.buf ++ utf8Str w.space,
            space := [] } = some w' := h4
        obtain ⟨g1, _, _, _⟩ := addNewLine_commitC3 L B N
          { w with buf := w.buf ++ utf8Str w.space, space := [] } w'
          hlim hB hN hL1 hNL hansi hla done (cur ++ w.space)
          (by show w.buf ++ utf8Str w.space = _
              rw [hbuf, ← utf8Str_append, joinl_append])
          hdone
          (by intro hm
              rcases List.mem_append.mp hm with h1 | h1
              · exact hcnl h1
              · exact (hsp _ h1).2 rfl)
          hword
          (by show w.lineLen ≤ L
              rw [hlim] at hover
              omega)
          rfl h5
        exact g1
    · rw [if_neg hword0] at h
      have h4 : (addWord w >>= fun w3 => addNewLine w3) = some w' := h
      cases haw : addWord w with
      | none =>
        rw [haw] at h4
        simp at h4
      | some w3 =>
        rw [haw] at h4
        have h5 : addNewLine w3 = some w' := h4
        obtain ⟨hinv3, _, _, _, _, _, _⟩ := addWord_invC3 L B N w w3 hinv
          haw
        exact (addNewLine_invC3 L B N w3 w' hinv3 h5).1
  · rw [if_neg hnl] at h
    have hcnl2 : c ≠ '\n' := by
      intro hEq
      subst hEq
      exact hnl (by rw [hN]; exact (inGroup_iff N '\n').mpr hNL)
    by_cases hspc : isSpaceGo c = true
    · rw [if_pos hspc] at h
      cases haw : addWord w with
      | none =>
        rw [haw] at h
        simp at h
      | some w4 =>
        rw [haw] at h
        have h5 : some { w4 with space := w4.space ++ [c] } = some w' := h
        injection h5 with h'
        subst h'
        obtain ⟨hinv4, hw4word, _, _, _, _, _⟩ := addWord_invC3 L B N w w4
          hinv haw
        obtain ⟨hlim4, hB4, hN4, hL14, hNL4, hansi4, hla4, done4, cur4,
          hbuf4, hdone4, hcnl4, hadj4, hword4, hsp4⟩ := hinv4
        refine ⟨hlim4, hB4, hN4, hL14, hNL4, hansi4, hla4, done4, cur4,
          hbuf4, hdone4, hcnl4, hadj4, hword4, ?_⟩
        intro x hx
        rcases List.mem_append.mp hx with h1 | h1
        · exact hsp4 x h1
        · rw [List.mem_singleton] at h1
          subst h1
          exact ⟨hspc, hcnl2⟩
    · rw [if_neg hspc] at h
      by_cases hbp : inGroup w.breakpoints c = true
      · rw [if_pos hbp] at h
        cases hasp : addSpace w with
        | none =>
          rw [hasp] at h
          simp at h
        | some w4 =>
          rw [hasp] at h
          have h4 : (addWord w4 >>= fun w5 =>
              some { w5 with buf := w5.buf ++ utf8Char c }) = some w' := h
          obtain ⟨hinv4, _, _, _, _, _, _, _, _⟩ := addSpace_invC3 L B N w
            w4 hinv hasp
          cases haw : addWord w4 with
          | none =>
            rw [haw] at h4
            simp at h4
          | some w5 =>
            rw [haw] at h4
            have h5 : some { w5 with buf := w5.buf ++ utf8Char c } =
                some w' := h4
            injection h5 with h'
            subst h'
            obtain ⟨hinv5, _, _, _, _, _, _⟩ := addWord_invC3 L B N w4 w5
              hinv4 haw
            obtain ⟨hlim5, hB5, hN5, hL15, hNL5, hansi5, hla5, done5, cur5,
              hbuf5, hdone5, hcnl5, hadj5, hword5, hsp5⟩ := hinv5
            have hbpB : inGroup B c = true := by
              rw [← hB]
              exact hbp
            refine ⟨hlim5, hB5, hN5, hL15, hNL5, hansi5, hla5, done5,
              cur5 ++ [c], ?_, hdone5, ?_, ?_, hword5, hsp5⟩
            · show w5.buf ++ utf8Char c = _
              rw [hbuf5, show utf8Char c = utf8Str [c] from
                by simp [utf8Str], ← utf8Str_append, joinl_append]
            · intro hm
              rcases List.mem_append.mp hm with h1 | h1
              · exact hcnl5 h1
              · rw [List.mem_singleton] at h1
                exact hcnl2 h1.symm
            · have hwt : adjWeight B c = 0 := by
                rw [adjWeight, if_neg (by simp [hspc]), if_pos hbpB]
              rw [adjWidth_append]
              show adjWidth B cur5 + adjWidth B [c] = w5.lineLen ∨
                adjWidth B cur5 + adjWidth B [c] = w5.lineLen + L
              rw [adjWidth_cons, adjWidth_nil, hwt]
              omega
      · rw [if_neg hbp] at h
        have hwch : wcharB B N c = true := by
          have hnlN : ¬inGroup N c = true := by
            rw [← hN]
            exact hnl
          have hbpN : ¬inGroup B c = true := by
            rw [← hB]
            exact hbp
          simp only [wcharB, decide_eq_true_eq]
          exact ⟨hspc, hnlN, hbpN, hcnl2, hesc⟩
        have hwordM : ∀ x ∈ w.word ++ [c], wcharB B N x = true := by
          intro x hx
          rcases List.mem_append.mp hx with h1 | h1
          · exact hword x h1
          · rw [List.mem_singleton] at h1
            subst h1
            exact hwch
        have hinvM : InvC3 L B N { w with word := w.word ++ [c] } :=
          ⟨hlim, hB, hN, hL1, hNL, hansi, hla, done, cur, hbuf, hdone,
            hcnl, hadj, hwordM, hsp⟩
        by_cases hhwc : w.hardWrap = true ∧
            (w.lineLen : Int) + (prw w.word : Int) + (runeWidth c : Int) +
              (byteLen w.space : Int) = w.limit
        · rw [if_pos hhwc] at h
          exact (addWord_invC3 L B N { w with word := w.word ++ [c] } w'
            hinvM h).1
        · rw [if_neg hhwc] at h
          have h4 : (if (w.lineLen : Int) + (byteLen w.space : Int) +
                (prw (w.word ++ [c]) : Int) > w.limit ∧
                (prw (w.word ++ [c]) : Int) < w.limit then
              addNewLine { w with word := w.word ++ [c] }
            else some { w with word := w.word ++ [c] }) = some w' := h
          by_cases hov : (w.lineLen : Int) + (byteLen w.space : Int) +
              (prw (w.word ++ [c]) : Int) > w.limit ∧
              (prw (w.word ++ [c]) : Int) < w.limit
          · rw [if_pos hov] at h4
            exact (addNewLine_invC3 L B N { w with word := w.word ++ [c] }
              w' hinvM h4).1
          · rw [if_neg hov] at h4
            injection h4 with h'
            subst h'
            exact hinvM

theorem step_invC3 (L : Nat) (B N : List Char) (w0 w' : WordWrap)
    (c : Char) (hinv : InvC3 L B N w0) (hesc : ¬c = '\x1B')
    (h : step w0 c = some w') : InvC3 L B N w' := by
  have hinvc := hinv
  obtain ⟨hlim, hB, hN, hL1, hNL, hansi, hla, done, cur, hbuf, hdone, hcnl,
    hadj, hword, hsp⟩ := hinvc
  rw [step, if_neg (by rw [hla]; simp)] at h
  have hinvW : InvC3 L B N { w0 with wroteBegin := true } :=
    ⟨hlim, hB, hN, hL1, hNL, hansi, hla, done, cur, hbuf, hdone, hcnl,
      hadj, hword, hsp⟩
  exact step_branchesC3 L B N { w0 with wroteBegin := true } w' c hinvW
    hesc h

theorem fold_invC3 (L : Nat) (B N : List Char) :
    ∀ (cs : List Char) (w0 w' : WordWrap), InvC3 L B N w0 →
    noEsc cs = true → cs.foldlM step w0 = some w' → InvC3 L B N w' := by
  intro cs
  induction cs with
  | nil =>
    intro w0 w' hinv _ h
    have h2 : some w0 = some w' := h
    injection h2 with h'
    subst h'
    exact hinv
  | cons c cs ih =>
    intro w0 w' hinv hne h
    rw [List.foldlM_cons] at h
    simp only [noEsc, List.all_cons, Bool.and_eq_true,
      decide_eq_true_eq] at hne
    cases hstep : step w0 c with
    | none =>
      rw [hstep] at h
      simp at h
    | some w1 =>
      rw [hstep] at h
      have h2 : cs.foldlM step w1 = some w' := h
      have hinv1 := step_invC3 L B N w0 w1 c hinv hne.1 hstep
      exact ih w1 w' hinv1 (show noEsc cs = true from hne.2) h2

theorem close_invC3 (L : Nat) (B N : List Char) (w w2 : WordWrap)
    (hinv : InvC3 L B N w) (h : close w = some w2) : InvC3 L B N w2 := by
  by_cases hps : w.preserveSpaces = true
  · rw [close, if_pos hps] at h
    cases hsp : addSpace w with
    | none =>
      rw [hsp] at h
      simp at h
    | some w1 =>
      rw [hsp] at h
      have h2 : addWord w1 = some w2 := h
      obtain ⟨hinv1, _, _, _, _, _, _, _, _⟩ :=
        addSpace_invC3 L B N w w1 hinv hsp
      exact (addWord_invC3 L B N w1 w2 hinv1 h2).1
  · rw [close, if_neg hps] at h
    have h2 : addWord w = some w2 := h
    exact (addWord_invC3 L B N w w2 hinv h2).1

theorem invC3_adjWidth (L : Nat) (B N : List Char) (w : WordWrap)
    (hinv : InvC3 L B N w) :
    adjWidth B (afterLastNL (decodeGo w.buf)) = w.lineLen ∨
    adjWidth B (afterLastNL (decodeGo w.buf)) = w.lineLen + L := by
  obtain ⟨_, _, _, _, _, _, _, done, cur, hbuf, _, hcnl, hadj, _, _⟩ := hinv
  rw [hbuf, decodeGo_utf8Str, afterLastNL_joinl done cur hcnl]
  exact hadj

theorem mkWriter_invC3 (L : Nat) (B N : List Char) (kn hw ps : Bool)
    (tr : List Char) (hL1 : 1 ≤ L) (hNL : '\n' ∈ N) :
    InvC3 L B N (mkWriter (L : Int) B N kn hw ps tr) := by
  refine ⟨rfl, rfl, rfl, hL1, hNL, rfl, rfl, [], [], rfl, ?_, ?_, ?_, ?_,
    ?_⟩
  · intro l hl
    exact absurd hl (List.not_mem_nil l)
  · exact List.not_mem_nil '\n'
  · left
    rfl
  · intro c hc
    exact absurd hc (List.not_mem_nil c)
  · intro c hc
    exact absurd hc (List.not_mem_nil c)

/-- C3 (amended): for escape-free input, at every rune boundary of the
write loop — and after `Close` — the engine's `lineLen` counter equals
the adjusted width of the bytes committed since the last emitted line
break, where committed whitespace counts its UTF-8 byte length,
breakpoint characters count zero (the code emits the breakpoint rune
without incrementing `lineLen`), and every other rune counts its display
width; except that immediately after a space-run split with zero
leftover the current line is a full-width space run that is entirely
uncounted (the difference is then exactly `limit`).  (The unamended
claim — `lineLen` equals the sum of printable widths of everything
committed since the last line break, in particular after a breakpoint
is written — is refuted by `c3_counterexample`.) -/
theorem c3_amended (L : Nat) (B N : List Char) (kn hw ps : Bool)
    (tr : List Char) (b : List Nat) (p q : List Char) (wmid : WordWrap)
    (hL1 : 1 ≤ L) (hNL : '\n' ∈ N)
    (hsplit : preprocess (mkWriter (L : Int) B N kn hw ps tr) b = p ++ q)
    (hnoesc : noEsc p = true)
    (hfold : p.foldlM step (mkWriter (L : Int) B N kn hw ps tr) =
      some wmid) :
    (adjWidth B (afterLastNL (decodeGo wmid.buf)) = wmid.lineLen ∨
     adjWidth B (afterLastNL (decodeGo wmid.buf)) = wmid.lineLen + L) ∧
    ∀ w2, close wmid = some w2 →
      (adjWidth B (afterLastNL (decodeGo w2.buf)) = w2.lineLen ∨
       adjWidth B (afterLastNL (decodeGo w2.buf)) = w2.lineLen + L) := by
  have hinvm := fold_invC3 L B N p (mkWriter (L : Int) B N kn hw ps tr)
    wmid (mkWriter_invC3 L B N kn hw ps tr hL1 hNL) hnoesc hfold
  refine ⟨invC3_adjWidth L B N wmid hinvm, ?_⟩
  intro w2 hc
  exact invC3_adjWidth L B N w2 (close_invC3 L B N wmid w2 hinvm hc)

theorem c3_amended_witness :
    ((adjWidth ['-'] (afterLastNL (decodeGo ([45] : List Nat))) = 0 ∨
      adjWidth ['-'] (afterLastNL (decodeGo ([45] : List Nat))) = 0 + 5) ∧
     ∀ w2, close { limit := 5,
                   breakpoints := ['-'], newline := ['\n'],
                   keepNewlines := true, hardWrap := false,
                   tabReplace := [], preserveSpaces := false,
                   buf := [45], space := [], word := [], lineLen := 0,
                   ansi := false, wroteBegin := true, lastAnsi := [],
                   newArgument := false, leadingZero := false } = some w2 →
       (adjWidth ['-'] (afterLastNL (decodeGo w2.buf)) = w2.lineLen ∨
        adjWidth ['-'] (afterLastNL (decodeGo w2.buf)) = w2.lineLen + 5)) :=
  c3_amended 5 ['-'] ['\n'] true false false [] (utf8Str ['-', 'a'])
    ['-'] ['a']
    { limit := 5,
      breakpoints := ['-'], newline := ['\n'], keepNewlines := true,
      hardWrap := false, tabReplace := [], preserveSpaces := false,
      buf := [45], space := [], word := [], lineLen := 0, ansi := false,
      wroteBegin := true, lastAnsi := [], newArgument := false,
      leadingZero := false }
    (by decide) (by decide) (by decide) (by decide) (by decide)

theorem c9_char_step (L : Nat) (c : Char)
    (hwc : wcharB ['-'] ['\n'] c = true) (pre : List Char) (bb : List Nat)
    (wb na lz : Bool) :
    step { limit := (L : Int),
           breakpoints := ['-'], newline := ['\n'], keepNewlines := true,
           hardWrap := false, tabReplace := [], preserveSpaces := false,
           buf := bb, space := [], word := pre, lineLen := 0,
           ansi := false, wroteBegin := wb, lastAnsi := [],
           newArgument := na, leadingZero := lz } c =
      some { limit := (L : Int),
             breakpoints := ['-'], newline := ['\n'], keepNewlines := true,
             hardWrap := false, tabReplace := [], preserveSpaces := false,
             buf := bb, space := [], word := pre ++ [c], lineLen := 0,
             ansi := false, wroteBegin := true, lastAnsi := [],
             newArgument := na, leadingZero := lz } := by
  have hfacts := hwc
  simp only [wcharB, decide_eq_true_eq] at hfacts
  obtain ⟨hspv, hnlv, hbpv, hnlc, hesc⟩ := hfacts
  have hesc' : (c = '\x1B') = False := eq_false hesc
  have hnl' : inGroup ['\n'] c = false := by
    cases hgb : inGroup ['\n'] c with
    | false => rfl
    | true => exact absurd hgb hnlv
  have hsp' : isSpaceGo c = false := by
    cases hgb : isSpaceGo c with
    | false => rfl
    | true => exact absurd hgb hspv
  have hbp' : inGroup ['-'] c = false := by
    cases hgb : inGroup ['-'] c with
    | false => rfl
    | true => exact absurd hgb hbpv
  rw [step]
  rw [if_neg (by simp)]
  simp only [Option.bind_eq_bind, Option.some_bind, hesc', if_false, hnl',
    hsp', hbp', Bool.false_eq_true]
  rw [if_neg (by simp)]
  rw [if_neg (show ¬(((0 : Nat) : Int) + (byteLen ([] : List Char) : Int) +
      (prw (pre ++ [c]) : Int) > (L : Int) ∧
      (prw (pre ++ [c]) : Int) < (L : Int)) from by
    have hb0 : byteLen ([] : List Char) = 0 := rfl
    omega)]

theorem run_append (xs ys : List Char) (a b c : WordWrap)
    (h1 : xs.foldlM step a = some b) (h2 : ys.foldlM step b = some c) :
    (xs ++ ys).foldlM step a = some c := by
  rw [List.foldlM_append, h1]
  exact h2

theorem c9_word_fold (L : Nat) :
    ∀ (suffix pre : List Char) (bb : List Nat) (na lz : Bool),
    (∀ c ∈ suffix, wcharB ['-'] ['\n'] c = true) →
    suffix.foldlM step
      { limit := (L : Int),
        breakpoints := ['-'], newline := ['\n'], keepNewlines := true,
        hardWrap := false, tabReplace := [], preserveSpaces := false,
        buf := bb, space := [], word := pre, lineLen := 0, ansi := false,
        wroteBegin := true, lastAnsi := [], newArgument := na,
        leadingZero := lz } =
      some { limit := (L : Int),
             breakpoints := ['-'], newline := ['\n'], keepNewlines := true,
             hardWrap := false, tabReplace := [], preserveSpaces := false,
             buf := bb, space := [], word := pre ++ suffix, lineLen := 0,
             ansi := false, wroteBegin := true, lastAnsi := [],
             newArgument := na, leadingZero := lz } := by
  intro suffix
  induction suffix with
  | nil =>
    intro pre bb na lz _
    rw [List.append_nil]
    rfl
  | cons c cs ih =>
    intro pre bb na lz hwc
    rw [List.foldlM_cons,
      c9_char_step L c (hwc c (by simp)) pre bb true na lz,
      List.append_cons pre c cs]
    exact ih (pre ++ [c]) bb na lz (fun x hx => hwc x (by simp [hx]))

theorem c9_newline (L : Nat) (hL1 : 1 ≤ L) (l : List Char) (hlne : l ≠ [])
    (bb : List Nat) (na lz : Bool) :
    step { limit := (L : Int),
           breakpoints := ['-'], newline := ['\n'], keepNewlines := true,
           hardWrap := false, tabReplace := [], preserveSpaces := false,
           buf := bb, space := [], word := l, lineLen := 0, ansi := false,
           wroteBegin := true, lastAnsi := [], newArgument := na,
           leadingZero := lz } '\n' =
      some { limit := (L : Int),
             breakpoints := ['-'], newline := ['\n'], keepNewlines := true,
             hardWrap := false, tabReplace := [], preserveSpaces := false,
             buf := bb ++ (utf8Str l ++ utf8Char '\n'), space := [],
             word := [], lineLen := 0, ansi := false, wroteBegin := false,
             lastAnsi := [], newArgument := na, leadingZero := lz } := by
  rw [step]
  rw [if_neg (by simp)]
  simp only [Option.bind_eq_bind, Option.some_bind]
  rw [if_neg (by decide), if_neg (by simp), if_pos (by decide),
    if_neg hlne]
  rw [addWord, if_pos (by simp [hlne]),
    addSpace_fit _ (show (byteLen ([] : List Char) : Int) ≤
      (L : Int) - ((0 : Nat) : Int) from by
        have hb0 : byteLen ([] : List Char) = 0 := rfl
        omega)]
  simp only [Option.bind_eq_bind, Option.some_bind]
  rw [addNewLine, if_neg (by simp)]
  simp only [Option.bind_eq_bind, Option.some_bind]
  have hbufeq : ((bb ++ utf8Str ([] : List Char)) ++ utf8Str l) ++
      utf8Char '\n' = bb ++ (utf8Str l ++ utf8Char '\n') := by
    rw [show utf8Str ([] : List Char) = [] from rfl, List.append_nil,
      List.append_assoc]
  exact congrArg (fun bf => some
    ({ limit := (L : Int), breakpoints := ['-'], newline := ['\n'],
       keepNewlines := true, hardWrap := false, tabReplace := [],
       preserveSpaces := false, buf := bf, space := [], word := [],
       lineLen := 0, ansi := false, wroteBegin := false, lastAnsi := [],
       newArgument := na, leadingZero := lz } : WordWrap)) hbufeq

theorem c9_close (L : Nat) (hL1 : 1 ≤ L) (l : List Char) (hlne : l ≠ [])
    (bb : List Nat) (na lz : Bool) :
    ∃ w2, close { limit := (L : Int),
                  breakpoints := ['-'], newline := ['\n'],
                  keepNewlines := true, hardWrap := false,
                  tabReplace := [], preserveSpaces := false, buf := bb,
                  space := [], word := l, lineLen := 0, ansi := false,
                  wroteBegin := true, lastAnsi := [], newArgument := na,
                  leadingZero := lz } = some w2 ∧
      w2.buf = bb ++ utf8Str l := by
  rw [close, if_neg (by simp)]
  simp only [Option.bind_eq_bind, Option.some_bind]
  rw [addWord, if_pos (by simp [hlne]),
    addSpace_fit _ (show (byteLen ([] : List Char) : Int) ≤
      (L : Int) - ((0 : Nat) : Int) from by
        have hb0 : byteLen ([] : List Char) = 0 := rfl
        omega)]
  refine ⟨_, rfl, ?_⟩
  show (bb ++ utf8Str ([] : List Char)) ++ utf8Str l = bb ++ utf8Str l
  rw [show utf8Str ([] : List Char) = [] from rfl, List.append_nil]

theorem close_id (w : WordWrap) (hps : w.preserveSpaces = false)
    (hw : w.word = []) : close w = some w := by
  rw [close, if_neg (by simp [hps])]
  simp only [Option.bind_eq_bind, Option.some_bind]
  exact addWord_id w hw

theorem c9_line (L : Nat) (l : List Char) (hlne : l ≠ [])
    (hwc : ∀ c ∈ l, wcharB ['-'] ['\n'] c = true)
    (bb : List Nat) (wb na lz : Bool) :
    l.foldlM step
      { limit := (L : Int),
        breakpoints := ['-'], newline := ['\n'], keepNewlines := true,
        hardWrap := false, tabReplace := [], preserveSpaces := false,
        buf := bb, space := [], word := [], lineLen := 0, ansi := false,
        wroteBegin := wb, lastAnsi := [], newArgument := na,
        leadingZero := lz } =
      some { limit := (L : Int),
             breakpoints := ['-'], newline := ['\n'],
             keepNewlines := true, hardWrap := false, tabReplace := [],
             preserveSpaces := false, buf := bb, space := [], word := l,
             lineLen := 0, ansi := false, wroteBegin := true,
             lastAnsi := [], newArgument := na, leadingZero := lz } := by
  cases l with
  | nil => exact absurd rfl hlne
  | cons c cs =>
    rw [List.foldlM_cons, c9_char_step L c (hwc c (by simp)) [] bb wb na lz]
    simp only [Option.bind_eq_bind, Option.some_bind]
    exact c9_word_fold L cs ([] ++ [c]) bb na lz
      (fun x hx => hwc x (by simp [hx]))

theorem c9_run (L : Nat) (hL1 : 1 ≤ L) :
    ∀ (init : List (List Char)) (bb : List Nat) (wb na lz : Bool),
    (∀ l ∈ init, l ≠ []) →
    (∀ l ∈ init, ∀ c ∈ l, wcharB ['-'] ['\n'] c = true) →
    ∃ wb2 : Bool,
      ((init.map (fun l => l ++ ['\n'])).flatten).foldlM step
        { limit := (L : Int),
          breakpoints := ['-'], newline := ['\n'], keepNewlines := true,
          hardWrap := false, tabReplace := [], preserveSpaces := false,
          buf := bb, space := [], word := [], lineLen := 0,
          ansi := false, wroteBegin := wb, lastAnsi := [],
          newArgument := na, leadingZero := lz } =
        some { limit := (L : Int),
               breakpoints := ['-'], newline := ['\n'],
               keepNewlines := true, hardWrap := false,
               tabReplace := [], preserveSpaces := false,
               buf := bb ++
                 utf8Str ((init.map (fun l => l ++ ['\n'])).flatten),
               space := [], word := [], lineLen := 0, ansi := false,
               wroteBegin := wb2, lastAnsi := [], newArgument := na,
               leadingZero := lz } := by
  intro init
  induction init with
  | nil =>
    intro bb wb na lz _ _
    refine ⟨wb, ?_⟩
    exact congrArg (fun bf => some
      ({ limit := (L : Int), breakpoints := ['-'], newline := ['\n'],
         keepNewlines := true, hardWrap := false, tabReplace := [],
         preserveSpaces := false, buf := bf, space := [], word := [],
         lineLen := 0, ansi := false, wroteBegin := wb, lastAnsi := [],
         newArgument := na, leadingZero := lz } : WordWrap))
      (List.append_nil bb).symm
  | cons i is ih =>
    intro bb wb na lz hne hwc
    have hlne : i ≠ [] := hne i (by simp)
    have h1 := c9_line L i hlne (hwc i (by simp)) bb wb na lz
    have h2 : List.foldlM step
        { limit := (L : Int),
          breakpoints := ['-'], newline := ['\n'], keepNewlines := true,
          hardWrap := false, tabReplace := [], preserveSpaces := false,
          buf := bb, space := [], word := i, lineLen := 0,
          ansi := false, wroteBegin := true, lastAnsi := [],
          newArgument := na, leadingZero := lz } ['\n'] =
        some { limit := (L : Int),
               breakpoints := ['-'], newline := ['\n'],
               keepNewlines := true, hardWrap := false,
               tabReplace := [], preserveSpaces := false,
               buf := bb ++ (utf8Str i ++ utf8Char '\n'), space := [],
               word := [], lineLen := 0, ansi := false,
               wroteBegin := false, lastAnsi := [], newArgument := na,
               leadingZero := lz } := by
      rw [List.foldlM_cons, c9_newline L hL1 i hlne bb na lz]
      rfl
    obtain ⟨wb2, h3⟩ := ih (bb ++ (utf8Str i ++ utf8Char '\n')) false na lz
      (fun l hl => hne l (by simp [hl]))
      (fun l hl => hwc l (by simp [hl]))
    refine ⟨wb2, ?_⟩
    have h12 := run_append i ['\n'] _ _ _ h1 h2
    have hall := run_append (i ++ ['\n'])
      ((is.map (fun l => l ++ ['\n'])).flatten) _ _ _ h12 h3
    have hbuf : (bb ++ (utf8Str i ++ utf8Char '\n')) ++
        utf8Str ((is.map (fun l => l ++ ['\n'])).flatten) =
        bb ++ utf8Str ((i ++ ['\n']) ++
          (is.map (fun l => l ++ ['\n'])).flatten) := by
      rw [utf8Str_append, utf8Str_append,
        show utf8Str ['\n'] = utf8Char '\n' from rfl, List.append_assoc]
    rw [hbuf] at hall
    rw [List.map_cons, List.flatten_cons]
    exact hall

/-- C9 (amended): with the default configuration, word wrapping is the
identity on text already in wrapped form — a sequence of
newline-terminated lines followed by a final line, every line nonempty
and built only of plain word characters (no spaces, breakpoints,
newlines or escape sequences).  In particular, re-wrapping such
already-wrapped output at the same limit returns it unchanged, byte for
byte, so a second pass reproduces the first pass's line-break layout. -/
theorem c9_amended (L : Nat) (hL1 : 1 ≤ L) (init : List (List Char))
    (last : List Char) (hne : ∀ l ∈ init, l ≠ [])
    (hwc : ∀ l ∈ init, ∀ c ∈ l, wcharB ['-'] ['\n'] c = true)
    (hwl : ∀ c ∈ last, wcharB ['-'] ['\n'] c = true) :
    BytesGo (utf8Str (joinl init last)) (L : Int) =
      some (utf8Str (joinl init last)) := by
  have hNW : NewWriter (L : Int) =
      { limit := (L : Int),
        breakpoints := ['-'], newline := ['\n'], keepNewlines := true,
        hardWrap := false, tabReplace := [], preserveSpaces := false,
        buf := [], space := [], word := [], lineLen := 0, ansi := false,
        wroteBegin := false, lastAnsi := [], newArgument := false,
        leadingZero := false } := rfl
  have hlim : ¬((NewWriter (L : Int)).limit = 0) := by
    show ¬((L : Int) = 0)
    omega
  have hpre : preprocess (NewWriter (L : Int))
      (utf8Str (joinl init last)) = joinl init last := by
    show decodeGo (utf8Str (joinl init last)) = joinl init last
    exact decodeGo_utf8Str _
  rw [BytesGo, write, if_neg hlim, hpre, hNW, joinl]
  obtain ⟨wb2, hfold⟩ := c9_run L hL1 init [] false false false hne hwc
  rw [List.nil_append] at hfold
  by_cases hlast : last = []
  · subst hlast
    rw [List.append_nil, hfold]
    simp only [Option.bind_eq_bind, Option.some_bind]
    rw [close_id _ rfl rfl]
    simp only [Option.bind_eq_bind, Option.some_bind]
  · have h2 := c9_line L last hlast hwl
      (utf8Str ((init.map (fun l => l ++ ['\n'])).flatten)) wb2 false false
    have hall := run_append _ last _ _ _ hfold h2
    rw [hall]
    simp only [Option.bind_eq_bind, Option.some_bind]
    obtain ⟨w2, hcl, hbuf⟩ := c9_close L hL1 last hlast
      (utf8Str ((init.map (fun l => l ++ ['\n'])).flatten)) false false
    rw [hcl]
    simp only [Option.bind_eq_bind, Option.some_bind]
    rw [hbuf, ← utf8Str_append]

theorem c9_amended_witness :
    BytesGo (utf8Str (joinl [['a', 'b']] ['c'])) ((3 : Nat) : Int) =
      some (utf8Str (joinl [['a', 'b']] ['c'])) :=
  c9_amended 3 (by decide) [['a', 'b']] ['c'] (by decide) (by decide)
    (by decide)

set_option maxHeartbeats 1600000 in
theorem step_restart_split (w0 : WordWrap) (c : Char)
    (hwb : w0.wroteBegin = false) (hansi : w0.ansi = false)
    (hla : w0.lastAnsi ≠ []) :
    step w0 c =
      addWord { w0 with buf := w0.buf ++ utf8Str w0.lastAnsi } >>=
        fun w1 => step { w1 with wroteBegin := true } c := by
  rw [step]
  rw [if_pos (show ¬w0.wroteBegin ∧ ¬w0.ansi ∧ w0.lastAnsi ≠ [] from
    ⟨by simp [hwb], by simp [hansi], hla⟩)]
  cases haw : addWord { w0 with buf := w0.buf ++ utf8Str w0.lastAnsi } with
  | none => rfl
  | some w1 =>
    simp only [Option.bind_eq_bind, Option.some_bind]
    symm
    rw [step]
    rw [if_neg (show ¬(¬({ w1 with wroteBegin := true } :
        WordWrap).wroteBegin ∧
        ¬({ w1 with wroteBegin := true } : WordWrap).ansi ∧
        ({ w1 with wroteBegin := true } : WordWrap).lastAnsi ≠ []) from
      fun hcon => hcon.1 rfl)]
    rfl

theorem addWord_flush (w : WordWrap) (hsp : w.space = [])
    (hll : (w.lineLen : Int) ≤ w.limit) :
    addWord w = some { w with lineLen := w.lineLen + prw w.word,
                              buf := w.buf ++ utf8Str w.word,
                              word := [] } := by
  obtain ⟨lim, B1, N1, kn1, hw1, tr1, ps1, bu, sp, wo, ll, an, wb1, la1,
    na1, lz1⟩ := w
  have hsp' : sp = [] := hsp
  subst hsp'
  have hll' : ((ll : Nat) : Int) ≤ lim := hll
  by_cases hwo : wo = []
  · subst hwo
    rw [addWord, if_neg (by simp)]
    exact congrArg (fun bf => some
      ({ limit := lim, breakpoints := B1, newline := N1,
         keepNewlines := kn1, hardWrap := hw1, tabReplace := tr1,
         preserveSpaces := ps1, buf := bf, space := [], word := [],
         lineLen := ll, ansi := an, wroteBegin := wb1, lastAnsi := la1,
         newArgument := na1, leadingZero := lz1 } : WordWrap))
      (List.append_nil bu).symm
  · rw [addWord, if_pos hwo, addSpace_fit _ (show
      (byteLen ([] : List Char) : Int) ≤ lim - ((ll : Nat) : Int) from by
        have hb0 : byteLen ([] : List Char) = 0 := rfl
        omega)]
    simp only [Option.bind_eq_bind, Option.some_bind]
    exact congrArg (fun bf => some
      ({ limit := lim, breakpoints := B1, newline := N1,
         keepNewlines := kn1, hardWrap := hw1, tabReplace := tr1,
         preserveSpaces := ps1, buf := bf, space := [], word := [],
         lineLen := ll + prw wo, ansi := an, wroteBegin := wb1,
         lastAnsi := la1, newArgument := na1, leadingZero := lz1 } :
         WordWrap))
      (show (bu ++ utf8Str ([] : List Char)) ++ utf8Str wo =
        bu ++ utf8Str wo from by
        rw [show utf8Str ([] : List Char) = [] from rfl, List.append_nil])

theorem c4_char_step (L : Nat) (B N tr : List Char) (kn ps na lz : Bool)
    (c : Char) (hwcB : wcharB B N c = true) (pre la : List Char)
    (bb : List Nat) (ll : Nat)
    (hnb : ¬((ll : Int) + (byteLen ([] : List Char) : Int) +
      (prw (pre ++ [c]) : Int) > (L : Int) ∧
      (prw (pre ++ [c]) : Int) < (L : Int))) :
    step { limit := (L : Int), breakpoints := B, newline := N,
           keepNewlines := kn, hardWrap := false, tabReplace := tr,
           preserveSpaces := ps, buf := bb, space := [], word := pre,
           lineLen := ll, ansi := false, wroteBegin := true,
           lastAnsi := la, newArgument := na, leadingZero := lz } c =
      some { limit := (L : Int), breakpoints := B, newline := N,
             keepNewlines := kn, hardWrap := false, tabReplace := tr,
             preserveSpaces := ps, buf := bb, space := [],
             word := pre ++ [c], lineLen := ll, ansi := false,
             wroteBegin := true, lastAnsi := la, newArgument := na,
             leadingZero := lz } := by
  have hfacts := hwcB
  simp only [wcharB, decide_eq_true_eq] at hfacts
  obtain ⟨hspv, hnlv, hbpv, hnlc, hesc⟩ := hfacts
  have hesc' : (c = '\x1B') = False := eq_false hesc
  have hnl' : inGroup N c = false := by
    cases hgb : inGroup N c with
    | false => rfl
    | true => exact absurd hgb hnlv
  have hsp' : isSpaceGo c = false := by
    cases hgb : isSpaceGo c with
    | false => rfl
    | true => exact absurd hgb hspv
  have hbp' : inGroup B c = false := by
    cases hgb : inGroup B c with
    | false => rfl
    | true => exact absurd hgb hbpv
  rw [step]
  rw [if_neg (by simp)]
  simp only [Option.bind_eq_bind, Option.some_bind, hesc', if_false, hnl',
    hsp', hbp', Bool.false_eq_true]
  rw [if_neg (by simp)]
  rw [if_neg hnb]

/-- C4 (amended): the style replay holds at the rune level inside the
write loop, which is where the code performs it (lines 155–159): in any
state just after an emitted line break (`wroteBegin` unset, no committed
width, no pending spaces) with the normalizer not mid-sequence and a
retained style `la`, processing a plain word rune first replays `la`
verbatim into the output — at the start of the continuation line, before
any visible byte of that line — then flushes the pending word
immediately after it, then starts the new word with the rune.  (The
unamended claim, quantified over whole inputs, fails when the break is
forced at the end of the input: `Close` flushes the pending word without
the replay, as `c4_counterexample` shows.) -/
theorem c4_amended (L : Nat) (B N tr : List Char) (kn ps na lz : Bool)
    (bb : List Nat) (la wrd : List Char) (c : Char) (hla : la ≠ [])
    (hc : wcharB B N c = true)
    (hfit : (prw wrd : Int) + (prw [c] : Int) ≤ (L : Int)) :
    step { limit := (L : Int), breakpoints := B, newline := N,
           keepNewlines := kn, hardWrap := false, tabReplace := tr,
           preserveSpaces := ps, buf := bb, space := [], word := wrd,
           lineLen := 0, ansi := false, wroteBegin := false,
           lastAnsi := la, newArgument := na, leadingZero := lz } c =
      some { limit := (L : Int), breakpoints := B, newline := N,
             keepNewlines := kn, hardWrap := false, tabReplace := tr,
             preserveSpaces := ps,
             buf := (bb ++ utf8Str la) ++ utf8Str wrd, space := [],
             word := [c], lineLen := prw wrd, ansi := false,
             wroteBegin := true, lastAnsi := la, newArgument := na,
             leadingZero := lz } := by
  rw [step_restart_split
    { limit := (L : Int), breakpoints := B, newline := N,
      keepNewlines := kn, hardWrap := false, tabReplace := tr,
      preserveSpaces := ps, buf := bb, space := [], word := wrd,
      lineLen := 0, ansi := false, wroteBegin := false, lastAnsi := la,
      newArgument := na, leadingZero := lz } c rfl rfl hla]
  rw [addWord_flush
    { limit := (L : Int), breakpoints := B, newline := N,
      keepNewlines := kn, hardWrap := false, tabReplace := tr,
      preserveSpaces := ps, buf := bb ++ utf8Str la, space := [],
      word := wrd, lineLen := 0, ansi := false, wroteBegin := false,
      lastAnsi := la, newArgument := na, leadingZero := lz } rfl
    (by show ((0 : Nat) : Int) ≤ (L : Int); omega)]
  simp only [Option.bind_eq_bind, Option.some_bind]
  rw [Nat.zero_add (prw wrd)]
  exact c4_char_step L B N tr kn ps na lz c hc [] la
    ((bb ++ utf8Str la) ++ utf8Str wrd) (prw wrd)
    (by
      have hb0 : byteLen ([] : List Char) = 0 := rfl
      have hpc : prw (([] : List Char) ++ [c]) = prw [c] := rfl
      omega)

theorem c4_amended_witness :
    step { limit := ((4 : Nat) : Int), breakpoints := ['-'],
           newline := ['\n'], keepNewlines := true, hardWrap := false,
           tabReplace := [], preserveSpaces := false, buf := [],
           space := [], word := ['b'], lineLen := 0, ansi := false,
           wroteBegin := false, lastAnsi := ['\x1B', '[', '3', '1', 'm'],
           newArgument := false, leadingZero := false } 'b' =
      some { limit := ((4 : Nat) : Int), breakpoints := ['-'],
             newline := ['\n'], keepNewlines := true, hardWrap := false,
             tabReplace := [], preserveSpaces := false,
             buf := (([] : List Nat) ++
               utf8Str ['\x1B', '[', '3', '1', 'm']) ++ utf8Str ['b'],
             space := [], word := ['b'], lineLen := prw ['b'],
             ansi := false, wroteBegin := true,
             lastAnsi := ['\x1B', '[', '3', '1', 'm'],
             newArgument := false, leadingZero := false } :=
  c4_amended 4 ['-'] ['\n'] [] true false false false []
    ['\x1B', '[', '3', '1', 'm'] ['b'] 'b' (by decide) (by decide)
    (by decide)

end WordwrapModel
